import Mathlib

/-!
# auto-pch: dependency log parser and closure filter

A shallow embedding of `src/auto-pch.cpp`:

* the include graph (`boost::adjacency_list<vecS, vecS, bidirectionalS, std::string, bool>`),
* the input stream operations the parsers use (`peek`, `get`, `getline`, `tellg`, `seekg`),
* `ReadGccDepsFileRecursive`, `ReadMsvcDepsFileRecursive`, `ReadGccDepsFile`,
  `ReadMsvcDepsFile`, `ReadDepsFile`,
* `vertex_filter::examine_edge`, `boost::depth_first_search`, `ComputeIncludeFiles`,
* the rewrite decision of `main`.

Paths and file contents are lists of characters.  The recursive descent of the parser runs on
fuel and is shown to return for every stream (`parseFrom_total`); the traversal of the filter is
defined by well-founded recursion on the number of white vertices.  `int` counters are natural
numbers (no log is long enough to overflow them).
-/

namespace AutoPch

/-! ## Include graph -/

/-- A header path (`include_vertex_t`, a `std::string`). -/
abbrev Path := List Char

/-- The include graph `include_graph_t`.  Vertex descriptors are the indices into `paths`
(`vecS` vertex list); `edges` holds every edge `(source, target)` in insertion order, so the
out-edge list of a vertex (`vecS`) is the sub-list of the edges leaving it. -/
structure Graph where
  paths : List Path
  edges : List (Nat × Nat)
deriving DecidableEq, Repr

/-- The value of `boost::num_vertices`. -/
def num_vertices (g : Graph) : Nat := g.paths.length

/-- The call `boost::add_vertex(file, deps)`: the new descriptor and the grown graph. -/
def add_vertex (file : Path) (g : Graph) : Nat × Graph :=
  (g.paths.length, { g with paths := g.paths ++ [file] })

/-- The call `boost::add_edge(u, v, deps)`; parallel edges are kept. -/
def add_edge (u v : Nat) (g : Graph) : Graph :=
  { g with edges := g.edges ++ [(u, v)] }

/-- The range `boost::out_edges(u, g)`, in insertion order. -/
def out_edges (g : Graph) (u : Nat) : List (Nat × Nat) :=
  g.edges.filter (fun e => e.1 == u)

/-- The bundled property `g[v]` of a vertex. -/
def vertexPath (g : Graph) (v : Nat) : Path := g.paths.getD v []

/-! ## Closure filter -/

/-- A compiled `std::regex`, seen through `std::regex_match` on a whole string. -/
structure Regex where
  regex_match : Path → Bool

/-- The pattern without metacharacters: it matches exactly its own text. -/
def Regex.literal (s : Path) : Regex := ⟨fun t => t == s⟩

/-- The visitor `vertex_filter` together with the colour map of the traversal:
`discovered v` is "the colour of `v` is not white". -/
structure FilterState where
  discovered : Nat → Bool
  included_ : Nat → Bool
  keepers_ : List Path

/-- Mark a vertex in a flag vector. -/
def setFlag (f : Nat → Bool) (v : Nat) : Nat → Bool := fun x => if x = v then true else f x

/-- The method `vertex_filter::examine_edge`. -/
def examine_edge (filter_ : List Regex) (g : Graph) (e : Nat × Nat) (st : FilterState) :
    FilterState :=
  let target_f := vertexPath g e.2
  if st.included_ e.1 then
    { st with included_ := setFlag st.included_ e.2 }
  else
    let isMatch := filter_.any (fun test => test.regex_match target_f)
    if isMatch then
      { st with included_ := setFlag st.included_ e.2, keepers_ := st.keepers_ ++ [target_f] }
    else st

/-- Number of white vertices: the measure that makes a visit terminate. -/
def whiteCount (g : Graph) (discovered : Nat → Bool) : Nat :=
  ((List.range (num_vertices g)).filter (fun v => !discovered v)).length

/-- The loop of `boost::detail::depth_first_visit_impl`, with its explicit stack of edge iterators
flattened into the list `work` of the edges still to examine (those of the current vertex first,
then those of the vertices below it on the stack).  Every edge is handed to `examine_edge`;
a white target is then discovered and its out-edges come first. -/
def depth_first_visit (filter_ : List Regex) (g : Graph) (work : List (Nat × Nat))
    (st : FilterState) : FilterState :=
  match work with
  | [] => st
  | e :: rest =>
    let st1 := examine_edge filter_ g e st
    if h : e.2 < num_vertices g ∧ st1.discovered e.2 = false then
      depth_first_visit filter_ g (out_edges g e.2 ++ rest)
        { st1 with discovered := setFlag st1.discovered e.2 }
    else
      depth_first_visit filter_ g rest st1
termination_by (whiteCount g st.discovered, work.length)
decreasing_by
  · have hd : (examine_edge filter_ g e st).discovered = st.discovered := by
      unfold examine_edge
      by_cases h1 : st.included_ e.1 = true
      · simp [h1]
      · by_cases h2 : (filter_.any fun test => test.regex_match (vertexPath g e.2)) = true
        · simp [h1, h2]
        · simp [h1, h2]
    rw [hd] at h ⊢
    apply Prod.Lex.left
    unfold whiteCount
    have hmem : e.2 ∈ (List.range (num_vertices g)).filter (fun v => !st.discovered v) := by
      simp [List.mem_filter, h.1, h.2]
    have hsub : (List.range (num_vertices g)).filter (fun v => !setFlag st.discovered e.2 v)
        = ((List.range (num_vertices g)).filter (fun v => !st.discovered v)).filter
            (fun v => decide (v ≠ e.2)) := by
      rw [List.filter_filter]
      apply List.filter_congr
      intro x _
      by_cases hx : x = e.2 <;> simp [setFlag, hx]
    rw [hsub]
    exact List.length_filter_lt_length_iff_exists.mpr ⟨e.2, hmem, by simp⟩
  · have hd : (examine_edge filter_ g e st).discovered = st.discovered := by
      unfold examine_edge
      by_cases h1 : st.included_ e.1 = true
      · simp [h1]
      · by_cases h2 : (filter_.any fun test => test.regex_match (vertexPath g e.2)) = true
        · simp [h1, h2]
        · simp [h1, h2]
    rw [hd]
    apply Prod.Lex.right
    simp

/-- The function `boost::depth_first_search` with the default start vertex: every vertex, in
descriptor order, that is still white starts a visit. -/
def depth_first_search (filter_ : List Regex) (g : Graph) (st : FilterState) : FilterState :=
  (List.range (num_vertices g)).foldl
    (fun s u =>
      if s.discovered u then s
      else depth_first_visit filter_ g (out_edges g u)
        { s with discovered := setFlag s.discovered u })
    st

/-- The function `ComputeIncludeFiles`. -/
def ComputeIncludeFiles (regex : List Regex) (deps : Graph) : List Path :=
  (depth_first_search regex deps
    { discovered := fun _ => false, included_ := fun _ => false, keepers_ := [] }).keepers_

/-! ## Input stream -/

/-- The `std::ifstream` the parsers read: `buf` holds the characters from the get position to the
end of the file, so a stream position (`std::streampos`) is the suffix still to read. -/
structure IStream where
  buf : List Char
  eofbit : Bool
  failbit : Bool
deriving DecidableEq, Repr

/-- The line terminator. -/
def newline : Char := Char.ofNat 10

/-- The backslash. -/
def backslash : Char := Char.ofNat 92

/-- An `ifstream` just opened on a file with the given content. -/
def IStream.open (content : List Char) : IStream := ⟨content, false, false⟩

/-- The test `while(ins)`: `!fail()`. -/
def IStream.ok (s : IStream) : Bool := !s.failbit

/-- The member `good()`. -/
def IStream.good (s : IStream) : Bool := !s.eofbit && !s.failbit

/-- The constructor of `istream::sentry` (no whitespace skipping): a stream that is not good
gets `failbit`. -/
def IStream.sentry (s : IStream) : Bool × IStream :=
  if s.good then (true, s) else (false, { s with failbit := true })

/-- The member `peek()`: `none` is `traits::eof()`. -/
def IStream.peek (s : IStream) : Option Char × IStream :=
  match s.sentry with
  | (false, s1) => (none, s1)
  | (true, s1) =>
    match s1.buf with
    | [] => (none, { s1 with eofbit := true })
    | c :: _ => (some c, s1)

/-- The member `get()`. -/
def IStream.get (s : IStream) : Option Char × IStream :=
  match s.sentry with
  | (false, s1) => (none, s1)
  | (true, s1) =>
    match s1.buf with
    | [] => (none, { s1 with eofbit := true, failbit := true })
    | c :: r => (some c, { s1 with buf := r })

/-- The characters `std::getline` stores, and what is left behind the delimiter (`none` when the
end of the file comes first). -/
def splitLine : List Char → List Char × Option (List Char)
  | [] => ([], none)
  | c :: r =>
    if c = newline then ([], some r)
    else ((c :: (splitLine r).1), (splitLine r).2)

/-- The call `std::getline(ins, file)`; `file` is left alone when the sentry fails. -/
def IStream.getline (s : IStream) (file : List Char) : List Char × IStream :=
  match s.sentry with
  | (false, s1) => (file, s1)
  | (true, s1) =>
    match splitLine s1.buf with
    | (line, some r) => (line, { s1 with buf := r })
    | (line, none) => (line, { buf := [], eofbit := true, failbit := line.isEmpty })

/-- The member `tellg()`: `none` is `pos_type(-1)`. -/
def IStream.tellg (s : IStream) : Option (List Char) × IStream :=
  match s.sentry with
  | (false, s1) => (none, s1)
  | (true, s1) => (some s1.buf, s1)

/-- The call `ins.seekg(pos, std::ios::beg)`: clears `eofbit` first. -/
def IStream.seekg (s : IStream) (pos : Option (List Char)) : IStream :=
  let s0 := { s with eofbit := false }
  match s0.sentry with
  | (false, s1) => s1
  | (true, s1) =>
    match pos with
    | none => { s1 with failbit := true }
    | some b => { s1 with buf := b }

/-- The loop `while(ins && ins.peek() == c) { ++n; ins.get(); }` on the stream with the given
buffer and state bits: the count and the stream it leaves. -/
def skipRunAux (c : Char) : List Char → Bool → Bool → Nat × IStream
  | b, e, true => (0, ⟨b, e, true⟩)
  | b, true, false => (0, ⟨b, true, true⟩)
  | [], false, false => (0, ⟨[], true, false⟩)
  | x :: r, false, false =>
    if x = c then ((skipRunAux c r false false).1 + 1, (skipRunAux c r false false).2)
    else (0, ⟨x :: r, false, false⟩)

/-- The loop `while(ins && ins.peek() == c) { ++n; ins.get(); }`. -/
def IStream.skipRun (c : Char) (s : IStream) : Nat × IStream :=
  skipRunAux c s.buf s.eofbit s.failbit

/-- The loop `while(ins && ins.peek() == *prefix) { ++prefix; ins.get(); }` over the characters
`prefix` still points at (the terminating NUL included; the model stops at the end of the
array). -/
def skipPrefixAux : List Char → List Char → Bool → Bool → IStream
  | _, b, e, true => ⟨b, e, true⟩
  | _, b, true, false => ⟨b, true, true⟩
  | _, [], false, false => ⟨[], true, false⟩
  | [], x :: r, false, false => ⟨x :: r, false, false⟩
  | p :: ps, x :: r, false, false =>
    if x = p then skipPrefixAux ps r false false else ⟨x :: r, false, false⟩

/-- The loop `while(ins && ins.peek() == *prefix) { ++prefix; ins.get(); }`. -/
def IStream.skipPrefix (pre : List Char) (s : IStream) : IStream :=
  skipPrefixAux pre s.buf s.eofbit s.failbit

/-! ## Dependency log parser -/

/-- What the parser frames share by reference: the graph, the path index, the line counter and
the stream.  `seen` is a ghost record that the source does not keep: the include lines handled so
far, each with its `line_depth` and the path taken from it, in the order of the log. -/
structure ParseState where
  deps : Graph
  include_map : List (Path × Nat)
  line_number : Nat
  ins : IStream
  seen : List (Nat × Path)
deriving DecidableEq, Repr

/-- The call `std::replace(file.begin(), file.end(), '\\', '/')`. -/
def normalize (file : Path) : Path := file.map (fun c => if c = backslash then '/' else c)

/-- Lines 179-186 (249-256) of the source: look the path up, create the vertex when it is new
(only then is `sibling` reassigned), add the edge from `parent`.  Returns the new `sibling`
too. -/
def addInclude (parent sibling line_depth : Nat) (file : Path) (st : ParseState)
    (ins : IStream) : Nat × ParseState :=
  match st.include_map.lookup file with
  | none =>
    let v := (add_vertex file st.deps).1
    (v, { deps := add_edge parent v (add_vertex file st.deps).2,
          include_map := st.include_map ++ [(file, v)],
          line_number := st.line_number + 1,
          ins := ins,
          seen := st.seen ++ [(line_depth, file)] })
  | some v =>
    (sibling, { deps := add_edge parent v st.deps,
                include_map := st.include_map,
                line_number := st.line_number + 1,
                ins := ins,
                seen := st.seen ++ [(line_depth, file)] })

/-- The two log grammars.  `ReadGccDepsFileRecursive` and `ReadMsvcDepsFileRecursive` are the
same text but for the marker loops and the `ins.get()` in front of `std::getline`. -/
inductive Format where
  | gcc
  | msvc
deriving DecidableEq, Repr

/-- The literal `"Note: including file:"` with its terminating NUL. -/
def msvcPrefix : List Char := "Note: including file:".toList ++ [Char.ofNat 0]

/-- The marker loops that compute `line_depth` (lines 149-153, 214-224). -/
def Format.countDepth : Format → IStream → Nat × IStream
  | Format.gcc, s => s.skipRun '.'
  | Format.msvc, s => (s.skipPrefix msvcPrefix).skipRun ' '

/-- What stands between the markers and `std::getline`: `ins.get()` (line 170) in the dot
grammar, nothing in the other. -/
def Format.skipSeparator : Format → IStream → IStream
  | Format.gcc, s => s.get.2
  | Format.msvc, s => s

/-- The common body of `ReadGccDepsFileRecursive` and `ReadMsvcDepsFileRecursive`.  `file` is
the local string (empty on entry); every loop iteration and every recursive call spends one unit
of `fuel`, and `none` means the fuel ran out. -/
def ReadDepsFileRecursive (fmt : Format) :
    Nat → Nat → Nat → Nat → Path → ParseState → Option ParseState
  | 0, _, _, _, _, _ => none
  | fuel + 1, parent, sibling, depth, file, st =>
    if st.ins.ok = false then some st
    else
      let line_start_pos := st.ins.tellg.1
      let ins1 := st.ins.tellg.2
      let line_depth := (fmt.countDepth ins1).1
      let ins2 := (fmt.countDepth ins1).2
      if line_depth = 0 then
        ReadDepsFileRecursive fmt fuel parent sibling depth (ins2.getline file).1
          { st with ins := (ins2.getline file).2, line_number := st.line_number + 1 }
      else if line_depth ≤ depth then
        some { st with ins := ins2.seekg line_start_pos }
      else if line_depth = depth + 1 then
        let ins3 := fmt.skipSeparator ins2
        let file1 := normalize (ins3.getline file).1
        let r := addInclude parent sibling line_depth file1 st (ins3.getline file).2
        ReadDepsFileRecursive fmt fuel parent r.1 depth file1 r.2
      else
        match ReadDepsFileRecursive fmt fuel sibling sibling (depth + 1) []
            { st with ins := ins2.seekg line_start_pos } with
        | none => none
        | some st1 => ReadDepsFileRecursive fmt fuel parent sibling depth file st1

/-- The function `ReadGccDepsFileRecursive`. -/
def ReadGccDepsFileRecursive : Nat → Nat → Nat → Nat → Path → ParseState → Option ParseState :=
  ReadDepsFileRecursive Format.gcc

/-- The function `ReadMsvcDepsFileRecursive`. -/
def ReadMsvcDepsFileRecursive : Nat → Nat → Nat → Nat → Path → ParseState → Option ParseState :=
  ReadDepsFileRecursive Format.msvc

/-- Fuel that lets the recursive descent run to the end of the stream. -/
def parseFuel (ins : IStream) : Nat := (ins.buf.length + 4) * (ins.buf.length + 4)

/-- The state both `ReadGccDepsFile` and `ReadMsvcDepsFile` start from: the root vertex with the
empty path, an empty path index. -/
def initialState (ins : IStream) : ParseState :=
  { deps := (add_vertex [] ⟨[], []⟩).2, include_map := [], line_number := 0, ins := ins,
    seen := [] }

/-- The outermost call `Read...DepsFileRecursive(deps, root, root, include_map, 0, line_number,
ins)` of `ReadGccDepsFile` and `ReadMsvcDepsFile`, with the whole final state. -/
def parseFrom (fmt : Format) (ins : IStream) : Option ParseState :=
  ReadDepsFileRecursive fmt (parseFuel ins) 0 0 0 [] (initialState ins)

/-- The function `ReadGccDepsFile`. -/
def ReadGccDepsFile (ins : IStream) : Option Graph :=
  (parseFrom Format.gcc ins).map (fun st => st.deps)

/-- The function `ReadMsvcDepsFile`. -/
def ReadMsvcDepsFile (ins : IStream) : Option Graph :=
  (parseFrom Format.msvc ins).map (fun st => st.deps)

/-- The function `ReadDepsFile` on a file that could be opened, given by its content. -/
def ReadDepsFile (content : List Char) : Option Graph :=
  let ins := IStream.open content
  if ins.peek.1 = some '.' then ReadGccDepsFile ins.peek.2
  else ReadMsvcDepsFile ins.peek.2



/-! ## The include tree a well-nested log describes -/

/-- Index, among the include lines `seen`, of the last one of depth `k`. -/
def lastAtDepth : List (Nat × Path) → Nat → Option Nat
  | [], _ => none
  | e :: es, k =>
    match lastAtDepth es k with
    | some j => some (j + 1)
    | none => if e.1 = k then some 0 else none

/-- The vertex an include line of depth `d` that follows the lines `seen` hangs from: the root
when `d` is 1, else the vertex of the nearest preceding line of depth `d - 1` (line `j`, counted
from 0, has vertex `j + 1`). -/
def parentOf (seen : List (Nat × Path)) (d : Nat) : Nat :=
  if d ≤ 1 then 0
  else
    match lastAtDepth seen (d - 1) with
    | some j => j + 1
    | none => 0

/-- The edges of the include tree of the lines `pre ++ rest` that belong to the lines `rest`. -/
def expectedEdgesFrom (pre : List (Nat × Path)) : List (Nat × Path) → List (Nat × Nat)
  | [] => []
  | e :: es => (parentOf pre e.1, pre.length + 1) :: expectedEdgesFrom (pre ++ [e]) es

/-- One edge per include line, from the vertex of the nearest preceding line one level up (or
the root) to the vertex of the line. -/
def expectedEdges (seen : List (Nat × Path)) : List (Nat × Nat) := expectedEdgesFrom [] seen

/-- The depths of a log whose first include line has depth 1 and in which every later include
line is at most one level deeper than the include line before it. -/
def WellNested (ds : List Nat) : Prop :=
  ds.headD 1 = 1 ∧ List.Chain' (fun a b => b ≤ a + 1) ds

/-- The depth of the include line a vertex stands for; 0 for the root. -/
def lineDepth (seen : List (Nat × Path)) (v : Nat) : Nat :=
  if v = 0 then 0 else (seen.getD (v - 1) (0, [])).1

/-- The include lines of a log as the parser takes them: `line_depth` and extracted path of every
line that got an edge, in log order. -/
def includeLines (fmt : Format) (ins : IStream) : List (Nat × Path) :=
  ((parseFrom fmt ins).map (fun st => st.seen)).getD []

/-! ## Trees -/

/-- Reachability along the edges of the graph. -/
def Reach (g : Graph) : Nat → Nat → Prop :=
  Relation.ReflTransGen (fun u v => (u, v) ∈ g.edges)

/-- A tree rooted at the root vertex 0: the edges join existing vertices, none leads to the
root, no vertex has two incoming edges, and every vertex is reachable from the root (so that
every other vertex has exactly one incoming edge). -/
structure IsTree (g : Graph) : Prop where
  hasRoot : 0 < num_vertices g
  inRange : ∀ e ∈ g.edges, e.1 < num_vertices g ∧ e.2 < num_vertices g
  rootNoIn : ∀ e ∈ g.edges, e.2 ≠ 0
  oneIn : (g.edges.map Prod.snd).Nodup
  reach : ∀ v, v < num_vertices g → Reach g 0 v

/-! ## Pre-order, ancestors, first matches -/

/-- Depth-first traversal with an explicit stack of pending edges, taking the out-edges of every
vertex in insertion order: the vertices in the order in which they are first reached. -/
def preorderVisit (g : Graph) (work : List (Nat × Nat)) (visited : Nat → Bool) : List Nat :=
  match work with
  | [] => []
  | e :: rest =>
    if h : e.2 < num_vertices g ∧ visited e.2 = false then
      e.2 :: preorderVisit g (out_edges g e.2 ++ rest) (setFlag visited e.2)
    else
      preorderVisit g rest visited
termination_by (whiteCount g visited, work.length)
decreasing_by
  · apply Prod.Lex.left
    unfold whiteCount
    have hmem : e.2 ∈ (List.range (num_vertices g)).filter (fun v => !visited v) := by
      simp [List.mem_filter, h.1, h.2]
    have hsub : (List.range (num_vertices g)).filter (fun v => !setFlag visited e.2 v)
        = ((List.range (num_vertices g)).filter (fun v => !visited v)).filter
            (fun v => decide (v ≠ e.2)) := by
      rw [List.filter_filter]
      apply List.filter_congr
      intro x _
      by_cases hx : x = e.2 <;> simp [setFlag, hx]
    rw [hsub]
    exact List.length_filter_lt_length_iff_exists.mpr ⟨e.2, hmem, by simp⟩
  · apply Prod.Lex.right
    simp

/-- The vertices below the root in depth-first pre-order, the root first. -/
def dfsPreorder (g : Graph) : List Nat :=
  0 :: preorderVisit g (out_edges g 0) (setFlag (fun _ => false) 0)

/-- Some pattern of the set matches the path of the vertex. -/
def matchesAny (filter_ : List Regex) (g : Graph) (v : Nat) : Bool :=
  filter_.any (fun test => test.regex_match (vertexPath g v))

/-- The vertex `u` is a proper ancestor of `v`: one or more edges lead from `u` to `v`. -/
def ProperAncestor (g : Graph) : Nat → Nat → Prop :=
  Relation.TransGen (fun u v => (u, v) ∈ g.edges)

/-- The vertex, or one of its proper ancestors, is a vertex other than the root whose path
matches a pattern. -/
def Covered (filter_ : List Regex) (g : Graph) (v : Nat) : Prop :=
  ∃ u, u ≠ 0 ∧ matchesAny filter_ g u = true ∧ Reach g u v

/-- A first match: a vertex other than the root whose path matches a pattern while no proper
ancestor other than the root has a matching path. -/
def FirstMatch (filter_ : List Regex) (g : Graph) (v : Nat) : Prop :=
  v ≠ 0 ∧ matchesAny filter_ g v = true ∧
    ∀ u, u ≠ 0 → ProperAncestor g u v → matchesAny filter_ g u = false

/-- The state `depth_first_search` starts from in `ComputeIncludeFiles`. -/
def initialFilterState : FilterState :=
  { discovered := fun _ => false, included_ := fun _ => false, keepers_ := [] }

/-- The state of a visit on a tree, between two iterations of its loop: the pending edges lead
from discovered to white vertices, no two to the same one; the edge into a discovered vertex is
done with; every edge out of a discovered vertex is done with or pending; a discovered vertex is
marked in `included_` exactly when it is covered, a white one is not marked. -/
structure VisitInv (filter_ : List Regex) (g : Graph) (work : List (Nat × Nat))
    (st : FilterState) : Prop where
  srcDisc : ∀ e ∈ work, e ∈ g.edges ∧ st.discovered e.1 = true ∧ st.discovered e.2 = false
  nodup : (work.map Prod.snd).Nodup
  parentDone : ∀ e ∈ g.edges, st.discovered e.2 = true → st.discovered e.1 = true ∧ e ∉ work
  pending : ∀ e ∈ g.edges, st.discovered e.1 = true → st.discovered e.2 = true ∨ e ∈ work
  cov : ∀ v, st.discovered v = true → (st.included_ v = true ↔ Covered filter_ g v)
  fresh : ∀ v, st.discovered v = false → st.included_ v = false

/-! ## Rewrite decision of `main` -/

/-- The lambda of `std::transform` in `main`: the line written for one keeper. -/
def includeLine (file : Path) : List Char := "#include \"".toList ++ file ++ "\"".toList

/-- Lines 402-428 of `main`, for a writable output file: `lines_in` are the lines of the existing
file, `lines_out` the keepers; the result is the list of lines written, or `none` when the file
is left alone. -/
def mainRewrite (lines_in lines_out : List (List Char)) : Option (List (List Char)) :=
  if lines_in ≠ lines_out then some (lines_out.map includeLine) else none

/-! ## Notions used in the statements and proofs -/

/-- The edge leads to a vertex carrying the path `p`. -/
def leadsTo (g : Graph) (p : Path) (e : Nat × Nat) : Bool := decide (vertexPath g e.2 = p)

/-- The edge leaves a white vertex and leads to a vertex carrying `p`. -/
def whiteLeadsTo (g : Graph) (p : Path) (d : Nat → Bool) (e : Nat × Nat) : Bool :=
  (decide (e.1 < num_vertices g) && !d e.1) && leadsTo g p e

/-- The paths the edges of the graph lead to, one entry per edge. -/
def edgeTargetPaths (g : Graph) : List Path := g.edges.map (fun e => vertexPath g e.2)

/-- A measure of what a stream can still deliver. -/
def IStream.rank (s : IStream) : Nat :=
  if s.failbit then 0 else if s.eofbit then 1 else s.buf.length + 2

/-- Every vertex but the root is found in `include_map` under its own path. -/
def Indexed (st : ParseState) : Prop :=
  ∀ i, 0 < i → i < st.deps.paths.length →
    st.include_map.lookup (vertexPath st.deps i) = some i

/-- The vertices other than the root carry pairwise different paths. -/
def NonRootPathsDistinct (g : Graph) : Prop :=
  ∀ i j, 0 < i → i < j → j < num_vertices g → vertexPath g i ≠ vertexPath g j

/-- The graph is the include tree of the lines seen so far, and the path index only knows their
paths. -/
def TreeSoFar (st : ParseState) : Prop :=
  st.deps.paths = [] :: st.seen.map Prod.snd ∧
  st.deps.edges = expectedEdges st.seen ∧
  (∀ p, p ∈ st.include_map.map Prod.fst → p ∈ st.seen.map Prod.snd)

/-- The chain root, `h1`, `h2`. -/
def chainGraph : Graph := ⟨[[], "h1".toList, "h2".toList], [(0, 1), (1, 2)]⟩

/-- The edges join existing vertices, none leads to the root, and every vertex is reachable from
the root. -/
def GraphOk (g : Graph) : Prop :=
  0 < num_vertices g ∧
  (∀ e ∈ g.edges, e.1 < num_vertices g ∧ e.2 < num_vertices g ∧ e.2 ≠ 0) ∧
  (∀ v, v < num_vertices g → Reach g 0 v)

/-- The graph is in order and the path index only holds vertices other than the root. -/
def StateOk (st : ParseState) : Prop :=
  GraphOk st.deps ∧
  ∀ p v, st.include_map.lookup p = some v → 0 < v ∧ v < num_vertices st.deps

/-- The targets of the edges are existing vertices, the path index maps every path to a vertex
carrying it, and the paths of the edge targets are the paths of the include lines. -/
def EdgesMatchSeen (st : ParseState) : Prop :=
  (∀ e ∈ st.deps.edges, e.2 < num_vertices st.deps) ∧
  (∀ p v, st.include_map.lookup p = some v →
    v < num_vertices st.deps ∧ vertexPath st.deps v = p) ∧
  st.deps.edges.map (fun e => vertexPath st.deps e.2) = st.seen.map Prod.snd

/-- One edge per include line, in the order of the log, leading to a vertex that carries the
path taken from the line; every include line has a depth of at least 1. -/
def EdgePerLine (g : Graph) (lines : List (Nat × Path)) : Prop :=
  g.edges.length = lines.length ∧
  g.edges.map (fun e => vertexPath g e.2) = lines.map Prod.snd ∧
  ∀ x ∈ lines, 0 < x.1

/-- The path belongs to the target of an edge of the graph and a pattern matches it. -/
def MatchedTarget (filter_ : List Regex) (g : Graph) (p : Path) : Prop :=
  (∃ e ∈ g.edges, vertexPath g e.2 = p) ∧
  ∃ test ∈ filter_, test.regex_match p = true

/-- Every marked vertex is reachable from a vertex whose path has been kept. -/
def CoveredByKept (g : Graph) (st : FilterState) : Prop :=
  ∀ x, st.included_ x = true → ∃ w, vertexPath g w ∈ st.keepers_ ∧ Reach g w x

/-- Every edge out of a discovered vertex is pending or has been examined: its target is marked
if a pattern matches the target's path. -/
def EdgesSettled (filter_ : List Regex) (g : Graph) (work : List (Nat × Nat))
    (st : FilterState) : Prop :=
  ∀ e ∈ g.edges, st.discovered e.1 = true →
    e ∈ work ∨ (matchesAny filter_ g e.2 = true → st.included_ e.2 = true)

/-- What one iteration of the parser loop finds at the get position. -/
inductive Scan where
  /-- The test `while(ins)` fails. -/
  | stop
  /-- A line of depth 0: the new value of `file` and the stream behind the line. -/
  | noise (file : Path) (ins : IStream)
  /-- A line of depth `d > 0`: the path taken from it (the new value of `file`), the stream
  behind it, and the stream put back to the start of the line. -/
  | line (d : Nat) (file : Path) (ins : IStream) (back : IStream)

/-- Lines 146-177 (210-247) of the source without what they do to the graph: the marker loops,
and the reading of the line with `std::getline`. -/
def scan (fmt : Format) (file : Path) (ins : IStream) : Scan :=
  if ins.ok = false then Scan.stop
  else if (fmt.countDepth ins.tellg.2).1 = 0 then
    Scan.noise (((fmt.countDepth ins.tellg.2).2.getline file).1)
      (((fmt.countDepth ins.tellg.2).2.getline file).2)
  else
    Scan.line (fmt.countDepth ins.tellg.2).1
      (normalize ((fmt.skipSeparator (fmt.countDepth ins.tellg.2).2).getline file).1)
      (((fmt.skipSeparator (fmt.countDepth ins.tellg.2).2).getline file).2)
      ((fmt.countDepth ins.tellg.2).2.seekg ins.tellg.1)

/-- The function `ReadDepsFileRecursive` with a record of the recursive calls it makes: for each
call of the function from within itself, the `depth` argument of the call and the `line_depth`
of the line in front of which it was made. -/
def ReadDepsFileRecursiveCalls (fmt : Format) :
    Nat → Nat → Nat → Nat → Path → ParseState → Option (ParseState × List (Nat × Nat))
  | 0, _, _, _, _, _ => none
  | fuel + 1, parent, sibling, depth, file, st =>
    match scan fmt file st.ins with
    | Scan.stop => some (st, [])
    | Scan.noise file1 ins1 =>
      ReadDepsFileRecursiveCalls fmt fuel parent sibling depth file1
        { st with ins := ins1, line_number := st.line_number + 1 }
    | Scan.line d file1 ins1 back =>
      if d ≤ depth then some ({ st with ins := back }, [])
      else if d = depth + 1 then
        ReadDepsFileRecursiveCalls fmt fuel parent (addInclude parent sibling d file1 st ins1).1
          depth file1 (addInclude parent sibling d file1 st ins1).2
      else
        match ReadDepsFileRecursiveCalls fmt fuel sibling sibling (depth + 1) []
            { st with ins := back } with
        | none => none
        | some (st1, calls1) =>
          match ReadDepsFileRecursiveCalls fmt fuel parent sibling depth file st1 with
          | none => none
          | some (st2, calls2) => some (st2, (depth + 1, d) :: (calls1 ++ calls2))

/-- The number of leading characters `c` of a line, and the line without them. -/
def stripRun (c : Char) : List Char → Nat × List Char
  | [] => (0, [])
  | x :: r => if x = c then ((stripRun c r).1 + 1, (stripRun c r).2) else (0, x :: r)

/-- The line without the longest initial part that agrees, character by character, with the
characters `pre`. -/
def stripLeading : List Char → List Char → List Char
  | _, [] => []
  | [], x :: r => x :: r
  | p :: ps, x :: r => if x = p then stripLeading ps r else x :: r

/-- The nesting depth of a line of text (the number of markers) and what follows the markers. -/
def lineMarkers : Format → List Char → Nat × List Char
  | Format.gcc, l => stripRun '.' l
  | Format.msvc, l => stripRun ' ' (stripLeading msvcPrefix l)

/-- The text of a line from which the path is taken: in the dot grammar the character after the
dots is dropped. -/
def linePayload : Format → List Char → List Char
  | Format.gcc, l => (lineMarkers Format.gcc l).2.tail
  | Format.msvc, l => (lineMarkers Format.msvc l).2

/-- The log made of the given lines, each followed by a newline. -/
def renderLines : List (List Char) → List Char
  | [] => []
  | l :: ls => l ++ newline :: renderLines ls

/-- In the dot grammar something has to follow the dots on the line. -/
def Readable (fmt : Format) (l : List Char) : Prop :=
  fmt = Format.gcc → (lineMarkers Format.gcc l).2 ≠ []

/-- A line of the dot grammar: `d` dots, one blank, the path. -/
def gccLine (e : Nat × Path) : List Char := List.replicate e.1 '.' ++ ' ' :: e.2

/-- A line of the prefixed-space grammar: the prefix, `d` blanks, the path. -/
def msvcLine (e : Nat × Path) : List Char :=
  "Note: including file:".toList ++ (List.replicate e.1 ' ' ++ e.2)

/-- Two parse states hold the same graph, path index and record of include lines. -/
def SameGraph (st1 st2 : ParseState) : Prop :=
  st1.deps = st2.deps ∧ st1.include_map = st2.include_map ∧ st1.seen = st2.seen

/-- Two ways of reading (a grammar with its stream and `file`) find the same thing, step by
step: related streams and files give both a stop, or two lines of depth 0 and related streams
and files behind them, or two include lines of the same depth and path and related streams
behind and in front of them. -/
def ScanSim (fmt1 fmt2 : Format) (RF : Path → Path → Prop) (RS : IStream → IStream → Prop) :
    Prop :=
  ∀ f1 f2 s1 s2, RF f1 f2 → RS s1 s2 →
    match scan fmt1 f1 s1, scan fmt2 f2 s2 with
    | Scan.stop, Scan.stop => True
    | Scan.noise g1 t1, Scan.noise g2 t2 => RF g1 g2 ∧ RS t1 t2
    | Scan.line d1 p1 t1 b1, Scan.line d2 p2 t2 b2 => d1 = d2 ∧ p1 = p2 ∧ RS t1 t2 ∧ RS b1 b2
    | _, _ => False

/-- The outcome of two runs: both out of fuel, or both returned with the same graph and related
streams. -/
def SameOutcome (RS : IStream → IStream → Prop) :
    Option ParseState → Option ParseState → Prop
  | none, none => True
  | some r1, some r2 => SameGraph r1 r2 ∧ RS r1.ins r2.ins
  | _, _ => False

/-- The streams of two logs with the same include lines, one per grammar, or two streams that
both have failed. -/
def SameEntries (s1 s2 : IStream) : Prop :=
  (∃ es : List (Nat × Path),
      (∀ e ∈ es, e.1 ≠ 0 ∧ newline ∉ e.2 ∧ e.2.head? ≠ some ' ') ∧
      s1 = ⟨renderLines (es.map gccLine), false, false⟩ ∧
      s2 = ⟨renderLines (es.map msvcLine), false, false⟩) ∨
  (s1 = s2 ∧ s1.failbit = true)

/-- The log with every backslash replaced by a forward slash. -/
def replaceBackslashes (log : List Char) : List Char :=
  log.map (fun c => if c = backslash then '/' else c)

/-- The stream over the log with every backslash replaced. -/
def IStream.replaced (s : IStream) : IStream :=
  ⟨replaceBackslashes s.buf, s.eofbit, s.failbit⟩

/-- No path of a vertex of the graph contains a backslash. -/
def NoBackslash (g : Graph) : Prop := ∀ p ∈ g.paths, backslash ∉ p

/-- The lines of a log without those of nesting depth 0. -/
def dropNoise (fmt : Format) (ls : List (List Char)) : List (List Char) :=
  ls.filter (fun l => decide ((lineMarkers fmt l).1 ≠ 0))

/-- Lines of text: no line holds a newline, and an include line of the dot grammar has something
behind its dots. -/
def TextLines (fmt : Format) (ls : List (List Char)) : Prop :=
  ∀ l ∈ ls, newline ∉ l ∧ ((lineMarkers fmt l).1 ≠ 0 → Readable fmt l)

/-- The stream of a log of lines and the stream of the same log without its lines of depth 0,
or two streams that have failed. -/
def NoiseRel (fmt : Format) (s1 s2 : IStream) : Prop :=
  (∃ ls, TextLines fmt ls ∧ s1 = ⟨renderLines ls, false, false⟩ ∧
      s2 = ⟨renderLines (dropNoise fmt ls), false, false⟩) ∨
  (s1.failbit = true ∧ s2.failbit = true)

/-- The depth and the path of the include lines among the given lines of text, in order. -/
def textEntries (fmt : Format) (ls : List (List Char)) : List (Nat × Path) :=
  (dropNoise fmt ls).map (fun l => ((lineMarkers fmt l).1, normalize (linePayload fmt l)))

/-- The streams of two logs with the same include lines, one per grammar, the last line without
its newline and with a path that is not empty; or the same stream twice, at its end. -/
def SameEntriesOpen (s1 s2 : IStream) : Prop :=
  (∃ (es : List (Nat × Path)) (last : Nat × Path),
      (∀ e ∈ last :: es, e.1 ≠ 0 ∧ newline ∉ e.2 ∧ e.2.head? ≠ some ' ') ∧ last.2 ≠ [] ∧
      s1 = ⟨renderLines (es.map gccLine) ++ gccLine last, false, false⟩ ∧
      s2 = ⟨renderLines (es.map msvcLine) ++ msvcLine last, false, false⟩) ∨
  (s1 = s2 ∧ s1.buf = [])

/-! ## Facts about the closure filter -/

theorem setFlag_self (d : Nat → Bool) (v : Nat) : setFlag d v v = true := by
  simp [setFlag]

theorem setFlag_ne (d : Nat → Bool) (v x : Nat) (h : x ≠ v) : setFlag d v x = d x := by
  simp [setFlag, h]

theorem examine_edge_discovered (filter_ : List Regex) (g : Graph) (e : Nat × Nat)
    (st : FilterState) : (examine_edge filter_ g e st).discovered = st.discovered := by
  unfold examine_edge
  by_cases h1 : st.included_ e.1 = true
  · simp [h1]
  · by_cases h2 : (filter_.any fun test => test.regex_match (vertexPath g e.2)) = true
    · simp [h1, h2]
    · simp [h1, h2]

theorem examine_edge_nil_keepers (g : Graph) (e : Nat × Nat) (st : FilterState) :
    (examine_edge [] g e st).keepers_ = st.keepers_ := by
  unfold examine_edge
  by_cases h1 : st.included_ e.1 = true
  · simp [h1]
  · simp [h1]

theorem depth_first_visit_nil_keepers (g : Graph) (work : List (Nat × Nat)) (st : FilterState) :
    (depth_first_visit [] g work st).keepers_ = st.keepers_ := by
  induction work, st using depth_first_visit.induct [] g with
  | case1 st => rw [depth_first_visit]
  | case2 st e rest st1 h ih =>
    rw [depth_first_visit, dif_pos h, ih]
    exact examine_edge_nil_keepers g e st
  | case3 st e rest st1 h ih =>
    rw [depth_first_visit, dif_neg h, ih]
    exact examine_edge_nil_keepers g e st

theorem depth_first_search_nil_keepers (g : Graph) (st : FilterState) :
    (depth_first_search [] g st).keepers_ = st.keepers_ := by
  unfold depth_first_search
  generalize List.range (num_vertices g) = l
  induction l generalizing st with
  | nil => rfl
  | cons u l ih =>
    rw [List.foldl_cons, ih]
    by_cases hu : st.discovered u = true
    · simp [hu]
    · simp only [hu]
      exact depth_first_visit_nil_keepers g _ _

/-- C10: with an empty pattern list `ComputeIncludeFiles` returns the empty list, whatever the
dependency graph. -/
theorem C10_empty_patterns (deps : Graph) : ComputeIncludeFiles [] deps = [] := by
  unfold ComputeIncludeFiles
  rw [depth_first_search_nil_keepers]

/-! ### Every edge is examined at most once -/

theorem countP_white_split (g : Graph) (p : Path) (d : Nat → Bool) (v : Nat)
    (hv : v < num_vertices g) (hw : d v = false) (l : List (Nat × Nat)) :
    l.countP (whiteLeadsTo g p d) =
      (l.filter (fun e => e.1 == v)).countP (leadsTo g p)
        + l.countP (whiteLeadsTo g p (setFlag d v)) := by
  induction l with
  | nil => simp
  | cons e l ih =>
    rw [List.countP_cons, List.countP_cons, List.filter_cons, ih]
    by_cases he : e.1 = v
    · have h1 : whiteLeadsTo g p d e = leadsTo g p e := by
        simp [whiteLeadsTo, he, hv, hw]
      have h2 : whiteLeadsTo g p (setFlag d v) e = false := by
        simp [whiteLeadsTo, he, setFlag_self]
      have h3 : (e.1 == v) = true := by simp [he]
      rw [h1, h2, h3]
      simp only [if_true, List.countP_cons]
      cases leadsTo g p e <;> simp <;> omega
    · have h1 : whiteLeadsTo g p (setFlag d v) e = whiteLeadsTo g p d e := by
        simp [whiteLeadsTo, setFlag_ne d v e.1 he]
      have h3 : (e.1 == v) = false := by simp [he]
      rw [h1, h3]
      simp only [Bool.false_eq_true, if_false]
      omega

theorem examine_edge_count_le (filter_ : List Regex) (g : Graph) (p : Path) (e : Nat × Nat)
    (st : FilterState) :
    (examine_edge filter_ g e st).keepers_.count p
      ≤ st.keepers_.count p + (if leadsTo g p e = true then 1 else 0) := by
  unfold examine_edge
  by_cases h1 : st.included_ e.1 = true
  · simp [h1]
  · by_cases h2 : (filter_.any fun test => test.regex_match (vertexPath g e.2)) = true
    · simp only [h1, h2, if_true, Bool.false_eq_true, if_false, List.count_append]
      by_cases h3 : vertexPath g e.2 = p
      · simp [leadsTo, h3]
      · have : List.count p [vertexPath g e.2] = 0 := by
          simp [List.count_singleton, h3]
        rw [this]; simp
    · simp [h1, h2]

theorem depth_first_visit_count_le (filter_ : List Regex) (g : Graph) (p : Path)
    (work : List (Nat × Nat)) (st : FilterState) :
    (depth_first_visit filter_ g work st).keepers_.count p
        + g.edges.countP (whiteLeadsTo g p (depth_first_visit filter_ g work st).discovered)
      ≤ st.keepers_.count p + work.countP (leadsTo g p)
        + g.edges.countP (whiteLeadsTo g p st.discovered) := by
  induction work, st using depth_first_visit.induct filter_ g with
  | case1 st => rw [depth_first_visit]; simp
  | case2 st e rest st1 h ih =>
    rw [depth_first_visit, dif_pos h]
    refine le_trans ih ?_
    have hk := examine_edge_count_le filter_ g p e st
    have hd := examine_edge_discovered filter_ g e st
    have hs := countP_white_split g p st.discovered e.2 h.1 (by rw [← hd]; exact h.2) g.edges
    simp only [st1, hd, List.countP_append, List.countP_cons, out_edges] at hk hs ⊢
    omega
  | case3 st e rest st1 h ih =>
    rw [depth_first_visit, dif_neg h]
    refine le_trans ih ?_
    have hk := examine_edge_count_le filter_ g p e st
    have hd := examine_edge_discovered filter_ g e st
    simp only [st1, hd, List.countP_cons] at hk ⊢
    omega

theorem depth_first_search_count_le (filter_ : List Regex) (g : Graph) (p : Path)
    (st : FilterState) :
    (depth_first_search filter_ g st).keepers_.count p
      ≤ st.keepers_.count p + g.edges.countP (whiteLeadsTo g p st.discovered) := by
  unfold depth_first_search
  have key : ∀ (l : List Nat) (s : FilterState), (∀ u ∈ l, u < num_vertices g) →
      (l.foldl (fun s u =>
          if s.discovered u then s
          else depth_first_visit filter_ g (out_edges g u)
            { s with discovered := setFlag s.discovered u }) s).keepers_.count p
        ≤ s.keepers_.count p + g.edges.countP (whiteLeadsTo g p s.discovered) := by
    intro l
    induction l with
    | nil => intro s _; simp
    | cons u l ih =>
      intro s hl
      rw [List.foldl_cons]
      refine le_trans (ih _ (fun x hx => hl x (List.mem_cons_of_mem _ hx))) ?_
      by_cases hu : s.discovered u = true
      · simp [hu]
      · simp only [hu, Bool.false_eq_true, if_false]
        have hv := depth_first_visit_count_le filter_ g p (out_edges g u)
          { s with discovered := setFlag s.discovered u }
        have hs := countP_white_split g p s.discovered u (hl u (List.mem_cons_self _ _))
          (by simpa using hu) g.edges
        simp only [out_edges] at hv hs ⊢
        omega
  exact key _ st (fun u hu => List.mem_range.mp hu)

theorem ComputeIncludeFiles_count_le (regex : List Regex) (deps : Graph) (p : Path) :
    (ComputeIncludeFiles regex deps).count p ≤ (edgeTargetPaths deps).count p := by
  unfold ComputeIncludeFiles
  refine le_trans (depth_first_search_count_le regex deps p _) ?_
  simp only [List.count_nil, Nat.zero_add, edgeTargetPaths]
  rw [List.count, List.countP_map]
  apply List.countP_mono_left
  intro e _ he
  simp only [whiteLeadsTo, leadsTo, Bool.and_eq_true, decide_eq_true_eq] at he
  simp [he.2]

/-! ## Facts about the stream -/

theorem skipRunAux_spec (c : Char) (b : List Char) :
    (skipRunAux c b false false).2.failbit = false ∧
    (skipRunAux c b false false).1 + (skipRunAux c b false false).2.buf.length = b.length := by
  induction b with
  | nil => simp [skipRunAux]
  | cons x r ih =>
    by_cases hx : x = c
    · simp only [skipRunAux, hx, if_true]
      refine ⟨ih.1, ?_⟩
      have := ih.2
      simp only [List.length_cons]
      omega
    · simp [skipRunAux, hx]

theorem skipRunAux_fail (c : Char) (b : List Char) (e : Bool) :
    skipRunAux c b e true = (0, ⟨b, e, true⟩) := by
  cases b <;> cases e <;> simp [skipRunAux]

theorem skipRunAux_eof (c : Char) (b : List Char) :
    skipRunAux c b true false = (0, ⟨b, true, true⟩) := by
  cases b <;> simp [skipRunAux]

theorem skipPrefixAux_spec (pre b : List Char) :
    (skipPrefixAux pre b false false).failbit = false ∧
    (skipPrefixAux pre b false false).buf.length ≤ b.length := by
  induction pre generalizing b with
  | nil => cases b <;> simp [skipPrefixAux]
  | cons p ps ih =>
    cases b with
    | nil => simp [skipPrefixAux]
    | cons x r =>
      by_cases hx : x = p
      · simp only [skipPrefixAux, hx, if_true]
        refine ⟨(ih r).1, ?_⟩
        have := (ih r).2
        simp only [List.length_cons]
        omega
      · simp [skipPrefixAux, hx]

theorem skipPrefixAux_fail (pre b : List Char) (e : Bool) :
    skipPrefixAux pre b e true = ⟨b, e, true⟩ := by
  cases pre <;> cases b <;> cases e <;> simp [skipPrefixAux]

/-- On a good stream the marker loops consume what they count, and a positive count leaves the
stream without `failbit`. -/
theorem countDepth_good (fmt : Format) (b : List Char) :
    (fmt.countDepth ⟨b, false, false⟩).1 + (fmt.countDepth ⟨b, false, false⟩).2.buf.length
        ≤ b.length ∧
    (0 < (fmt.countDepth ⟨b, false, false⟩).1 →
      (fmt.countDepth ⟨b, false, false⟩).2.failbit = false) := by
  cases fmt with
  | gcc =>
    have h := skipRunAux_spec '.' b
    simp only [Format.countDepth, IStream.skipRun]
    exact ⟨by omega, fun _ => h.1⟩
  | msvc =>
    have hp := skipPrefixAux_spec msvcPrefix b
    simp only [Format.countDepth, IStream.skipRun, IStream.skipPrefix]
    generalize skipPrefixAux msvcPrefix b false false = sp at hp ⊢
    obtain ⟨pb, pe, pf⟩ := sp
    simp only at hp
    obtain ⟨hpf, hpl⟩ := hp
    subst hpf
    cases pe with
    | true => rw [skipRunAux_eof]; simp; exact hpl
    | false =>
      have h := skipRunAux_spec ' ' pb
      show (skipRunAux ' ' pb false false).1 + (skipRunAux ' ' pb false false).2.buf.length
          ≤ b.length ∧ (0 < (skipRunAux ' ' pb false false).1 →
            (skipRunAux ' ' pb false false).2.failbit = false)
      exact ⟨by omega, fun _ => h.1⟩

theorem countDepth_fail (fmt : Format) (b : List Char) (e : Bool) :
    fmt.countDepth ⟨b, e, true⟩ = (0, ⟨b, e, true⟩) := by
  cases fmt with
  | gcc => simp [Format.countDepth, IStream.skipRun, skipRunAux_fail]
  | msvc =>
    simp [Format.countDepth, IStream.skipRun, IStream.skipPrefix, skipPrefixAux_fail,
      skipRunAux_fail]

theorem splitLine_length (b : List Char) :
    ∀ r, (splitLine b).2 = some r → r.length < b.length := by
  induction b with
  | nil => intro r h; simp [splitLine] at h
  | cons c t ih =>
    intro r h
    by_cases hc : c = newline
    · simp [splitLine, hc] at h
      subst h; simp
    · simp only [splitLine, hc, if_false] at h
      have := ih r h
      simp only [List.length_cons]
      omega

theorem getline_rank_le (s : IStream) (file : List Char) :
    (s.getline file).2.rank ≤ s.buf.length + 1 := by
  obtain ⟨b, e, f⟩ := s
  cases f with
  | true => simp [IStream.getline, IStream.sentry, IStream.good, IStream.rank]
  | false =>
    cases e with
    | true => simp [IStream.getline, IStream.sentry, IStream.good, IStream.rank]
    | false =>
      simp only [IStream.getline, IStream.sentry, IStream.good, Bool.not_false, Bool.and_self,
        if_true]
      have hl := splitLine_length b
      generalize splitLine b = sl at hl ⊢
      obtain ⟨line, rest⟩ := sl
      cases rest with
      | none =>
        simp only [IStream.rank]
        split <;> simp
      | some r =>
        have := hl r rfl
        simp only [IStream.rank]
        simp
        omega

theorem getline_fail (s : IStream) (file : List Char) (h : s.failbit = true) :
    s.getline file = (file, s) := by
  obtain ⟨b, e, f⟩ := s
  simp only at h
  subst h
  simp [IStream.getline, IStream.sentry, IStream.good]

theorem skipSeparator_length_le (fmt : Format) (s : IStream) :
    (fmt.skipSeparator s).buf.length ≤ s.buf.length := by
  cases fmt with
  | msvc => simp [Format.skipSeparator]
  | gcc =>
    obtain ⟨b, e, f⟩ := s
    cases f <;> cases e <;> cases b <;>
      simp [Format.skipSeparator, IStream.get, IStream.sentry, IStream.good]

theorem seekg_some (s : IStream) (b : List Char) (h : s.failbit = false) :
    s.seekg (some b) = ⟨b, false, false⟩ := by
  obtain ⟨b0, e, f⟩ := s
  simp only at h
  subst h
  simp [IStream.seekg, IStream.sentry, IStream.good]

theorem tellg_good (b : List Char) :
    (IStream.mk b false false).tellg = (some b, ⟨b, false, false⟩) := by
  simp [IStream.tellg, IStream.sentry, IStream.good]

theorem tellg_eof (b : List Char) :
    (IStream.mk b true false).tellg = (none, ⟨b, true, true⟩) := by
  simp [IStream.tellg, IStream.sentry, IStream.good]

/-! ## One iteration of the parser loop -/

theorem ReadDepsFileRecursive_fail (fmt : Format) (fuel parent sibling depth : Nat) (file : Path)
    (st : ParseState) (h : st.ins.failbit = true) :
    ReadDepsFileRecursive fmt (fuel + 1) parent sibling depth file st = some st := by
  rw [ReadDepsFileRecursive]
  simp [IStream.ok, h]

theorem ReadDepsFileRecursive_eof (fmt : Format) (fuel parent sibling depth : Nat) (file : Path)
    (st : ParseState) (b : List Char) (h : st.ins = ⟨b, true, false⟩) :
    ReadDepsFileRecursive fmt (fuel + 1) parent sibling depth file st =
      ReadDepsFileRecursive fmt fuel parent sibling depth file
        { st with ins := ⟨b, true, true⟩, line_number := st.line_number + 1 } := by
  rw [ReadDepsFileRecursive]
  simp only [h, IStream.ok, tellg_eof, countDepth_fail, Bool.not_false, Bool.true_eq_false,
    if_false, if_true]
  rw [getline_fail _ _ rfl]

theorem ReadDepsFileRecursive_good (fmt : Format) (fuel parent sibling depth : Nat) (file : Path)
    (st : ParseState) (b : List Char) (h : st.ins = ⟨b, false, false⟩) :
    ReadDepsFileRecursive fmt (fuel + 1) parent sibling depth file st =
      if (fmt.countDepth ⟨b, false, false⟩).1 = 0 then
        ReadDepsFileRecursive fmt fuel parent sibling depth
          (((fmt.countDepth ⟨b, false, false⟩).2.getline file).1)
          { st with ins := ((fmt.countDepth ⟨b, false, false⟩).2.getline file).2,
                    line_number := st.line_number + 1 }
      else if (fmt.countDepth ⟨b, false, false⟩).1 ≤ depth then some st
      else if (fmt.countDepth ⟨b, false, false⟩).1 = depth + 1 then
        ReadDepsFileRecursive fmt fuel parent
          (addInclude parent sibling (fmt.countDepth ⟨b, false, false⟩).1
            (normalize ((fmt.skipSeparator (fmt.countDepth ⟨b, false, false⟩).2).getline file).1)
            st ((fmt.skipSeparator (fmt.countDepth ⟨b, false, false⟩).2).getline file).2).1
          depth
          (normalize ((fmt.skipSeparator (fmt.countDepth ⟨b, false, false⟩).2).getline file).1)
          (addInclude parent sibling (fmt.countDepth ⟨b, false, false⟩).1
            (normalize ((fmt.skipSeparator (fmt.countDepth ⟨b, false, false⟩).2).getline file).1)
            st ((fmt.skipSeparator (fmt.countDepth ⟨b, false, false⟩).2).getline file).2).2
      else
        (ReadDepsFileRecursive fmt fuel sibling sibling (depth + 1) [] st).bind
          (fun st1 => ReadDepsFileRecursive fmt fuel parent sibling depth file st1) := by
  rw [ReadDepsFileRecursive]
  have hst : st = { st with ins := ⟨b, false, false⟩ } := by
    cases st; simp only at h; subst h; rfl
  simp only [h, IStream.ok, tellg_good, Bool.not_false, Bool.true_eq_false, if_false]
  by_cases h0 : (fmt.countDepth ⟨b, false, false⟩).1 = 0
  · simp only [h0, if_true]
  · have hf := (countDepth_good fmt b).2 (Nat.pos_of_ne_zero h0)
    simp only [h0, if_false, seekg_some _ b hf]
    by_cases h1 : (fmt.countDepth ⟨b, false, false⟩).1 ≤ depth
    · simp only [h1, if_true]
      rw [← hst]
    · simp only [h1, if_false]
      by_cases h2 : (fmt.countDepth ⟨b, false, false⟩).1 = depth + 1
      · simp only [h2, if_true]
      · simp only [h2, if_false]
        rw [← hst]
        cases ReadDepsFileRecursive fmt fuel sibling sibling (depth + 1) [] st <;> rfl

/-! ## The parser terminates -/

theorem addInclude_ins (parent sibling d : Nat) (file : Path) (st : ParseState) (ins : IStream) :
    (addInclude parent sibling d file st ins).2.ins = ins := by
  unfold addInclude
  cases st.include_map.lookup file <;> rfl

theorem addInclude_seen (parent sibling d : Nat) (file : Path) (st : ParseState)
    (ins : IStream) :
    (addInclude parent sibling d file st ins).2.seen = st.seen ++ [(d, file)] := by
  unfold addInclude
  cases st.include_map.lookup file <;> rfl

theorem fuel_step (r2 r B : Nat) (h : r2 + 1 ≤ r) : r2 * (B + 2) + (B + 2) ≤ r * (B + 2) := by
  have h1 : (r2 + 1) * (B + 2) ≤ r * (B + 2) := Nat.mul_le_mul_right _ h
  rw [Nat.succ_mul] at h1
  exact h1

/-- With fuel above the bound the recursive descent returns, and its stream has not gained
anything; it has lost something when it was entered in front of a line deeper than `depth`. -/
theorem ReadDepsFileRecursive_total (fmt : Format) :
    ∀ (fuel parent sibling depth : Nat) (file : Path) (st : ParseState) (B : Nat),
      st.ins.rank ≤ B → st.ins.rank * (B + 2) + (B - depth) + 1 ≤ fuel →
      ∃ st', ReadDepsFileRecursive fmt fuel parent sibling depth file st = some st' ∧
        st'.ins.rank ≤ st.ins.rank ∧
        (∀ b, st.ins = ⟨b, false, false⟩ → depth < (fmt.countDepth ⟨b, false, false⟩).1 →
          st'.ins.rank < st.ins.rank) := by
  intro fuel
  induction fuel with
  | zero => intro _ _ _ _ _ _ _ h; omega
  | succ fuel ih =>
    intro parent sibling depth file st B hB hfuel
    obtain ⟨deps, imap, ln, ⟨b, e, f⟩, seen⟩ := st
    cases f with
    | true =>
      refine ⟨_, ReadDepsFileRecursive_fail fmt fuel parent sibling depth file _ rfl,
        le_refl _, ?_⟩
      intro b' hb'
      simp at hb'
    | false =>
      cases e with
      | true =>
        rw [ReadDepsFileRecursive_eof fmt fuel parent sibling depth file _ b rfl]
        have hr : (IStream.mk b true false).rank = 1 := by simp [IStream.rank]
        have hr0 : (IStream.mk b true true).rank = 0 := by simp [IStream.rank]
        simp only [hr] at hB hfuel ⊢
        obtain ⟨st', h1, h2, _⟩ := ih parent sibling depth file
          { deps := deps, include_map := imap, line_number := ln + 1, ins := ⟨b, true, true⟩,
            seen := seen } B (by simp only [hr0]; omega) (by simp only [hr0]; omega)
        refine ⟨st', h1, ?_, ?_⟩
        · simp only [hr0] at h2; omega
        · intro b' hb'; simp at hb'
      | false =>
        rw [ReadDepsFileRecursive_good fmt fuel parent sibling depth file _ b rfl]
        have hr : (IStream.mk b false false).rank = b.length + 2 := by simp [IStream.rank]
        have hcd := (countDepth_good fmt b).1
        simp only [hr] at hB hfuel ⊢
        by_cases h0 : (fmt.countDepth ⟨b, false, false⟩).1 = 0
        · simp only [h0, if_true]
          have hg := getline_rank_le (fmt.countDepth ⟨b, false, false⟩).2 file
          have hm := fuel_step ((fmt.countDepth ⟨b, false, false⟩).2.getline file).2.rank
            (b.length + 2) B (by omega)
          obtain ⟨st', h1, h2, _⟩ := ih parent sibling depth
            ((fmt.countDepth ⟨b, false, false⟩).2.getline file).1
            { deps := deps, include_map := imap, line_number := ln + 1,
              ins := ((fmt.countDepth ⟨b, false, false⟩).2.getline file).2, seen := seen } B
            (by simp only; omega) (by simp only; omega)
          refine ⟨st', h1, ?_, ?_⟩
          · simp only at h2; omega
          · intro b' hb' hlt
            simp only [IStream.mk.injEq, and_true] at hb'
            subst hb'
            omega
        · simp only [h0, if_false]
          by_cases h1 : (fmt.countDepth ⟨b, false, false⟩).1 ≤ depth
          · simp only [h1, if_true]
            refine ⟨_, rfl, le_refl _, ?_⟩
            intro b' hb' hlt
            simp only [IStream.mk.injEq, and_true] at hb'
            subst hb'
            omega
          · simp only [h1, if_false]
            by_cases h2 : (fmt.countDepth ⟨b, false, false⟩).1 = depth + 1
            · simp only [h2, if_true]
              have hs := skipSeparator_length_le fmt (fmt.countDepth ⟨b, false, false⟩).2
              have hg := getline_rank_le
                (fmt.skipSeparator (fmt.countDepth ⟨b, false, false⟩).2) file
              have hm := fuel_step
                ((fmt.skipSeparator (fmt.countDepth ⟨b, false, false⟩).2).getline file).2.rank
                (b.length + 2) B (by omega)
              obtain ⟨st', h3, h4, _⟩ := ih parent _ depth _
                (addInclude parent sibling (depth + 1)
                  (normalize
                    ((fmt.skipSeparator (fmt.countDepth ⟨b, false, false⟩).2).getline file).1)
                  { deps := deps, include_map := imap, line_number := ln,
                    ins := ⟨b, false, false⟩, seen := seen }
                  ((fmt.skipSeparator (fmt.countDepth ⟨b, false, false⟩).2).getline file).2).2
                B (by rw [addInclude_ins]; omega) (by rw [addInclude_ins]; omega)
              rw [addInclude_ins] at h4
              refine ⟨st', h3, by omega, fun _ _ _ => by omega⟩
            · simp only [h2, if_false]
              obtain ⟨st1, h3, h4, h5⟩ := ih sibling sibling (depth + 1) []
                { deps := deps, include_map := imap, line_number := ln,
                  ins := ⟨b, false, false⟩, seen := seen } B
                (by simp only [hr]; omega) (by simp only [hr]; omega)
              have h6 := h5 b rfl (by omega)
              simp only [hr] at h4 h6
              have hm := fuel_step st1.ins.rank (b.length + 2) B (by omega)
              obtain ⟨st', h7, h8, _⟩ := ih parent sibling depth file st1 B (by omega)
                (by omega)
              refine ⟨st', ?_, by omega, fun _ _ _ => by omega⟩
              rw [h3]
              exact h7

theorem parseFrom_total (fmt : Format) (ins : IStream) :
    ∃ st', parseFrom fmt ins = some st' := by
  have hr : ins.rank ≤ ins.buf.length + 2 := by
    unfold IStream.rank
    split
    · omega
    · split <;> omega
  have hm : ins.rank * (ins.buf.length + 2 + 2) ≤ (ins.buf.length + 2) * (ins.buf.length + 2 + 2) :=
    Nat.mul_le_mul_right _ hr
  have hfuel : ins.rank * (ins.buf.length + 2 + 2) + (ins.buf.length + 2 - 0) + 1
      ≤ parseFuel ins := by
    unfold parseFuel
    have e1 : (ins.buf.length + 2) * (ins.buf.length + 2 + 2)
        = ins.buf.length * ins.buf.length + 6 * ins.buf.length + 8 := by ring
    have e2 : (ins.buf.length + 4) * (ins.buf.length + 4)
        = ins.buf.length * ins.buf.length + 8 * ins.buf.length + 16 := by ring
    rw [e2]
    rw [e1] at hm
    omega
  obtain ⟨st', h, _⟩ := ReadDepsFileRecursive_total fmt (parseFuel ins) 0 0 0 []
    (initialState ins) (ins.buf.length + 2) hr hfuel
  exact ⟨st', h⟩

/-! ## Invariants of the parser -/

/-- A property of the parse state that neither the stream and line counter nor `addInclude` can
break holds after the recursive descent. -/
theorem ReadDepsFileRecursive_preserves (fmt : Format) (Inv : ParseState → Prop)
    (h_ins : ∀ (st : ParseState) (ins : IStream) (ln : Nat),
      Inv st → Inv { st with ins := ins, line_number := ln })
    (h_add : ∀ (parent sibling d : Nat) (file : Path) (st : ParseState) (ins : IStream),
      Inv st → Inv (addInclude parent sibling d file st ins).2) :
    ∀ (fuel parent sibling depth : Nat) (file : Path) (st st' : ParseState),
      ReadDepsFileRecursive fmt fuel parent sibling depth file st = some st' →
      Inv st → Inv st' := by
  intro fuel
  induction fuel with
  | zero =>
    intro _ _ _ _ _ _ h
    simp [ReadDepsFileRecursive] at h
  | succ fuel ih =>
    intro parent sibling depth file st st' hrun hinv
    obtain ⟨deps, imap, ln, ⟨b, e, f⟩, seen⟩ := st
    cases f with
    | true =>
      rw [ReadDepsFileRecursive_fail fmt fuel parent sibling depth file _ rfl] at hrun
      cases hrun
      exact hinv
    | false =>
      cases e with
      | true =>
        rw [ReadDepsFileRecursive_eof fmt fuel parent sibling depth file _ b rfl] at hrun
        exact ih _ _ _ _ _ _ hrun (h_ins _ _ _ hinv)
      | false =>
        rw [ReadDepsFileRecursive_good fmt fuel parent sibling depth file _ b rfl] at hrun
        by_cases h0 : (fmt.countDepth ⟨b, false, false⟩).1 = 0
        · simp only [h0, if_true] at hrun
          exact ih _ _ _ _ _ _ hrun (h_ins _ _ _ hinv)
        · simp only [h0, if_false] at hrun
          by_cases h1 : (fmt.countDepth ⟨b, false, false⟩).1 ≤ depth
          · simp only [h1, if_true] at hrun
            cases hrun
            exact hinv
          · simp only [h1, if_false] at hrun
            by_cases h2 : (fmt.countDepth ⟨b, false, false⟩).1 = depth + 1
            · simp only [h2, if_true] at hrun
              exact ih _ _ _ _ _ _ hrun (h_add _ _ _ _ _ _ hinv)
            · simp only [h2, if_false] at hrun
              cases hc : ReadDepsFileRecursive fmt fuel sibling sibling (depth + 1) []
                  { deps := deps, include_map := imap, line_number := ln,
                    ins := ⟨b, false, false⟩, seen := seen } with
              | none => rw [hc] at hrun; simp at hrun
              | some st1 =>
                rw [hc] at hrun
                simp only [Option.some_bind] at hrun
                exact ih _ _ _ _ _ _ hrun (ih _ _ _ _ _ _ hc hinv)

theorem lookup_append_of_some (m m2 : List (Path × Nat)) (k : Path) (v : Nat)
    (h : m.lookup k = some v) : (m ++ m2).lookup k = some v := by
  induction m with
  | nil => simp at h
  | cons a m ih =>
    obtain ⟨k1, v1⟩ := a
    by_cases hk : k = k1
    · subst hk
      simp only [List.cons_append, List.lookup_cons, beq_self_eq_true] at h ⊢
      exact h
    · have hb : (k == k1) = false := by simpa using hk
      simp only [List.cons_append, List.lookup_cons, hb] at h ⊢
      exact ih h

theorem lookup_append_of_none (m : List (Path × Nat)) (k : Path) (v : Nat)
    (h : m.lookup k = none) : (m ++ [(k, v)]).lookup k = some v := by
  induction m with
  | nil => simp [List.lookup]
  | cons a m ih =>
    obtain ⟨k1, v1⟩ := a
    by_cases hk : k = k1
    · subst hk
      simp [List.lookup_cons] at h
    · have hb : (k == k1) = false := by simpa using hk
      simp only [List.cons_append, List.lookup_cons, hb] at h ⊢
      exact ih h

theorem Indexed_addInclude (parent sibling d : Nat) (file : Path) (st : ParseState)
    (ins : IStream) (h : Indexed st) : Indexed (addInclude parent sibling d file st ins).2 := by
  unfold addInclude
  cases hl : st.include_map.lookup file with
  | some v =>
    intro i hi hlt
    exact h i hi hlt
  | none =>
    intro i hi hlt
    simp only [add_edge, add_vertex, List.length_append, List.length_singleton] at hlt
    simp only [add_edge, add_vertex, vertexPath]
    by_cases hlast : i < st.deps.paths.length
    · have := h i hi hlast
      simp only [vertexPath] at this
      rw [List.getD_append _ _ _ _ hlast]
      exact lookup_append_of_some _ _ _ _ this
    · have hi2 : i = st.deps.paths.length := by omega
      subst hi2
      rw [List.getD_append_right _ _ _ _ (le_refl _)]
      simp only [Nat.sub_self, List.getD_cons_zero]
      exact lookup_append_of_none _ _ _ hl

theorem Indexed_distinct (st : ParseState) (h : Indexed st) (i j : Nat) (hi : 0 < i)
    (hij : i < j) (hj : j < num_vertices st.deps) :
    vertexPath st.deps i ≠ vertexPath st.deps j := by
  intro heq
  have h1 := h i hi (by unfold num_vertices at hj; omega)
  have h2 := h j (by omega) hj
  rw [heq, h2] at h1
  cases h1
  omega

theorem parseFrom_Indexed (fmt : Format) (ins : IStream) (st : ParseState)
    (h : parseFrom fmt ins = some st) : Indexed st := by
  refine ReadDepsFileRecursive_preserves fmt Indexed (fun _ _ _ hi => hi)
    Indexed_addInclude _ _ _ _ _ _ _ h ?_
  intro i hi hlt
  simp [initialState, add_vertex] at hlt
  omega

/-! ## Lines that are not include lines -/

theorem splitLine_line (line rest : List Char) (h : newline ∉ line) :
    splitLine (line ++ newline :: rest) = (line, some rest) := by
  induction line with
  | nil => simp [splitLine]
  | cons c t ih =>
    have hc : c ≠ newline := fun hc => h (by simp [hc])
    have ht : newline ∉ t := fun ht => h (List.mem_cons_of_mem _ ht)
    simp [splitLine, hc, ih ht]

theorem parseFrom_distinct (fmt : Format) (ins : IStream) :
    ∃ g, (parseFrom fmt ins).map (fun st => st.deps) = some g ∧ NonRootPathsDistinct g := by
  obtain ⟨st, h⟩ := parseFrom_total fmt ins
  refine ⟨st.deps, by rw [h]; rfl, ?_⟩
  intro i j hi hij hj
  exact Indexed_distinct st (parseFrom_Indexed fmt ins st h) i j hi hij hj

/-! ## What one frame of the descent records -/

/-- The include lines a frame of depth `depth` records all lie deeper than `depth`, the first of
them is the line the frame was entered in front of (when that line lies deeper), and the frame
returns in front of a line of depth `1 .. depth` or with a stream that is no longer good. -/
theorem ReadDepsFileRecursive_seen (fmt : Format) :
    ∀ (fuel parent sibling depth : Nat) (file : Path) (st st' : ParseState),
      ReadDepsFileRecursive fmt fuel parent sibling depth file st = some st' →
      (∃ ext, st'.seen = st.seen ++ ext ∧ (∀ e ∈ ext, depth < e.1) ∧
        (∀ b, st.ins = ⟨b, false, false⟩ → depth < (fmt.countDepth ⟨b, false, false⟩).1 →
          ∃ p rest, ext = ((fmt.countDepth ⟨b, false, false⟩).1, p) :: rest)) ∧
      (∀ b, st'.ins = ⟨b, false, false⟩ →
        0 < (fmt.countDepth ⟨b, false, false⟩).1 ∧
          (fmt.countDepth ⟨b, false, false⟩).1 ≤ depth) := by
  intro fuel
  induction fuel with
  | zero =>
    intro _ _ _ _ _ _ h
    simp [ReadDepsFileRecursive] at h
  | succ fuel ih =>
    intro parent sibling depth file st st' hrun
    obtain ⟨deps, imap, ln, ⟨b, e, f⟩, seen⟩ := st
    cases f with
    | true =>
      rw [ReadDepsFileRecursive_fail fmt fuel parent sibling depth file _ rfl] at hrun
      cases hrun
      refine ⟨⟨[], by simp, by simp, ?_⟩, ?_⟩
      · intro b' hb'; simp at hb'
      · intro b' hb'; simp at hb'
    | false =>
      cases e with
      | true =>
        rw [ReadDepsFileRecursive_eof fmt fuel parent sibling depth file _ b rfl] at hrun
        obtain ⟨⟨ext, h1, h2, _⟩, h4⟩ := ih _ _ _ _ _ _ hrun
        refine ⟨⟨ext, h1, h2, ?_⟩, h4⟩
        intro b' hb'; simp at hb'
      | false =>
        rw [ReadDepsFileRecursive_good fmt fuel parent sibling depth file _ b rfl] at hrun
        by_cases h0 : (fmt.countDepth ⟨b, false, false⟩).1 = 0
        · simp only [h0, if_true] at hrun
          obtain ⟨⟨ext, h1, h2, _⟩, h4⟩ := ih _ _ _ _ _ _ hrun
          refine ⟨⟨ext, h1, h2, ?_⟩, h4⟩
          intro b' hb' hlt
          simp only [IStream.mk.injEq, and_true] at hb'
          subst hb'
          omega
        · simp only [h0, if_false] at hrun
          by_cases h1 : (fmt.countDepth ⟨b, false, false⟩).1 ≤ depth
          · simp only [h1, if_true] at hrun
            cases hrun
            refine ⟨⟨[], by simp, by simp, ?_⟩, ?_⟩
            · intro b' hb' hlt
              simp only [IStream.mk.injEq, and_true] at hb'
              subst hb'
              omega
            · intro b' hb'
              simp only [IStream.mk.injEq, and_true] at hb'
              subst hb'
              exact ⟨Nat.pos_of_ne_zero h0, h1⟩
          · simp only [h1, if_false] at hrun
            by_cases h2 : (fmt.countDepth ⟨b, false, false⟩).1 = depth + 1
            · simp only [h2, if_true] at hrun
              generalize normalize ((fmt.skipSeparator
                (fmt.countDepth ⟨b, false, false⟩).2).getline file).1 = file1 at hrun
              generalize ((fmt.skipSeparator
                (fmt.countDepth ⟨b, false, false⟩).2).getline file).2 = ins1 at hrun
              obtain ⟨⟨ext, h3, h4, _⟩, h6⟩ := ih _ _ _ _ _ _ hrun
              rw [addInclude_seen] at h3
              refine ⟨⟨(depth + 1, file1) :: ext, ?_, ?_, ?_⟩, h6⟩
              · rw [h3]; simp
              · intro e he
                rcases List.mem_cons.mp he with he | he
                · subst he; simp
                · exact h4 e he
              · intro b' hb' _
                simp only [IStream.mk.injEq, and_true] at hb'
                subst hb'
                exact ⟨_, ext, by rw [h2]⟩
            · simp only [h2, if_false] at hrun
              cases hc : ReadDepsFileRecursive fmt fuel sibling sibling (depth + 1) []
                  { deps := deps, include_map := imap, line_number := ln,
                    ins := ⟨b, false, false⟩, seen := seen } with
              | none => rw [hc] at hrun; simp at hrun
              | some st1 =>
                rw [hc] at hrun
                simp only [Option.some_bind] at hrun
                obtain ⟨⟨ext1, a1, a2, a3⟩, _⟩ := ih _ _ _ _ _ _ hc
                obtain ⟨⟨ext2, b1, b2, _⟩, b4⟩ := ih _ _ _ _ _ _ hrun
                refine ⟨⟨ext1 ++ ext2, ?_, ?_, ?_⟩, b4⟩
                · rw [b1, a1, List.append_assoc]
                · intro e he
                  rcases List.mem_append.mp he with he | he
                  · have := a2 e he; omega
                  · exact b2 e he
                · intro b' hb' _
                  simp only [IStream.mk.injEq, and_true] at hb'
                  subst hb'
                  obtain ⟨p, rest, hp⟩ := a3 b rfl (by omega)
                  exact ⟨p, rest ++ ext2, by rw [hp]; rfl⟩

/-! ## Facts about the include tree of a list of lines -/

theorem lastAtDepth_none (l : List (Nat × Path)) (m : Nat) (h : ∀ e ∈ l, e.1 ≠ m) :
    lastAtDepth l m = none := by
  induction l with
  | nil => rfl
  | cons e es ih =>
    have h1 := ih (fun x hx => h x (List.mem_cons_of_mem _ hx))
    have h2 := h e (List.mem_cons_self _ _)
    simp [lastAtDepth, h1, h2]

theorem lastAtDepth_append (l1 l2 : List (Nat × Path)) (m : Nat) :
    lastAtDepth (l1 ++ l2) m =
      match lastAtDepth l2 m with
      | some j => some (l1.length + j)
      | none => lastAtDepth l1 m := by
  induction l1 with
  | nil =>
    cases h : lastAtDepth l2 m with
    | none => simp [h, lastAtDepth]
    | some j => simp [h]
  | cons e es ih =>
    have hstep : lastAtDepth (e :: es ++ l2) m =
        match lastAtDepth (es ++ l2) m with
        | some j => some (j + 1)
        | none => if e.1 = m then some 0 else none := rfl
    rw [hstep, ih]
    cases lastAtDepth l2 m with
    | none => rfl
    | some j =>
      simp only [List.length_cons, Option.some.injEq]
      omega

theorem lastAtDepth_append_of_ne (l1 l2 : List (Nat × Path)) (m : Nat)
    (h : ∀ e ∈ l2, e.1 ≠ m) : lastAtDepth (l1 ++ l2) m = lastAtDepth l1 m := by
  rw [lastAtDepth_append, lastAtDepth_none l2 m h]

theorem lastAtDepth_append_self (l : List (Nat × Path)) (m : Nat) (p : Path) :
    lastAtDepth (l ++ [(m, p)]) m = some l.length := by
  rw [lastAtDepth_append]
  simp [lastAtDepth]

theorem lastAtDepth_spec (l : List (Nat × Path)) (m j : Nat) (h : lastAtDepth l m = some j) :
    j < l.length ∧ (l.getD j (0, [])).1 = m := by
  induction l generalizing j with
  | nil => simp [lastAtDepth] at h
  | cons e es ih =>
    simp only [lastAtDepth] at h
    cases hl : lastAtDepth es m with
    | some i =>
      rw [hl] at h
      simp only [Option.some.injEq] at h
      subst h
      have := ih i hl
      exact ⟨by simp only [List.length_cons]; omega, by simpa using this.2⟩
    | none =>
      rw [hl] at h
      by_cases he : e.1 = m
      · simp only [he, if_true, Option.some.injEq] at h
        subst h
        exact ⟨by simp, by simpa using he⟩
      · simp [he] at h

theorem parentOf_append_of_ne (l1 l2 : List (Nat × Path)) (d : Nat)
    (h : ∀ e ∈ l2, e.1 + 1 ≠ d) : parentOf (l1 ++ l2) d = parentOf l1 d := by
  unfold parentOf
  by_cases hd : d ≤ 1
  · simp [hd]
  · simp only [hd, if_false]
    rw [lastAtDepth_append_of_ne]
    intro e he
    have := h e he
    omega

theorem parentOf_append_self (l : List (Nat × Path)) (k : Nat) (p : Path) :
    parentOf (l ++ [(k + 1, p)]) (k + 2) = l.length + 1 := by
  unfold parentOf
  have : ¬ (k + 2 ≤ 1) := by omega
  simp only [this, if_false]
  have h2 : k + 2 - 1 = k + 1 := by omega
  rw [h2, lastAtDepth_append_self]

theorem expectedEdgesFrom_append (pre l : List (Nat × Path)) (e : Nat × Path) :
    expectedEdgesFrom pre (l ++ [e]) =
      expectedEdgesFrom pre l ++ [(parentOf (pre ++ l) e.1, (pre ++ l).length + 1)] := by
  induction l generalizing pre with
  | nil => simp [expectedEdgesFrom]
  | cons x xs ih =>
    have hstep : expectedEdgesFrom pre (x :: xs ++ [e]) =
        (parentOf pre x.1, pre.length + 1) :: expectedEdgesFrom (pre ++ [x]) (xs ++ [e]) := rfl
    have hstep2 : expectedEdgesFrom pre (x :: xs) =
        (parentOf pre x.1, pre.length + 1) :: expectedEdgesFrom (pre ++ [x]) xs := rfl
    rw [hstep, hstep2, ih (pre ++ [x])]
    simp

theorem expectedEdges_append (l : List (Nat × Path)) (e : Nat × Path) :
    expectedEdges (l ++ [e]) = expectedEdges l ++ [(parentOf l e.1, l.length + 1)] := by
  unfold expectedEdges
  rw [expectedEdgesFrom_append]
  simp

theorem WellNested_left (l1 l2 : List Nat) (h : WellNested (l1 ++ l2)) : WellNested l1 := by
  refine ⟨?_, h.2.left_of_append⟩
  cases l1 with
  | nil => rfl
  | cons a t => simpa using h.1

theorem WellNested_first (d : Nat) (l2 : List Nat) (h : WellNested ([] ++ d :: l2)) : d = 1 := by
  simpa using h.1

theorem WellNested_next (l1 : List Nat) (d : Nat) (l2 : List Nat)
    (h : WellNested (l1 ++ d :: l2)) (x : Nat) (hx : l1.getLast? = some x) : d ≤ x + 1 := by
  have := (List.chain'_append.mp h.2).2.2 x hx d (by simp)
  exact this

theorem parentOf_le (l : List (Nat × Path)) (d : Nat) : parentOf l d ≤ l.length := by
  unfold parentOf
  split
  · omega
  · cases h : lastAtDepth l (d - 1) with
    | none => simp
    | some j =>
      have := (lastAtDepth_spec l _ j h).1
      simp only
      omega

theorem expectedEdges_snd (l : List (Nat × Path)) :
    (expectedEdges l).map Prod.snd = List.range' 1 l.length := by
  induction l using List.reverseRecOn with
  | nil => rfl
  | append_singleton l x ih =>
    rw [expectedEdges_append, List.map_append, ih, List.length_append, List.length_singleton,
      List.range'_1_concat]
    simp [Nat.add_comm]

theorem expectedEdges_lt (l : List (Nat × Path)) :
    ∀ e ∈ expectedEdges l, e.1 < e.2 ∧ e.2 ≤ l.length := by
  induction l using List.reverseRecOn with
  | nil => intro e he; simp [expectedEdges, expectedEdgesFrom] at he
  | append_singleton l x ih =>
    intro e he
    rw [expectedEdges_append] at he
    rcases List.mem_append.mp he with he | he
    · have := ih e he
      simp only [List.length_append, List.length_singleton]
      omega
    · simp only [List.mem_singleton] at he
      subst he
      have := parentOf_le l x.1
      simp only [List.length_append, List.length_singleton]
      omega

/-- In a well-nested list every depth from 1 up to the depth of the last line occurs. -/
theorem lastAtDepth_exists (l : List (Nat × Path)) :
    WellNested (l.map Prod.fst) → ∀ m, 1 ≤ m →
      (∃ x, l.getLast? = some x ∧ m ≤ x.1) → ∃ j, lastAtDepth l m = some j := by
  induction l using List.reverseRecOn with
  | nil => intro _ m _ h; obtain ⟨x, hx, _⟩ := h; simp at hx
  | append_singleton l y ih =>
    intro hwn m hm h
    obtain ⟨x, hx, hmx⟩ := h
    rw [List.getLast?_concat] at hx
    simp only [Option.some.injEq] at hx
    subst hx
    by_cases hy : y.1 = m
    · obtain ⟨d, p⟩ := y
      simp only at hy
      subst hy
      exact ⟨l.length, lastAtDepth_append_self l d p⟩
    · rw [lastAtDepth_append_of_ne l [y] m (by simpa using hy)]
      rw [List.map_append, List.map_cons, List.map_nil] at hwn
      have hwl := WellNested_left _ _ hwn
      refine ih hwl m hm ?_
      cases hgl : l.getLast? with
      | none =>
        have hnil := List.getLast?_eq_none_iff.mp hgl
        subst hnil
        have := WellNested_first _ _ hwn
        omega
      | some x' =>
        refine ⟨x', rfl, ?_⟩
        have := WellNested_next _ _ _ hwn x'.1 (by simp [List.getLast?_map, hgl])
        omega

theorem lineDepth_append (l : List (Nat × Path)) (x : Nat × Path) (v : Nat)
    (hv : v ≤ l.length) : lineDepth (l ++ [x]) v = lineDepth l v := by
  unfold lineDepth
  by_cases h0 : v = 0
  · simp [h0]
  · simp only [h0, if_false]
    rw [List.getD_append _ _ _ _ (by omega)]

theorem lineDepth_last (l : List (Nat × Path)) (x : Nat × Path) :
    lineDepth (l ++ [x]) (l.length + 1) = x.1 := by
  unfold lineDepth
  simp only [Nat.add_one_ne_zero, if_false, Nat.add_sub_cancel]
  rw [List.getD_append_right _ _ _ _ (le_refl _)]
  simp

/-- In the include tree of a well-nested list of lines every edge leads one level down. -/
theorem expectedEdges_depth (l : List (Nat × Path)) :
    WellNested (l.map Prod.fst) → (∀ x ∈ l, 0 < x.1) →
      ∀ e ∈ expectedEdges l, lineDepth l e.2 = lineDepth l e.1 + 1 := by
  induction l using List.reverseRecOn with
  | nil => intro _ _ e he; simp [expectedEdges, expectedEdgesFrom] at he
  | append_singleton l x ih =>
    intro hwn hpos e he
    rw [List.map_append, List.map_cons, List.map_nil] at hwn
    have hwl := WellNested_left _ _ hwn
    rw [expectedEdges_append] at he
    rcases List.mem_append.mp he with he | he
    · have hb := expectedEdges_lt l e he
      rw [lineDepth_append l x e.2 hb.2, lineDepth_append l x e.1 (by omega)]
      exact ih hwl (fun y hy => hpos y (List.mem_append_left _ hy)) e he
    · simp only [List.mem_singleton] at he
      subst he
      simp only
      rw [lineDepth_last, lineDepth_append l x _ (parentOf_le l x.1)]
      have hx := hpos x (by simp)
      unfold parentOf
      by_cases hd : x.1 ≤ 1
      · simp only [hd, if_true, lineDepth]
        omega
      · simp only [hd, if_false]
        have hex : ∃ j, lastAtDepth l (x.1 - 1) = some j := by
          refine lastAtDepth_exists l hwl (x.1 - 1) (by omega) ?_
          cases hgl : l.getLast? with
          | none =>
            have hnil := List.getLast?_eq_none_iff.mp hgl
            subst hnil
            have := WellNested_first _ _ hwn
            omega
          | some x' =>
            refine ⟨x', rfl, ?_⟩
            have := WellNested_next _ _ _ hwn x'.1 (by simp [List.getLast?_map, hgl])
            omega
        obtain ⟨j, hj⟩ := hex
        rw [hj]
        have := (lastAtDepth_spec l _ j hj).2
        simp only [lineDepth, Nat.add_one_ne_zero, if_false, Nat.add_sub_cancel, this]
        omega

/-- The include tree of a list of lines is a tree rooted at the root. -/
theorem expectedEdges_isTree (l : List (Nat × Path)) :
    IsTree ⟨[] :: l.map Prod.snd, expectedEdges l⟩ := by
  have hsnd := expectedEdges_snd l
  have hlt := expectedEdges_lt l
  refine ⟨by simp [num_vertices], ?_, ?_, ?_, ?_⟩
  · intro e he
    have := hlt e he
    simp only [num_vertices, List.length_cons, List.length_map]
    omega
  · intro e he
    have := hlt e he
    omega
  · simp only
    rw [hsnd]
    exact List.nodup_range' 1 l.length
  · intro v
    induction v using Nat.strong_induction_on with
    | _ v ih =>
      intro hv
      by_cases h0 : v = 0
      · subst h0; exact Relation.ReflTransGen.refl
      · simp only [num_vertices, List.length_cons, List.length_map] at hv
        have hmem : v ∈ (expectedEdges l).map Prod.snd := by
          rw [hsnd, List.mem_range'_1]
          omega
        obtain ⟨e, he, hev⟩ := List.mem_map.mp hmem
        have hb := hlt e he
        have hr := ih e.1 (by omega)
          (by simp only [num_vertices, List.length_cons, List.length_map]; omega)
        refine Relation.ReflTransGen.tail hr ?_
        show (e.1, v) ∈ expectedEdges l
        rw [← hev]
        exact he

/-! ## The graph of a well-nested log with pairwise distinct paths -/

theorem lookup_none_of_not_mem (m : List (Path × Nat)) (p : Path)
    (h : p ∉ m.map Prod.fst) : m.lookup p = none := by
  induction m with
  | nil => rfl
  | cons a m ih =>
    obtain ⟨k1, v1⟩ := a
    simp only [List.map_cons, List.mem_cons, not_or] at h
    have hb : (p == k1) = false := by simpa using h.1
    simp only [List.lookup_cons, hb]
    exact ih h.2

theorem addInclude_new (parent sibling d : Nat) (file : Path) (st : ParseState) (ins : IStream)
    (h : st.include_map.lookup file = none) :
    addInclude parent sibling d file st ins =
      (st.deps.paths.length,
        { deps := ⟨st.deps.paths ++ [file], st.deps.edges ++ [(parent, st.deps.paths.length)]⟩,
          include_map := st.include_map ++ [(file, st.deps.paths.length)],
          line_number := st.line_number + 1,
          ins := ins,
          seen := st.seen ++ [(d, file)] }) := by
  simp [addInclude, h, add_vertex, add_edge]

theorem TreeSoFar_addInclude (parent sibling k : Nat) (file : Path) (st : ParseState)
    (ins : IStream) (hg : TreeSoFar st) (hnew : file ∉ st.seen.map Prod.snd)
    (hp : parent = parentOf st.seen (k + 1)) :
    TreeSoFar (addInclude parent sibling (k + 1) file st ins).2 ∧
      (addInclude parent sibling (k + 1) file st ins).1 = st.seen.length + 1 := by
  obtain ⟨h1, h2, h3⟩ := hg
  have hl : st.include_map.lookup file = none :=
    lookup_none_of_not_mem _ _ (fun hm => hnew (h3 _ hm))
  rw [addInclude_new _ _ _ _ _ _ hl]
  have hlen : st.deps.paths.length = st.seen.length + 1 := by rw [h1]; simp
  refine ⟨⟨?_, ?_, ?_⟩, hlen⟩
  · simp [h1]
  · simp only [expectedEdges_append, h2, hlen, hp]
  · intro p hpm
    simp only [List.map_append, List.map_cons, List.map_nil, List.mem_append,
      List.mem_singleton] at hpm ⊢
    rcases hpm with hpm | hpm
    · exact Or.inl (h3 p hpm)
    · exact Or.inr hpm

/-- The frame invariant of the descent on a well-nested log with pairwise distinct paths: when
`parent` is the vertex of the nearest preceding line of depth `depth` and `sibling` that of the
nearest preceding line of depth `depth + 1`, the graph stays the include tree of the lines. -/
theorem ReadDepsFileRecursive_tree (fmt : Format) :
    ∀ (fuel parent sibling depth : Nat) (file : Path) (st st' : ParseState),
      ReadDepsFileRecursive fmt fuel parent sibling depth file st = some st' →
      WellNested (st'.seen.map Prod.fst) → (st'.seen.map Prod.snd).Nodup →
      TreeSoFar st →
      parent = parentOf st.seen (depth + 1) →
      (∀ x, st.seen.getLast? = some x → depth + 1 ≤ x.1 →
        sibling = parentOf st.seen (depth + 2)) →
      (∀ x, st.seen.getLast? = some x → depth + 2 ≤ x.1 →
        ∀ b, st.ins = ⟨b, false, false⟩ →
          0 < (fmt.countDepth ⟨b, false, false⟩).1 ∧
            (fmt.countDepth ⟨b, false, false⟩).1 ≤ depth + 1) →
      TreeSoFar st' := by
  intro fuel
  induction fuel with
  | zero =>
    intro _ _ _ _ _ _ h
    simp [ReadDepsFileRecursive] at h
  | succ fuel ih =>
    intro parent sibling depth file st st' hrun hwn hnd hg hj1 hj2 hj3
    obtain ⟨deps, imap, ln, ⟨b, e, f⟩, seen⟩ := st
    cases f with
    | true =>
      rw [ReadDepsFileRecursive_fail fmt fuel parent sibling depth file _ rfl] at hrun
      cases hrun
      exact hg
    | false =>
      cases e with
      | true =>
        rw [ReadDepsFileRecursive_eof fmt fuel parent sibling depth file _ b rfl] at hrun
        refine ih _ _ _ _ _ _ hrun hwn hnd hg hj1 hj2 ?_
        intro x _ _ b' hb'
        simp at hb'
      | false =>
        rw [ReadDepsFileRecursive_good fmt fuel parent sibling depth file _ b rfl] at hrun
        by_cases h0 : (fmt.countDepth ⟨b, false, false⟩).1 = 0
        · simp only [h0, if_true] at hrun
          refine ih _ _ _ _ _ _ hrun hwn hnd hg hj1 hj2 ?_
          intro x hx hxd b' _
          have := (hj3 x hx hxd b rfl).1
          omega
        · simp only [h0, if_false] at hrun
          by_cases h1 : (fmt.countDepth ⟨b, false, false⟩).1 ≤ depth
          · simp only [h1, if_true] at hrun
            cases hrun
            exact hg
          · simp only [h1, if_false] at hrun
            by_cases h2 : (fmt.countDepth ⟨b, false, false⟩).1 = depth + 1
            · simp only [h2, if_true] at hrun
              generalize normalize ((fmt.skipSeparator
                (fmt.countDepth ⟨b, false, false⟩).2).getline file).1 = file1 at hrun
              generalize ((fmt.skipSeparator
                (fmt.countDepth ⟨b, false, false⟩).2).getline file).2 = ins1 at hrun
              obtain ⟨⟨ext, a1, _, _⟩, _⟩ := ReadDepsFileRecursive_seen fmt _ _ _ _ _ _ _ hrun
              rw [addInclude_seen] at a1
              simp only at a1
              have hnew : file1 ∉ seen.map Prod.snd := by
                rw [a1] at hnd
                simp only [List.map_append, List.map_cons, List.map_nil,
                  List.append_assoc] at hnd
                have := (List.nodup_append.mp hnd).2.2
                intro hm
                exact this hm (by simp)
              obtain ⟨t1, t2⟩ := TreeSoFar_addInclude parent sibling depth file1
                { deps := deps, include_map := imap, line_number := ln,
                  ins := ⟨b, false, false⟩, seen := seen } ins1 hg hnew hj1
              refine ih _ _ _ _ _ _ hrun hwn hnd t1 ?_ ?_ ?_
              · rw [addInclude_seen]
                simp only at hj1 ⊢
                rw [parentOf_append_of_ne _ _ _ (by simp)]
                exact hj1
              · intro x _ _
                rw [addInclude_seen, t2]
                simp only
                rw [parentOf_append_self]
              · intro x hx hxd
                rw [addInclude_seen] at hx
                rw [List.getLast?_concat] at hx
                simp only [Option.some.injEq] at hx
                subst hx
                simp only at hxd
                omega
            · simp only [h2, if_false] at hrun
              cases hc : ReadDepsFileRecursive fmt fuel sibling sibling (depth + 1) []
                  { deps := deps, include_map := imap, line_number := ln,
                    ins := ⟨b, false, false⟩, seen := seen } with
              | none => rw [hc] at hrun; simp at hrun
              | some st1 =>
                rw [hc] at hrun
                simp only [Option.some_bind] at hrun
                obtain ⟨⟨ext1, a1, a2, a3⟩, a4⟩ :=
                  ReadDepsFileRecursive_seen fmt _ _ _ _ _ _ _ hc
                obtain ⟨⟨ext2, b1, _, _⟩, _⟩ :=
                  ReadDepsFileRecursive_seen fmt _ _ _ _ _ _ _ hrun
                obtain ⟨p, rest, hp⟩ := a3 b rfl (by omega)
                simp only at a1 hj1 hj2 hj3
                have hwn1 : WellNested (st1.seen.map Prod.fst) := by
                  rw [b1, List.map_append] at hwn
                  exact WellNested_left _ _ hwn
                have hnd1 : (st1.seen.map Prod.snd).Nodup := by
                  rw [b1, List.map_append] at hnd
                  exact hnd.of_append_left
                have hwn2 : WellNested (seen.map Prod.fst ++
                    (fmt.countDepth ⟨b, false, false⟩).1 :: rest.map Prod.fst) := by
                  rw [a1, hp] at hwn1
                  simpa using hwn1
                have hlow : ∀ x, seen.getLast? = some x → x.1 < depth + 2 := by
                  intro x hx
                  by_contra hcon
                  have := (hj3 x hx (by omega) b rfl).2
                  omega
                have hne : seen ≠ [] := by
                  intro hnil
                  subst hnil
                  have := WellNested_first _ _ hwn2
                  omega
                obtain ⟨x, hx⟩ : ∃ x, seen.getLast? = some x := by
                  cases hgl : seen.getLast? with
                  | none => exact absurd (List.getLast?_eq_none_iff.mp hgl) hne
                  | some x => exact ⟨x, rfl⟩
                have hhigh : depth + 1 ≤ x.1 := by
                  have := WellNested_next _ _ _ hwn2 x.1 (by simp [List.getLast?_map, hx])
                  omega
                have hs := hj2 x hx hhigh
                have hg1 : TreeSoFar st1 := by
                  refine ih _ _ _ _ _ _ hc hwn1 hnd1 hg hs ?_ ?_
                  · intro y hy hyd
                    simp only at hy
                    have := hlow y hy
                    omega
                  · intro y hy hyd
                    simp only at hy
                    have := hlow y hy
                    omega
                refine ih _ _ _ _ _ _ hrun hwn hnd hg1 ?_ ?_ ?_
                · rw [a1, parentOf_append_of_ne _ _ _
                    (fun e he => by have := a2 e he; omega)]
                  exact hj1
                · intro y _ _
                  rw [a1, parentOf_append_of_ne _ _ _
                    (fun e he => by have := a2 e he; omega)]
                  exact hs
                · intro y _ _ b' hb'
                  exact a4 b' hb'

theorem parseFrom_tree (fmt : Format) (ins : IStream) (st : ParseState)
    (h : parseFrom fmt ins = some st)
    (hwn : WellNested (st.seen.map Prod.fst)) (hnd : (st.seen.map Prod.snd).Nodup) :
    TreeSoFar st ∧ ∀ x ∈ st.seen, 0 < x.1 := by
  constructor
  · refine ReadDepsFileRecursive_tree fmt _ _ _ _ _ _ _ h hwn hnd ?_ ?_ ?_ ?_
    · exact ⟨rfl, rfl, by intro p hp; simp [initialState] at hp⟩
    · simp [initialState, parentOf]
    · intro x hx; simp [initialState] at hx
    · intro x hx; simp [initialState] at hx
  · obtain ⟨⟨ext, h1, h2, _⟩, _⟩ := ReadDepsFileRecursive_seen fmt _ _ _ _ _ _ _ h
    intro x hx
    rw [h1] at hx
    simp only [initialState, List.nil_append] at hx
    exact h2 x hx

/-! ## The closure filter on a tree -/

theorem edge_unique (g : Graph) (h : (g.edges.map Prod.snd).Nodup) (e1 e2 : Nat × Nat)
    (h1 : e1 ∈ g.edges) (h2 : e2 ∈ g.edges) (ht : e1.2 = e2.2) : e1 = e2 :=
  List.inj_on_of_nodup_map h h1 h2 ht

theorem not_Covered_root (filter_ : List Regex) (g : Graph)
    (hroot : ∀ e ∈ g.edges, e.2 ≠ 0) : ¬ Covered filter_ g 0 := by
  rintro ⟨w, hw, _, hr⟩
  rcases Relation.ReflTransGen.cases_tail hr with h | ⟨x, _, hx⟩
  · exact hw h.symm
  · exact hroot _ hx rfl

theorem Covered_child (filter_ : List Regex) (g : Graph)
    (hroot : ∀ e ∈ g.edges, e.2 ≠ 0) (hone : (g.edges.map Prod.snd).Nodup)
    (u v : Nat) (he : (u, v) ∈ g.edges) :
    Covered filter_ g v ↔ (Covered filter_ g u ∨ matchesAny filter_ g v = true) := by
  constructor
  · rintro ⟨w, hw, hm, hr⟩
    rcases Relation.ReflTransGen.cases_tail hr with h | ⟨x, hwx, hx⟩
    · subst h; exact Or.inr hm
    · have := edge_unique g hone (x, v) (u, v) hx he rfl
      simp only [Prod.mk.injEq, and_true] at this
      subst this
      exact Or.inl ⟨w, hw, hm, hwx⟩
  · rintro (⟨w, hw, hm, hr⟩ | hm)
    · exact ⟨w, hw, hm, Relation.ReflTransGen.tail hr he⟩
    · exact ⟨v, hroot _ he, hm, Relation.ReflTransGen.refl⟩

theorem FirstMatch_child (filter_ : List Regex) (g : Graph)
    (hroot : ∀ e ∈ g.edges, e.2 ≠ 0) (hone : (g.edges.map Prod.snd).Nodup)
    (u v : Nat) (he : (u, v) ∈ g.edges) :
    FirstMatch filter_ g v ↔ (matchesAny filter_ g v = true ∧ ¬ Covered filter_ g u) := by
  constructor
  · rintro ⟨_, hm, hanc⟩
    refine ⟨hm, ?_⟩
    rintro ⟨w, hw, hmw, hr⟩
    have := hanc w hw (Relation.TransGen.tail' hr he)
    rw [this] at hmw
    exact Bool.false_ne_true hmw
  · rintro ⟨hm, hnc⟩
    refine ⟨hroot _ he, hm, ?_⟩
    intro w hw hanc
    obtain ⟨x, hwx, hx⟩ := Relation.TransGen.tail'_iff.mp hanc
    have := edge_unique g hone (x, v) (u, v) hx he rfl
    simp only [Prod.mk.injEq, and_true] at this
    subst this
    by_contra hmw
    exact hnc ⟨w, hw, by simpa using hmw, hwx⟩

theorem examine_edge_included (filter_ : List Regex) (g : Graph) (e : Nat × Nat)
    (st : FilterState) :
    (examine_edge filter_ g e st).included_ =
      if st.included_ e.1 = true ∨ matchesAny filter_ g e.2 = true
      then setFlag st.included_ e.2 else st.included_ := by
  unfold examine_edge matchesAny
  by_cases h1 : st.included_ e.1 = true
  · simp [h1]
  · by_cases h2 : (filter_.any fun test => test.regex_match (vertexPath g e.2)) = true
    · simp [h1, h2]
    · simp [h1, h2]

theorem examine_edge_keepers (filter_ : List Regex) (g : Graph) (e : Nat × Nat)
    (st : FilterState) :
    (examine_edge filter_ g e st).keepers_ =
      if st.included_ e.1 = false ∧ matchesAny filter_ g e.2 = true
      then st.keepers_ ++ [vertexPath g e.2] else st.keepers_ := by
  unfold examine_edge matchesAny
  by_cases h1 : st.included_ e.1 = true
  · simp [h1]
  · by_cases h2 : (filter_.any fun test => test.regex_match (vertexPath g e.2)) = true
    · simp [h1, h2]
    · simp [h1, h2]

theorem mem_out_edges (g : Graph) (u : Nat) (e : Nat × Nat) :
    e ∈ out_edges g u ↔ e ∈ g.edges ∧ e.1 = u := by
  simp [out_edges, List.mem_filter]

theorem out_edges_nodup (g : Graph) (h : (g.edges.map Prod.snd).Nodup) (u : Nat) :
    ((out_edges g u).map Prod.snd).Nodup :=
  List.Nodup.sublist ((List.filter_sublist g.edges).map Prod.snd) h

/-- On a tree every pending edge leads to a white vertex, and discovering it keeps the state of
the visit in order. -/
theorem VisitInv_step (filter_ : List Regex) (g : Graph)
    (hrange : ∀ e ∈ g.edges, e.1 < num_vertices g ∧ e.2 < num_vertices g)
    (hroot : ∀ e ∈ g.edges, e.2 ≠ 0) (hone : (g.edges.map Prod.snd).Nodup)
    (e : Nat × Nat) (rest : List (Nat × Nat)) (st : FilterState)
    (hinv : VisitInv filter_ g (e :: rest) st) :
    (e.2 < num_vertices g ∧ (examine_edge filter_ g e st).discovered e.2 = false) ∧
    VisitInv filter_ g (out_edges g e.2 ++ rest)
      { discovered := setFlag (examine_edge filter_ g e st).discovered e.2,
        included_ := (examine_edge filter_ g e st).included_,
        keepers_ := (examine_edge filter_ g e st).keepers_ } ∧
    (FirstMatch filter_ g e.2 →
      (examine_edge filter_ g e st).keepers_ = st.keepers_ ++ [vertexPath g e.2]) ∧
    (¬ FirstMatch filter_ g e.2 → (examine_edge filter_ g e st).keepers_ = st.keepers_) := by
  obtain ⟨hA, hB, hC, hD, hE, hF⟩ := hinv
  obtain ⟨heE, heS, heT⟩ := hA e (List.mem_cons_self _ _)
  have hd := examine_edge_discovered filter_ g e st
  have hne : e.1 ≠ e.2 := by
    intro h; rw [h] at heS; rw [heS] at heT; exact Bool.noConfusion heT
  have hrestT : e.2 ∉ rest.map Prod.snd := by
    simp only [List.map_cons, List.nodup_cons] at hB
    exact hB.1
  have hee : (e.1, e.2) ∈ g.edges := heE
  have hcovU := hE e.1 heS
  have hcovV := Covered_child filter_ g hroot hone e.1 e.2 hee
  have hfm := FirstMatch_child filter_ g hroot hone e.1 e.2 hee
  refine ⟨⟨(hrange e heE).2, by rw [hd]; exact heT⟩, ?_, ?_, ?_⟩
  · rw [hd]
    refine ⟨?_, ?_, ?_, ?_, ?_, ?_⟩
    · intro e' he'
      rcases List.mem_append.mp he' with h | h
      · obtain ⟨h1, h2⟩ := (mem_out_edges g e.2 e').mp h
        refine ⟨h1, by simp only [h2, setFlag_self], ?_⟩
        have hne' : e'.2 ≠ e.2 := by
          intro ht
          have := edge_unique g hone e' e h1 heE ht
          rw [this] at h2
          exact hne h2
        simp only [setFlag_ne _ _ _ hne']
        cases hdt : st.discovered e'.2 with
        | false => rfl
        | true =>
          have := (hC e' h1 hdt).1
          rw [h2, heT] at this
          exact Bool.noConfusion this
      · obtain ⟨h1, h2, h3⟩ := hA e' (List.mem_cons_of_mem _ h)
        have hne' : e'.2 ≠ e.2 := by
          intro ht
          apply hrestT
          rw [← ht]
          exact List.mem_map_of_mem _ h
        refine ⟨h1, ?_, by simp only [setFlag_ne _ _ _ hne']; exact h3⟩
        simp only [setFlag]
        split
        · rfl
        · exact h2
    · rw [List.map_append, List.nodup_append]
      refine ⟨out_edges_nodup g hone e.2, (List.nodup_cons.mp hB).2, ?_⟩
      intro t ht1 ht2
      obtain ⟨e1, he1, rfl⟩ := List.mem_map.mp ht1
      obtain ⟨e2, he2, he2t⟩ := List.mem_map.mp ht2
      obtain ⟨h1, h2⟩ := (mem_out_edges g e.2 e1).mp he1
      obtain ⟨h3, h4, _⟩ := hA e2 (List.mem_cons_of_mem _ he2)
      have := edge_unique g hone e2 e1 h3 h1 he2t
      rw [this, h2, heT] at h4
      exact Bool.noConfusion h4
    · intro e' he' hdt
      by_cases ht : e'.2 = e.2
      · have := edge_unique g hone e' e he' heE ht
        subst this
        refine ⟨by simp only [setFlag]; split <;> [rfl; exact heS], ?_⟩
        intro hmem
        rcases List.mem_append.mp hmem with h | h
        · exact hne ((mem_out_edges g e'.2 e').mp h).2
        · exact hrestT (List.mem_map_of_mem _ h)
      · simp only [setFlag_ne _ _ _ ht] at hdt
        obtain ⟨h1, h2⟩ := hC e' he' hdt
        refine ⟨by simp only [setFlag]; split <;> [rfl; exact h1], ?_⟩
        intro hmem
        rcases List.mem_append.mp hmem with h | h
        · have := ((mem_out_edges g e.2 e').mp h).2
          rw [this, heT] at h1
          exact Bool.noConfusion h1
        · exact h2 (List.mem_cons_of_mem _ h)
    · intro e' he' hds
      by_cases hs : e'.1 = e.2
      · exact Or.inr (List.mem_append_left _ ((mem_out_edges g e.2 e').mpr ⟨he', hs⟩))
      · simp only [setFlag_ne _ _ _ hs] at hds
        rcases hD e' he' hds with h | h
        · left
          simp only [setFlag]
          split
          · rfl
          · exact h
        · rcases List.mem_cons.mp h with h | h
          · left
            rw [h]
            exact setFlag_self _ _
          · exact Or.inr (List.mem_append_right _ h)
    · intro v hv
      rw [examine_edge_included]
      by_cases hve : v = e.2
      · subst hve
        rw [hcovV, ← hcovU]
        by_cases hc : st.included_ e.1 = true ∨ matchesAny filter_ g e.2 = true
        · simp only [hc, if_true, setFlag_self]
        · simp only [hc, if_false, iff_false]
          rw [hF e.2 heT]
          exact Bool.false_ne_true
      · simp only [setFlag_ne _ _ _ hve] at hv
        have hsame : (if st.included_ e.1 = true ∨ matchesAny filter_ g e.2 = true
            then setFlag st.included_ e.2 else st.included_) v = st.included_ v := by
          split
          · exact setFlag_ne _ _ _ hve
          · rfl
        rw [hsame]
        exact hE v hv
    · intro v hv0
      have hv : setFlag st.discovered e.2 v = false := hv0
      have hve : v ≠ e.2 := by
        intro h; rw [h, setFlag_self] at hv; exact Bool.noConfusion hv
      rw [setFlag_ne _ _ _ hve] at hv
      rw [examine_edge_included]
      have hsame : (if st.included_ e.1 = true ∨ matchesAny filter_ g e.2 = true
          then setFlag st.included_ e.2 else st.included_) v = st.included_ v := by
        split
        · exact setFlag_ne _ _ _ hve
        · rfl
      rw [hsame]
      exact hF v hv
  · intro hf
    rw [examine_edge_keepers]
    have := hfm.mp hf
    have hni : st.included_ e.1 = false := by
      cases hi : st.included_ e.1 with
      | false => rfl
      | true => exact absurd (hcovU.mp hi) this.2
    simp [hni, this.1]
  · intro hf
    rw [examine_edge_keepers]
    have hcond : ¬ (st.included_ e.1 = false ∧ matchesAny filter_ g e.2 = true) := by
      rintro ⟨h1, h2⟩
      apply hf
      apply hfm.mpr
      refine ⟨h2, ?_⟩
      intro hc
      rw [hcovU.mpr hc] at h1
      exact Bool.noConfusion h1
    simp only [hcond, if_false]

open Classical in
/-- A visit on a tree appends the first matches among the vertices it discovers, in the order
of their discovery, and ends with every edge out of a discovered vertex leading to a discovered
vertex. -/
theorem depth_first_visit_tree (filter_ : List Regex) (g : Graph)
    (hrange : ∀ e ∈ g.edges, e.1 < num_vertices g ∧ e.2 < num_vertices g)
    (hroot : ∀ e ∈ g.edges, e.2 ≠ 0) (hone : (g.edges.map Prod.snd).Nodup)
    (work : List (Nat × Nat)) (st : FilterState) :
    VisitInv filter_ g work st →
    (depth_first_visit filter_ g work st).keepers_ =
      st.keepers_ ++ ((preorderVisit g work st.discovered).filter
        (fun v => decide (FirstMatch filter_ g v))).map (vertexPath g) ∧
    (∀ v, st.discovered v = true → (depth_first_visit filter_ g work st).discovered v = true) ∧
    (∀ e ∈ g.edges, (depth_first_visit filter_ g work st).discovered e.1 = true →
      (depth_first_visit filter_ g work st).discovered e.2 = true) ∧
    (∀ v, (depth_first_visit filter_ g work st).discovered v = true →
      ((depth_first_visit filter_ g work st).included_ v = true ↔ Covered filter_ g v)) := by
  induction work, st using depth_first_visit.induct filter_ g with
  | case1 st =>
    intro hinv
    rw [depth_first_visit, preorderVisit]
    refine ⟨by simp, fun v hv => hv, ?_, hinv.cov⟩
    intro e he hd
    rcases hinv.pending e he hd with h | h
    · exact h
    · simp at h
  | case2 st e rest st1 h ih =>
    intro hinv
    obtain ⟨hw, hnext, hk1, hk2⟩ := VisitInv_step filter_ g hrange hroot hone e rest st hinv
    obtain ⟨i1, i2, i3, i4⟩ := ih hnext
    have hd := examine_edge_discovered filter_ g e st
    have hw' : e.2 < num_vertices g ∧ st.discovered e.2 = false := by
      rw [← hd]; exact hw
    rw [depth_first_visit, dif_pos h, preorderVisit, dif_pos hw']
    refine ⟨?_, ?_, i3, i4⟩
    · rw [i1]
      simp only [st1, hd]
      by_cases hf : FirstMatch filter_ g e.2
      · rw [hk1 hf]
        simp [List.filter_cons, hf]
      · rw [hk2 hf]
        simp [List.filter_cons, hf]
    · intro v hv
      apply i2
      simp only [st1, hd, setFlag]
      split
      · rfl
      · exact hv
  | case3 st e rest st1 h ih =>
    intro hinv
    exact absurd (VisitInv_step filter_ g hrange hroot hone e rest st hinv).1 h

theorem search_loop_discovered (filter_ : List Regex) (g : Graph) (l : List Nat)
    (s : FilterState) (h : ∀ u ∈ l, s.discovered u = true) :
    l.foldl (fun s u =>
      if s.discovered u then s
      else depth_first_visit filter_ g (out_edges g u)
        { s with discovered := setFlag s.discovered u }) s = s := by
  induction l with
  | nil => rfl
  | cons u l ih =>
    rw [List.foldl_cons]
    simp only [h u (List.mem_cons_self _ _), if_true]
    exact ih (fun x hx => h x (List.mem_cons_of_mem _ hx))

theorem VisitInv_root (filter_ : List Regex) (g : Graph)
    (hroot : ∀ e ∈ g.edges, e.2 ≠ 0) (hone : (g.edges.map Prod.snd).Nodup) :
    VisitInv filter_ g (out_edges g 0)
      { discovered := setFlag (fun _ => false) 0, included_ := fun _ => false,
        keepers_ := [] } := by
  have hdisc : ∀ v, setFlag (fun _ => false) 0 v = true ↔ v = 0 := by
    intro v; simp [setFlag]
  refine ⟨?_, out_edges_nodup g hone 0, ?_, ?_, ?_, ?_⟩
  · intro e he
    obtain ⟨h1, h2⟩ := (mem_out_edges g 0 e).mp he
    refine ⟨h1, (hdisc _).mpr h2, ?_⟩
    exact setFlag_ne (fun _ => false) 0 e.2 (hroot e h1)
  · intro e he hd
    exact absurd ((hdisc _).mp hd) (hroot e he)
  · intro e he hd
    exact Or.inr ((mem_out_edges g 0 e).mpr ⟨he, (hdisc _).mp hd⟩)
  · intro v hv
    have := (hdisc v).mp hv
    subst this
    simp only [Bool.false_eq_true, false_iff]
    exact not_Covered_root filter_ g hroot
  · intro v _
    rfl

open Classical in
/-- On a tree `depth_first_search` keeps the first matches in pre-order and marks exactly the
covered vertices. -/
theorem depth_first_search_tree (filter_ : List Regex) (g : Graph) (ht : IsTree g) :
    (depth_first_search filter_ g initialFilterState).keepers_ =
      ((dfsPreorder g).filter (fun v => decide (FirstMatch filter_ g v))).map (vertexPath g) ∧
    ∀ v, v < num_vertices g →
      ((depth_first_search filter_ g initialFilterState).included_ v = true
        ↔ Covered filter_ g v) := by
  obtain ⟨hn, hrange, hroot, hone, hreach⟩ := ht
  obtain ⟨m, hm⟩ : ∃ m, num_vertices g = m + 1 := ⟨num_vertices g - 1, by omega⟩
  obtain ⟨i1, i2, i3, i4⟩ := depth_first_visit_tree filter_ g hrange hroot hone _ _
    (VisitInv_root filter_ g hroot hone)
  have hall : ∀ v, v < num_vertices g →
      (depth_first_visit filter_ g (out_edges g 0)
        { discovered := setFlag (fun _ => false) 0, included_ := fun _ => false,
          keepers_ := [] }).discovered v = true := by
    intro v hv
    have hr := hreach v hv
    clear hv
    induction hr with
    | refl => exact i2 0 (setFlag_self (fun _ => false) 0)
    | tail _ hbc ih => exact i3 _ hbc ih
  have hrun : depth_first_search filter_ g initialFilterState =
      depth_first_visit filter_ g (out_edges g 0)
        { discovered := setFlag (fun _ => false) 0, included_ := fun _ => false,
          keepers_ := [] } := by
    unfold depth_first_search
    rw [hm, List.range_succ_eq_map, List.foldl_cons]
    simp only [initialFilterState, Bool.false_eq_true, if_false]
    apply search_loop_discovered
    intro u hu
    obtain ⟨x, hx, rfl⟩ := List.mem_map.mp hu
    apply hall
    have := List.mem_range.mp hx
    omega
  rw [hrun]
  refine ⟨?_, fun v hv => i4 v (hall v hv)⟩
  rw [i1]
  have h0 : ¬ FirstMatch filter_ g 0 := fun h => h.1 rfl
  simp [dfsPreorder, List.filter_cons, h0]

theorem preorderVisit_lt (g : Graph) (work : List (Nat × Nat)) (visited : Nat → Bool) :
    ∀ v ∈ preorderVisit g work visited, v < num_vertices g := by
  induction work, visited using preorderVisit.induct g with
  | case1 visited => intro v hv; rw [preorderVisit] at hv; simp at hv
  | case2 visited e rest h ih =>
    intro v hv
    rw [preorderVisit, dif_pos h] at hv
    rcases List.mem_cons.mp hv with hv | hv
    · rw [hv]; exact h.1
    · exact ih v hv
  | case3 visited e rest h ih =>
    intro v hv
    rw [preorderVisit, dif_neg h] at hv
    exact ih v hv

theorem chainGraph_isTree : IsTree chainGraph := by
  refine ⟨by decide, by decide, by decide, by decide, ?_⟩
  intro v hv
  have h01 : Reach chainGraph 0 1 :=
    Relation.ReflTransGen.single (by decide : ((0 : Nat), (1 : Nat)) ∈ chainGraph.edges)
  have h12 : ((1 : Nat), (2 : Nat)) ∈ chainGraph.edges := by decide
  have hv3 : v < 3 := hv
  interval_cases v
  · exact Relation.ReflTransGen.refl
  · exact h01
  · exact Relation.ReflTransGen.tail h01 h12

theorem chainGraph_distinct : NonRootPathsDistinct chainGraph := by
  intro i j hi hij hj
  have hj3 : j < 3 := hj
  interval_cases j <;> interval_cases i <;> simp_all [chainGraph, vertexPath]

/-! ## Well-formed graphs: edges in range, none into the root, every vertex reachable -/

theorem lookup_append_single (m : List (Path × Nat)) (k p : Path) (v w : Nat)
    (h : (m ++ [(k, v)]).lookup p = some w) :
    m.lookup p = some w ∨ (p = k ∧ w = v) := by
  induction m with
  | nil =>
    by_cases hk : p = k
    · subst hk
      simp [List.lookup] at h
      exact Or.inr ⟨rfl, h.symm⟩
    · have hb : (p == k) = false := by simpa using hk
      simp [List.lookup, hb] at h
  | cons a m ih =>
    obtain ⟨k1, v1⟩ := a
    by_cases hk : p = k1
    · subst hk
      simp only [List.cons_append, List.lookup_cons, beq_self_eq_true] at h ⊢
      exact Or.inl h
    · have hb : (p == k1) = false := by simpa using hk
      simp only [List.cons_append, List.lookup_cons, hb] at h ⊢
      exact ih h

theorem Reach_mono (g g2 : Graph) (h : ∀ e ∈ g.edges, e ∈ g2.edges) (u v : Nat)
    (hr : Reach g u v) : Reach g2 u v :=
  Relation.ReflTransGen.mono (fun a b hab => h (a, b) hab) hr

theorem StateOk_addInclude (parent sibling d : Nat) (file : Path) (st : ParseState)
    (ins : IStream) (h : StateOk st) (hp : parent < num_vertices st.deps)
    (hs : sibling < num_vertices st.deps) :
    StateOk (addInclude parent sibling d file st ins).2 ∧
    num_vertices st.deps ≤ num_vertices (addInclude parent sibling d file st ins).2.deps ∧
    (addInclude parent sibling d file st ins).1
      < num_vertices (addInclude parent sibling d file st ins).2.deps := by
  obtain ⟨⟨h0, hE, hR⟩, hM⟩ := h
  unfold addInclude
  cases hl : st.include_map.lookup file with
  | some v =>
    obtain ⟨hv0, hvn⟩ := hM file v hl
    dsimp only [num_vertices, add_edge] at *
    refine ⟨⟨⟨h0, ?_, ?_⟩, hM⟩, le_refl _, hs⟩
    · intro e he
      rcases List.mem_append.mp he with he | he
      · exact hE e he
      · simp only [List.mem_singleton] at he
        subst he
        exact ⟨hp, hvn, by omega⟩
    · intro w hw
      exact Reach_mono st.deps _ (fun e he => List.mem_append_left _ he) 0 w (hR w hw)
  | none =>
    dsimp only [num_vertices, add_edge, add_vertex] at *
    refine ⟨⟨⟨?_, ?_, ?_⟩, ?_⟩, ?_, ?_⟩
    · simp only [num_vertices, List.length_append, List.length_singleton]; omega
    · intro e he
      simp only [num_vertices, List.length_append, List.length_singleton]
      rcases List.mem_append.mp he with he | he
      · have := hE e he
        omega
      · simp only [List.mem_singleton] at he
        subst he
        simp only
        omega
    · intro w hw
      simp only [num_vertices, List.length_append, List.length_singleton] at hw
      by_cases hwl : w < st.deps.paths.length
      · exact Reach_mono st.deps _ (fun e he => List.mem_append_left _ he) 0 w (hR w hwl)
      · have hwe : w = st.deps.paths.length := by omega
        subst hwe
        have hrp : Reach st.deps 0 parent := hR parent hp
        refine Relation.ReflTransGen.tail
          (Reach_mono st.deps _ (fun e he => List.mem_append_left _ he) 0 parent hrp) ?_
        simp
    · intro p v hpv
      simp only [num_vertices, List.length_append, List.length_singleton]
      rcases lookup_append_single _ _ _ _ _ hpv with h1 | ⟨_, h2⟩
      · have := hM p v h1
        omega
      · omega
    · simp only [num_vertices, List.length_append, List.length_singleton]; omega
    · simp only [num_vertices, List.length_append, List.length_singleton]; omega

/-- The recursive descent keeps the graph in order as long as `parent` and `sibling` are
vertices of the graph. -/
theorem ReadDepsFileRecursive_ok (fmt : Format) :
    ∀ (fuel parent sibling depth : Nat) (file : Path) (st st' : ParseState),
      ReadDepsFileRecursive fmt fuel parent sibling depth file st = some st' →
      StateOk st → parent < num_vertices st.deps → sibling < num_vertices st.deps →
      StateOk st' ∧ num_vertices st.deps ≤ num_vertices st'.deps := by
  intro fuel
  induction fuel with
  | zero =>
    intro _ _ _ _ _ _ h
    simp [ReadDepsFileRecursive] at h
  | succ fuel ih =>
    intro parent sibling depth file st st' hrun hok hp hs
    obtain ⟨deps, imap, ln, ⟨b, e, f⟩, seen⟩ := st
    cases f with
    | true =>
      rw [ReadDepsFileRecursive_fail fmt fuel parent sibling depth file _ rfl] at hrun
      cases hrun
      exact ⟨hok, le_refl _⟩
    | false =>
      cases e with
      | true =>
        rw [ReadDepsFileRecursive_eof fmt fuel parent sibling depth file _ b rfl] at hrun
        have := ih _ _ _ _ _ _ hrun hok hp hs
        exact this
      | false =>
        rw [ReadDepsFileRecursive_good fmt fuel parent sibling depth file _ b rfl] at hrun
        by_cases h0 : (fmt.countDepth ⟨b, false, false⟩).1 = 0
        · simp only [h0, if_true] at hrun
          have := ih _ _ _ _ _ _ hrun hok hp hs
          exact this
        · simp only [h0, if_false] at hrun
          by_cases h1 : (fmt.countDepth ⟨b, false, false⟩).1 ≤ depth
          · simp only [h1, if_true] at hrun
            cases hrun
            exact ⟨hok, le_refl _⟩
          · simp only [h1, if_false] at hrun
            by_cases h2 : (fmt.countDepth ⟨b, false, false⟩).1 = depth + 1
            · simp only [h2, if_true] at hrun
              obtain ⟨a1, a2, a3⟩ := StateOk_addInclude parent sibling (depth + 1)
                (normalize ((fmt.skipSeparator
                  (fmt.countDepth ⟨b, false, false⟩).2).getline file).1)
                { deps := deps, include_map := imap, line_number := ln,
                  ins := ⟨b, false, false⟩, seen := seen }
                ((fmt.skipSeparator (fmt.countDepth ⟨b, false, false⟩).2).getline file).2
                hok hp hs
              obtain ⟨b1, b2⟩ := ih _ _ _ _ _ _ hrun a1 (by simp only at hp a2 ⊢; omega) a3
              exact ⟨b1, by simp only at a2 b2 ⊢; omega⟩
            · simp only [h2, if_false] at hrun
              cases hc : ReadDepsFileRecursive fmt fuel sibling sibling (depth + 1) []
                  { deps := deps, include_map := imap, line_number := ln,
                    ins := ⟨b, false, false⟩, seen := seen } with
              | none => rw [hc] at hrun; simp at hrun
              | some st1 =>
                rw [hc] at hrun
                simp only [Option.some_bind] at hrun
                obtain ⟨a1, a2⟩ := ih _ _ _ _ _ _ hc hok hs hs
                simp only at hp hs a2
                obtain ⟨b1, b2⟩ := ih _ _ _ _ _ _ hrun a1 (by omega) (by omega)
                exact ⟨b1, by simp only; omega⟩

theorem initialState_ok (ins : IStream) : StateOk (initialState ins) := by
  refine ⟨⟨by simp [initialState, add_vertex, num_vertices], ?_, ?_⟩, ?_⟩
  · intro e he; simp [initialState, add_vertex] at he
  · intro v hv
    simp [initialState, add_vertex, num_vertices] at hv
    subst hv
    exact Relation.ReflTransGen.refl
  · intro p v h; simp [initialState] at h

theorem parseFrom_ok (fmt : Format) (ins : IStream) :
    ∃ g, (parseFrom fmt ins).map (fun st => st.deps) = some g ∧ GraphOk g := by
  obtain ⟨st, h⟩ := parseFrom_total fmt ins
  refine ⟨st.deps, by rw [h]; rfl, ?_⟩
  exact (ReadDepsFileRecursive_ok fmt _ _ _ _ _ _ _ h (initialState_ok ins)
    (by simp [initialState, add_vertex, num_vertices])
    (by simp [initialState, add_vertex, num_vertices])).1.1

theorem ReadDepsFile_ok (content : List Char) :
    ∃ g, ReadDepsFile content = some g ∧ GraphOk g := by
  unfold ReadDepsFile
  simp only
  split
  · exact parseFrom_ok Format.gcc _
  · exact parseFrom_ok Format.msvc _

/-! ## One edge per include line -/

theorem vertexPath_append (g : Graph) (file : Path) (es : List (Nat × Nat)) (v : Nat)
    (h : v < num_vertices g) :
    vertexPath ⟨g.paths ++ [file], es⟩ v = vertexPath g v := by
  simp only [vertexPath]
  exact List.getD_append _ _ _ _ h

theorem vertexPath_new (g : Graph) (file : Path) (es : List (Nat × Nat)) :
    vertexPath ⟨g.paths ++ [file], es⟩ g.paths.length = file := by
  simp only [vertexPath]
  rw [List.getD_append_right _ _ _ _ (le_refl _)]
  simp

theorem addInclude_old (parent sibling d : Nat) (file : Path) (st : ParseState) (ins : IStream)
    (v : Nat) (h : st.include_map.lookup file = some v) :
    addInclude parent sibling d file st ins =
      (sibling,
        { deps := ⟨st.deps.paths, st.deps.edges ++ [(parent, v)]⟩,
          include_map := st.include_map,
          line_number := st.line_number + 1,
          ins := ins,
          seen := st.seen ++ [(d, file)] }) := by
  simp [addInclude, h, add_edge]

theorem EdgesMatchSeen_addInclude (parent sibling d : Nat) (file : Path) (st : ParseState)
    (ins : IStream) (h : EdgesMatchSeen st) :
    EdgesMatchSeen (addInclude parent sibling d file st ins).2 := by
  obtain ⟨hE, hM, hS⟩ := h
  cases hl : st.include_map.lookup file with
  | some v =>
    rw [addInclude_old _ _ _ _ _ _ v hl]
    obtain ⟨hvn, hvp⟩ := hM file v hl
    refine ⟨?_, hM, ?_⟩
    · intro e he
      rcases List.mem_append.mp he with he | he
      · exact hE e he
      · simp only [List.mem_singleton] at he
        subst he
        exact hvn
    · show List.map (fun e => vertexPath st.deps e.2) (st.deps.edges ++ [(parent, v)])
        = List.map Prod.snd (st.seen ++ [(d, file)])
      rw [List.map_append, List.map_append, hS]
      simp [hvp]
  | none =>
    rw [addInclude_new _ _ _ _ _ _ hl]
    have hold : ∀ v, v < num_vertices st.deps →
        vertexPath ⟨st.deps.paths ++ [file],
          st.deps.edges ++ [(parent, st.deps.paths.length)]⟩ v = vertexPath st.deps v :=
      fun v hv => vertexPath_append st.deps file _ v hv
    have hnew : vertexPath ⟨st.deps.paths ++ [file],
          st.deps.edges ++ [(parent, st.deps.paths.length)]⟩ st.deps.paths.length = file :=
      vertexPath_new st.deps file _
    refine ⟨?_, ?_, ?_⟩
    · intro e he
      show e.2 < (st.deps.paths ++ [file]).length
      rw [List.length_append, List.length_singleton]
      rcases List.mem_append.mp he with he | he
      · have := hE e he
        simp only [num_vertices] at this
        omega
      · simp only [List.mem_singleton] at he
        subst he
        simp
    · intro p v hpv
      show v < (st.deps.paths ++ [file]).length ∧
        vertexPath ⟨st.deps.paths ++ [file],
          st.deps.edges ++ [(parent, st.deps.paths.length)]⟩ v = p
      rw [List.length_append, List.length_singleton]
      rcases lookup_append_single _ _ _ _ _ hpv with h1 | ⟨h2, h3⟩
      · obtain ⟨a1, a2⟩ := hM p v h1
        refine ⟨by simp only [num_vertices] at a1; omega, ?_⟩
        rw [hold v a1]
        exact a2
      · subst h2 h3
        exact ⟨by omega, hnew⟩
    · show List.map (fun e => vertexPath ⟨st.deps.paths ++ [file],
          st.deps.edges ++ [(parent, st.deps.paths.length)]⟩ e.2)
          (st.deps.edges ++ [(parent, st.deps.paths.length)])
        = List.map Prod.snd (st.seen ++ [(d, file)])
      rw [List.map_append, List.map_append, ← hS]
      congr 1
      · apply List.map_congr_left
        intro e he
        exact hold e.2 (hE e he)
      · simp [hnew]

theorem parseFrom_edges (fmt : Format) (ins : IStream) (st : ParseState)
    (h : parseFrom fmt ins = some st) : EdgesMatchSeen st := by
  refine ReadDepsFileRecursive_preserves fmt EdgesMatchSeen (fun _ _ _ hi => hi)
    EdgesMatchSeen_addInclude _ _ _ _ _ _ _ h ?_
  refine ⟨?_, ?_, rfl⟩
  · intro e he; simp [initialState, add_vertex] at he
  · intro p v hpv; simp [initialState] at hpv

theorem parseFrom_edgePerLine (fmt : Format) (ins : IStream) :
    ∃ g, (parseFrom fmt ins).map (fun st => st.deps) = some g ∧
      EdgePerLine g (includeLines fmt ins) := by
  obtain ⟨st, h⟩ := parseFrom_total fmt ins
  have hl : includeLines fmt ins = st.seen := by simp [includeLines, h]
  obtain ⟨_, _, h3⟩ := parseFrom_edges fmt ins st h
  obtain ⟨⟨ext, e1, e2, _⟩, _⟩ := ReadDepsFileRecursive_seen fmt _ _ _ _ _ _ _ h
  refine ⟨st.deps, by rw [h]; rfl, ?_, ?_, ?_⟩
  · rw [hl]
    have := congrArg List.length h3
    simpa using this
  · rw [hl]; exact h3
  · rw [hl]
    intro x hx
    rw [e1] at hx
    simp only [initialState, List.nil_append] at hx
    exact e2 x hx

/-! ## What the closure filter keeps, on any graph -/

theorem examine_edge_matched (filter_ : List Regex) (g : Graph) (e : Nat × Nat)
    (st : FilterState) (he : e ∈ g.edges)
    (h : ∀ p ∈ st.keepers_, MatchedTarget filter_ g p) :
    ∀ p ∈ (examine_edge filter_ g e st).keepers_, MatchedTarget filter_ g p := by
  intro p hp
  rw [examine_edge_keepers] at hp
  by_cases hc : st.included_ e.1 = false ∧ matchesAny filter_ g e.2 = true
  · simp only [hc, and_self, if_true, List.mem_append, List.mem_singleton] at hp
    rcases hp with hp | hp
    · exact h p hp
    · subst hp
      refine ⟨⟨e, he, rfl⟩, ?_⟩
      have := hc.2
      simp only [matchesAny, List.any_eq_true] at this
      exact this
  · simp only [hc, if_false] at hp
    exact h p hp

theorem depth_first_visit_matched (filter_ : List Regex) (g : Graph)
    (work : List (Nat × Nat)) (st : FilterState) :
    (∀ e ∈ work, e ∈ g.edges) →
    (∀ p ∈ st.keepers_, MatchedTarget filter_ g p) →
    ∀ p ∈ (depth_first_visit filter_ g work st).keepers_, MatchedTarget filter_ g p := by
  induction work, st using depth_first_visit.induct filter_ g with
  | case1 st => intro _ h; rw [depth_first_visit]; exact h
  | case2 st e rest st1 h ih =>
    intro hw hk
    rw [depth_first_visit, dif_pos h]
    apply ih
    · intro e' he'
      rcases List.mem_append.mp he' with h1 | h1
      · exact ((mem_out_edges g e.2 e').mp h1).1
      · exact hw e' (List.mem_cons_of_mem _ h1)
    · exact examine_edge_matched filter_ g e st (hw e (List.mem_cons_self _ _)) hk
  | case3 st e rest st1 h ih =>
    intro hw hk
    rw [depth_first_visit, dif_neg h]
    apply ih
    · intro e' he'
      exact hw e' (List.mem_cons_of_mem _ he')
    · exact examine_edge_matched filter_ g e st (hw e (List.mem_cons_self _ _)) hk

theorem ComputeIncludeFiles_matched (regex : List Regex) (deps : Graph) :
    ∀ p ∈ ComputeIncludeFiles regex deps, MatchedTarget regex deps p := by
  unfold ComputeIncludeFiles depth_first_search
  have key : ∀ (l : List Nat) (s : FilterState),
      (∀ p ∈ s.keepers_, MatchedTarget regex deps p) →
      ∀ p ∈ (l.foldl (fun s u =>
          if s.discovered u then s
          else depth_first_visit regex deps (out_edges deps u)
            { s with discovered := setFlag s.discovered u }) s).keepers_,
        MatchedTarget regex deps p := by
    intro l
    induction l with
    | nil => intro s hs; exact hs
    | cons u l ih =>
      intro s hs
      rw [List.foldl_cons]
      apply ih
      by_cases hu : s.discovered u = true
      · simp only [hu, if_true]; exact hs
      · simp only [hu, Bool.false_eq_true, if_false]
        exact depth_first_visit_matched regex deps _ _
          (fun e he => ((mem_out_edges deps u e).mp he).1) hs
  exact key _ _ (by intro p hp; simp at hp)

theorem examine_edge_covered (filter_ : List Regex) (g : Graph) (e : Nat × Nat)
    (st : FilterState) (he : e ∈ g.edges) (h : CoveredByKept g st) :
    CoveredByKept g (examine_edge filter_ g e st) ∧
    (matchesAny filter_ g e.2 = true → (examine_edge filter_ g e st).included_ e.2 = true) ∧
    (∀ x, st.included_ x = true → (examine_edge filter_ g e st).included_ x = true) := by
  have hee : (e.1, e.2) ∈ g.edges := he
  unfold CoveredByKept
  rw [examine_edge_included, examine_edge_keepers]
  by_cases h1 : st.included_ e.1 = true
  · have hc2 : ¬ (st.included_ e.1 = false ∧ matchesAny filter_ g e.2 = true) := by
      rw [h1]; simp
    simp only [h1, true_or, if_true, hc2, if_false]
    refine ⟨?_, fun _ => setFlag_self _ _, ?_⟩
    · intro x hx
      by_cases hxe : x = e.2
      · subst hxe
        obtain ⟨w, hw1, hw2⟩ := h e.1 h1
        exact ⟨w, hw1, Relation.ReflTransGen.tail hw2 hee⟩
      · rw [setFlag_ne _ _ _ hxe] at hx
        exact h x hx
    · intro x hx
      simp only [setFlag]
      split
      · rfl
      · exact hx
  · have h1f : st.included_ e.1 = false := by simpa using h1
    by_cases h2 : matchesAny filter_ g e.2 = true
    · simp only [h1f, h2, Bool.false_eq_true, or_true, if_true, and_self]
      refine ⟨?_, fun _ => setFlag_self _ _, ?_⟩
      · intro x hx
        by_cases hxe : x = e.2
        · subst hxe
          exact ⟨e.2, by simp, Relation.ReflTransGen.refl⟩
        · rw [setFlag_ne _ _ _ hxe] at hx
          obtain ⟨w, hw1, hw2⟩ := h x hx
          exact ⟨w, List.mem_append_left _ hw1, hw2⟩
      · intro x hx
        simp only [setFlag]
        split
        · rfl
        · exact hx
    · simp only [h1f, h2, Bool.false_eq_true, or_self, if_false, and_false]
      exact ⟨h, fun hf => absurd hf (by simp), fun x hx => hx⟩

theorem depth_first_visit_covered (filter_ : List Regex) (g : Graph)
    (work : List (Nat × Nat)) (st : FilterState) :
    (∀ e ∈ work, e ∈ g.edges) → CoveredByKept g st → EdgesSettled filter_ g work st →
    CoveredByKept g (depth_first_visit filter_ g work st) ∧
    EdgesSettled filter_ g [] (depth_first_visit filter_ g work st) ∧
    (∀ x, st.discovered x = true →
      (depth_first_visit filter_ g work st).discovered x = true) := by
  induction work, st using depth_first_visit.induct filter_ g with
  | case1 st =>
    intro _ hc hs
    rw [depth_first_visit]
    exact ⟨hc, hs, fun x hx => hx⟩
  | case2 st e rest st1 h ih =>
    intro hw hc hs
    have he := hw e (List.mem_cons_self _ _)
    obtain ⟨c1, c2, c3⟩ := examine_edge_covered filter_ g e st he hc
    have hd := examine_edge_discovered filter_ g e st
    rw [depth_first_visit, dif_pos h]
    have hnext := ih
      (by
        intro e' he'
        rcases List.mem_append.mp he' with h1 | h1
        · exact ((mem_out_edges g e.2 e').mp h1).1
        · exact hw e' (List.mem_cons_of_mem _ h1))
      c1
      (by
        intro e' he' hdisc
        have hdisc' : setFlag st.discovered e.2 e'.1 = true := by
          simpa only [st1, hd] using hdisc
        by_cases hs1 : e'.1 = e.2
        · exact Or.inl (List.mem_append_left _ ((mem_out_edges g e.2 e').mpr ⟨he', hs1⟩))
        · rw [setFlag_ne _ _ _ hs1] at hdisc'
          rcases hs e' he' hdisc' with h1 | h1
          · rcases List.mem_cons.mp h1 with h2 | h2
            · right; rw [h2]; exact c2
            · exact Or.inl (List.mem_append_right _ h2)
          · right
            intro hm
            exact c3 _ (h1 hm))
    refine ⟨hnext.1, hnext.2.1, ?_⟩
    intro x hx
    apply hnext.2.2
    simp only [st1, hd, setFlag]
    split
    · rfl
    · exact hx
  | case3 st e rest st1 h ih =>
    intro hw hc hs
    have he := hw e (List.mem_cons_self _ _)
    obtain ⟨c1, c2, c3⟩ := examine_edge_covered filter_ g e st he hc
    have hd := examine_edge_discovered filter_ g e st
    rw [depth_first_visit, dif_neg h]
    have hnext := ih
      (fun e' he' => hw e' (List.mem_cons_of_mem _ he'))
      c1
      (by
        intro e' he' hdisc
        have hdisc' : st.discovered e'.1 = true := by
          simpa only [st1, hd] using hdisc
        rcases hs e' he' hdisc' with h1 | h1
        · rcases List.mem_cons.mp h1 with h2 | h2
          · right; rw [h2]; exact c2
          · exact Or.inl h2
        · right
          intro hm
          exact c3 _ (h1 hm))
    refine ⟨hnext.1, hnext.2.1, ?_⟩
    intro x hx
    apply hnext.2.2
    simp only [st1, hd]
    exact hx

theorem depth_first_search_covered (filter_ : List Regex) (g : Graph) :
    CoveredByKept g (depth_first_search filter_ g initialFilterState) ∧
    ∀ e ∈ g.edges, e.1 < num_vertices g → matchesAny filter_ g e.2 = true →
      (depth_first_search filter_ g initialFilterState).included_ e.2 = true := by
  unfold depth_first_search
  have key : ∀ (l : List Nat) (s : FilterState),
      CoveredByKept g s → EdgesSettled filter_ g [] s →
      CoveredByKept g (l.foldl (fun s u =>
          if s.discovered u then s
          else depth_first_visit filter_ g (out_edges g u)
            { s with discovered := setFlag s.discovered u }) s) ∧
      EdgesSettled filter_ g [] (l.foldl (fun s u =>
          if s.discovered u then s
          else depth_first_visit filter_ g (out_edges g u)
            { s with discovered := setFlag s.discovered u }) s) ∧
      (∀ x, (s.discovered x = true ∨ x ∈ l) → (l.foldl (fun s u =>
          if s.discovered u then s
          else depth_first_visit filter_ g (out_edges g u)
            { s with discovered := setFlag s.discovered u }) s).discovered x = true) := by
    intro l
    induction l with
    | nil =>
      intro s hc hs
      refine ⟨hc, hs, ?_⟩
      intro x hx
      rcases hx with hx | hx
      · exact hx
      · simp at hx
    | cons u l ih =>
      intro s hc hs
      rw [List.foldl_cons]
      by_cases hu : s.discovered u = true
      · simp only [hu, if_true]
        obtain ⟨a1, a2, a3⟩ := ih s hc hs
        refine ⟨a1, a2, ?_⟩
        intro x hx
        apply a3
        rcases hx with hx | hx
        · exact Or.inl hx
        · rcases List.mem_cons.mp hx with hx | hx
          · subst hx; exact Or.inl hu
          · exact Or.inr hx
      · simp only [hu, Bool.false_eq_true, if_false]
        obtain ⟨v1, v2, v3⟩ := depth_first_visit_covered filter_ g (out_edges g u)
          { s with discovered := setFlag s.discovered u }
          (fun e he => ((mem_out_edges g u e).mp he).1) hc
          (by
            intro e he hdisc
            have hdisc' : setFlag s.discovered u e.1 = true := hdisc
            by_cases hs1 : e.1 = u
            · exact Or.inl ((mem_out_edges g u e).mpr ⟨he, hs1⟩)
            · rw [setFlag_ne _ _ _ hs1] at hdisc'
              rcases hs e he hdisc' with h1 | h1
              · simp at h1
              · exact Or.inr h1)
        obtain ⟨a1, a2, a3⟩ := ih _ v1 v2
        refine ⟨a1, a2, ?_⟩
        intro x hx
        apply a3
        rcases hx with hx | hx
        · left
          apply v3
          show setFlag s.discovered u x = true
          simp only [setFlag]
          split
          · rfl
          · exact hx
        · rcases List.mem_cons.mp hx with hx | hx
          · left
            apply v3
            subst hx
            exact setFlag_self _ _
          · exact Or.inr hx
  obtain ⟨a1, a2, a3⟩ := key (List.range (num_vertices g)) initialFilterState
    (by intro x hx; simp [initialFilterState] at hx)
    (by intro e _ hd; simp [initialFilterState] at hd)
  refine ⟨a1, ?_⟩
  intro e he hlt hm
  rcases a2 e he (a3 e.1 (Or.inr (List.mem_range.mpr hlt))) with h | h
  · simp at h
  · exact h hm

/-! ## The parser loop as a scan of the stream, and the record of recursive calls -/

/-- One iteration of `ReadDepsFileRecursive`, by what `scan` finds. -/
theorem ReadDepsFileRecursive_scan (fmt : Format) (fuel parent sibling depth : Nat)
    (file : Path) (st : ParseState) :
    ReadDepsFileRecursive fmt (fuel + 1) parent sibling depth file st =
      match scan fmt file st.ins with
      | Scan.stop => some st
      | Scan.noise file1 ins1 =>
        ReadDepsFileRecursive fmt fuel parent sibling depth file1
          { st with ins := ins1, line_number := st.line_number + 1 }
      | Scan.line d file1 ins1 back =>
        if d ≤ depth then some { st with ins := back }
        else if d = depth + 1 then
          ReadDepsFileRecursive fmt fuel parent (addInclude parent sibling d file1 st ins1).1
            depth file1 (addInclude parent sibling d file1 st ins1).2
        else
          (ReadDepsFileRecursive fmt fuel sibling sibling (depth + 1) []
            { st with ins := back }).bind
            (fun st1 => ReadDepsFileRecursive fmt fuel parent sibling depth file st1) := by
  rw [ReadDepsFileRecursive]
  unfold scan
  by_cases hok : st.ins.ok = false
  · simp only [hok, if_true]
  · have hok' : st.ins.ok = true := by simpa using hok
    simp only [hok', Bool.true_eq_false, if_false]
    by_cases h0 : (fmt.countDepth st.ins.tellg.2).1 = 0
    · simp only [h0, if_true]
    · simp only [h0, if_false]
      by_cases h1 : (fmt.countDepth st.ins.tellg.2).1 ≤ depth
      · simp only [h1, if_true]
      · simp only [h1, if_false]
        by_cases h2 : (fmt.countDepth st.ins.tellg.2).1 = depth + 1
        · simp only [h2, if_true]
        · simp only [h2, if_false]
          cases ReadDepsFileRecursive fmt fuel sibling sibling (depth + 1) []
            { st with ins := (fmt.countDepth st.ins.tellg.2).2.seekg st.ins.tellg.1 } <;> rfl

/-- More fuel does not change a result. -/
theorem ReadDepsFileRecursive_fuel_succ (fmt : Format) :
    ∀ (fuel parent sibling depth : Nat) (file : Path) (st st' : ParseState),
      ReadDepsFileRecursive fmt fuel parent sibling depth file st = some st' →
      ReadDepsFileRecursive fmt (fuel + 1) parent sibling depth file st = some st' := by
  intro fuel
  induction fuel with
  | zero => intro _ _ _ _ _ _ h; simp [ReadDepsFileRecursive] at h
  | succ fuel ih =>
    intro parent sibling depth file st st' h
    rw [ReadDepsFileRecursive_scan] at h ⊢
    cases hs : scan fmt file st.ins with
    | stop => rw [hs] at h; exact h
    | noise f1 i1 =>
      rw [hs] at h
      exact ih _ _ _ _ _ _ h
    | line d f1 i1 back =>
      rw [hs] at h
      simp only at h ⊢
      by_cases h1 : d ≤ depth
      · simp only [h1, if_true] at h ⊢; exact h
      · simp only [h1, if_false] at h ⊢
        by_cases h2 : d = depth + 1
        · simp only [h2, if_true] at h ⊢
          exact ih _ _ _ _ _ _ h
        · simp only [h2, if_false] at h ⊢
          cases hc : ReadDepsFileRecursive fmt fuel sibling sibling (depth + 1) []
              { st with ins := back } with
          | none => rw [hc] at h; simp at h
          | some st1 =>
            rw [hc] at h
            simp only [Option.some_bind] at h
            rw [ih _ _ _ _ _ _ hc]
            simp only [Option.some_bind]
            exact ih _ _ _ _ _ _ h

theorem ReadDepsFileRecursive_fuel_le (fmt : Format) (fuel fuel2 parent sibling depth : Nat)
    (file : Path) (st st' : ParseState) (hle : fuel ≤ fuel2)
    (h : ReadDepsFileRecursive fmt fuel parent sibling depth file st = some st') :
    ReadDepsFileRecursive fmt fuel2 parent sibling depth file st = some st' := by
  induction hle with
  | refl => exact h
  | step _ ih => exact ReadDepsFileRecursive_fuel_succ fmt _ _ _ _ _ _ _ ih

/-- The record of calls does not change what the function returns. -/
theorem ReadDepsFileRecursiveCalls_fst (fmt : Format) :
    ∀ (fuel parent sibling depth : Nat) (file : Path) (st : ParseState),
      (ReadDepsFileRecursiveCalls fmt fuel parent sibling depth file st).map Prod.fst =
        ReadDepsFileRecursive fmt fuel parent sibling depth file st := by
  intro fuel
  induction fuel with
  | zero => intro _ _ _ _ _; simp [ReadDepsFileRecursive, ReadDepsFileRecursiveCalls]
  | succ fuel ih =>
    intro parent sibling depth file st
    rw [ReadDepsFileRecursive_scan, ReadDepsFileRecursiveCalls]
    cases hs : scan fmt file st.ins with
    | stop => rfl
    | noise f1 i1 => exact ih _ _ _ _ _
    | line d f1 i1 back =>
      simp only
      by_cases h1 : d ≤ depth
      · simp only [h1, if_true]; rfl
      · simp only [h1, if_false]
        by_cases h2 : d = depth + 1
        · simp only [h2, if_true]
          exact ih _ _ _ _ _
        · simp only [h2, if_false]
          rw [← ih sibling sibling (depth + 1) [] { st with ins := back }]
          cases hc : ReadDepsFileRecursiveCalls fmt fuel sibling sibling (depth + 1) []
              { st with ins := back } with
          | none => rfl
          | some r1 =>
            obtain ⟨st1, c1⟩ := r1
            simp only [Option.map_some', Option.some_bind]
            rw [← ih parent sibling depth file st1]
            cases ReadDepsFileRecursiveCalls fmt fuel parent sibling depth file st1 with
            | none => rfl
            | some r2 => rfl

/-! ## Every recursive call is made in front of a deeper line -/

/-- A line of positive depth is found on a good stream only; putting the stream back gives the
stream as it was. -/
theorem scan_line_inv (fmt : Format) (file : Path) (ins : IStream) (d : Nat) (f1 : Path)
    (i1 back : IStream) (h : scan fmt file ins = Scan.line d f1 i1 back) :
    ∃ b, ins = ⟨b, false, false⟩ ∧ back = ⟨b, false, false⟩ ∧
      d = (fmt.countDepth ⟨b, false, false⟩).1 ∧ 0 < d ∧
      f1 = normalize ((fmt.skipSeparator (fmt.countDepth ⟨b, false, false⟩).2).getline file).1 ∧
      i1 = ((fmt.skipSeparator (fmt.countDepth ⟨b, false, false⟩).2).getline file).2 := by
  obtain ⟨b, e, f⟩ := ins
  cases f with
  | true => simp [scan, IStream.ok] at h
  | false =>
    cases e with
    | true =>
      simp [scan, IStream.ok, tellg_eof, countDepth_fail] at h
    | false =>
      unfold scan at h
      simp only [IStream.ok, Bool.not_false, Bool.true_eq_false, if_false, tellg_good] at h
      by_cases h0 : (fmt.countDepth ⟨b, false, false⟩).1 = 0
      · simp [h0] at h
      · simp only [h0, if_false, Scan.line.injEq] at h
        obtain ⟨h1, h2, h3, h4⟩ := h
        have hf := (countDepth_good fmt b).2 (Nat.pos_of_ne_zero h0)
        rw [seekg_some _ b hf] at h4
        exact ⟨b, rfl, h4.symm, h1.symm, by omega, h2.symm, h3.symm⟩

theorem scan_noise_inv (fmt : Format) (file : Path) (ins : IStream) (f1 : Path)
    (i1 : IStream) (h : scan fmt file ins = Scan.noise f1 i1) :
    ins.failbit = false ∧
    (∀ b, ins = ⟨b, false, false⟩ → (fmt.countDepth ⟨b, false, false⟩).1 = 0 ∧
      f1 = ((fmt.countDepth ⟨b, false, false⟩).2.getline file).1 ∧
      i1 = ((fmt.countDepth ⟨b, false, false⟩).2.getline file).2) ∧
    (ins.eofbit = true → f1 = file ∧ i1 = ⟨ins.buf, true, true⟩) := by
  obtain ⟨b, e, f⟩ := ins
  cases f with
  | true => simp [scan, IStream.ok] at h
  | false =>
    refine ⟨rfl, ?_, ?_⟩
    · intro b' hb'
      simp only [IStream.mk.injEq, and_true] at hb'
      obtain ⟨hb1, hb2⟩ := hb'
      subst hb1 hb2
      unfold scan at h
      simp only [IStream.ok, Bool.not_false, Bool.true_eq_false, if_false, tellg_good] at h
      by_cases h0 : (fmt.countDepth ⟨b, false, false⟩).1 = 0
      · simp only [h0, if_true, Scan.noise.injEq] at h
        exact ⟨h0, h.1.symm, h.2.symm⟩
      · simp [h0] at h
    · intro he
      simp only at he
      subst he
      unfold scan at h
      simp only [IStream.ok, Bool.not_false, Bool.true_eq_false, if_false, tellg_eof,
        countDepth_fail, if_true, Scan.noise.injEq] at h
      rw [getline_fail _ _ rfl] at h
      exact ⟨h.1.symm, h.2.symm⟩

theorem scan_stop_iff (fmt : Format) (file : Path) (ins : IStream) :
    scan fmt file ins = Scan.stop ↔ ins.failbit = true := by
  unfold scan
  cases hf : ins.failbit with
  | true => simp [IStream.ok, hf]
  | false =>
    simp only [IStream.ok, hf, Bool.not_false, Bool.true_eq_false, if_false]
    split <;> simp

/-- Every recursive call has a `depth` argument below the depth of the line in front of which
it is made, and that line is one of the include lines of the log. -/
theorem ReadDepsFileRecursiveCalls_spec (fmt : Format) :
    ∀ (fuel parent sibling depth : Nat) (file : Path) (st st' : ParseState)
      (calls : List (Nat × Nat)),
      ReadDepsFileRecursiveCalls fmt fuel parent sibling depth file st = some (st', calls) →
      ∀ c ∈ calls, c.1 < c.2 ∧ ∃ p, (c.2, p) ∈ st'.seen := by
  intro fuel
  induction fuel with
  | zero => intro _ _ _ _ _ _ _ h; simp [ReadDepsFileRecursiveCalls] at h
  | succ fuel ih =>
    intro parent sibling depth file st st' calls h
    rw [ReadDepsFileRecursiveCalls] at h
    cases hs : scan fmt file st.ins with
    | stop =>
      rw [hs] at h
      simp only [Option.some.injEq, Prod.mk.injEq] at h
      intro c hc
      rw [← h.2] at hc
      simp at hc
    | noise f1 i1 =>
      rw [hs] at h
      exact ih _ _ _ _ _ _ _ h
    | line d f1 i1 back =>
      rw [hs] at h
      simp only at h
      by_cases h1 : d ≤ depth
      · simp only [h1, if_true, Option.some.injEq, Prod.mk.injEq] at h
        intro c hc
        rw [← h.2] at hc
        simp at hc
      · simp only [h1, if_false] at h
        by_cases h2 : d = depth + 1
        · simp only [h2, if_true] at h
          exact ih _ _ _ _ _ _ _ h
        · simp only [h2, if_false] at h
          cases hc1 : ReadDepsFileRecursiveCalls fmt fuel sibling sibling (depth + 1) []
              { st with ins := back } with
          | none => rw [hc1] at h; simp at h
          | some r1 =>
            obtain ⟨st1, c1⟩ := r1
            rw [hc1] at h
            simp only at h
            cases hc2 : ReadDepsFileRecursiveCalls fmt fuel parent sibling depth file st1 with
            | none => rw [hc2] at h; simp at h
            | some r2 =>
              obtain ⟨st2, c2⟩ := r2
              rw [hc2] at h
              simp only [Option.some.injEq, Prod.mk.injEq] at h
              obtain ⟨hst, hcalls⟩ := h
              subst hst
              have hr1 : ReadDepsFileRecursive fmt fuel sibling sibling (depth + 1) []
                  { st with ins := back } = some st1 := by
                rw [← ReadDepsFileRecursiveCalls_fst, hc1]; rfl
              have hr2 : ReadDepsFileRecursive fmt fuel parent sibling depth file st1
                  = some st2 := by
                rw [← ReadDepsFileRecursiveCalls_fst, hc2]; rfl
              obtain ⟨b, _, hback, hd, _, _, _⟩ := scan_line_inv fmt file st.ins d f1 i1 back hs
              obtain ⟨⟨ext1, a1, _, a3⟩, _⟩ := ReadDepsFileRecursive_seen fmt _ _ _ _ _ _ _ hr1
              obtain ⟨⟨ext2, b1, _, _⟩, _⟩ := ReadDepsFileRecursive_seen fmt _ _ _ _ _ _ _ hr2
              obtain ⟨p, rest, hp⟩ := a3 b hback (by rw [← hd]; omega)
              intro c hc
              rw [← hcalls] at hc
              rcases List.mem_cons.mp hc with hc | hc
              · subst hc
                refine ⟨by simp only; omega, p, ?_⟩
                rw [b1, a1, hp, ← hd]
                simp
              · rcases List.mem_append.mp hc with hc | hc
                · obtain ⟨q1, p', q2⟩ := ih _ _ _ _ _ _ _ hc1 c hc
                  exact ⟨q1, p', by rw [b1]; exact List.mem_append_left _ q2⟩
                · exact ih _ _ _ _ _ _ _ hc2 c hc

theorem parseFrom_calls (fmt : Format) (ins : IStream) :
    ∃ st calls,
      ReadDepsFileRecursiveCalls fmt (parseFuel ins) 0 0 0 [] (initialState ins)
        = some (st, calls) ∧
      ReadDepsFileRecursive fmt (parseFuel ins) 0 0 0 [] (initialState ins) = some st ∧
      ∀ c ∈ calls, c.1 < c.2 ∧ ∃ p, (c.2, p) ∈ st.seen := by
  obtain ⟨st, h⟩ := parseFrom_total fmt ins
  unfold parseFrom at h
  have hfst := ReadDepsFileRecursiveCalls_fst fmt (parseFuel ins) 0 0 0 [] (initialState ins)
  rw [h] at hfst
  cases hc : ReadDepsFileRecursiveCalls fmt (parseFuel ins) 0 0 0 [] (initialState ins) with
  | none => rw [hc] at hfst; simp at hfst
  | some r =>
    obtain ⟨st1, calls⟩ := r
    rw [hc] at hfst
    simp only [Option.map_some', Option.some.injEq] at hfst
    subst hfst
    exact ⟨st1, calls, rfl, h, ReadDepsFileRecursiveCalls_spec fmt _ _ _ _ _ _ _ _ hc⟩

/-! ## Logs as lists of lines -/

theorem stripRun_no_newline (c : Char) (l : List Char) (h : newline ∉ l) :
    newline ∉ (stripRun c l).2 := by
  induction l with
  | nil => simp [stripRun]
  | cons x r ih =>
    have hr : newline ∉ r := fun hr => h (List.mem_cons_of_mem _ hr)
    by_cases hx : x = c
    · simp only [stripRun, hx, if_true]; exact ih hr
    · simp only [stripRun, hx, if_false]; exact h

theorem stripLeading_no_newline (pre l : List Char) (h : newline ∉ l) :
    newline ∉ stripLeading pre l := by
  induction pre generalizing l with
  | nil => cases l <;> simp_all [stripLeading]
  | cons p ps ih =>
    cases l with
    | nil => simp [stripLeading]
    | cons x r =>
      have hr : newline ∉ r := fun hr => h (List.mem_cons_of_mem _ hr)
      by_cases hx : x = p
      · simp only [stripLeading, hx, if_true]; exact ih r hr
      · simp only [stripLeading, hx, if_false]; exact h

theorem skipRunAux_text (c : Char) (hc : c ≠ newline) (l rest : List Char) :
    skipRunAux c (l ++ newline :: rest) false false =
      ((stripRun c l).1, ⟨(stripRun c l).2 ++ newline :: rest, false, false⟩) := by
  induction l with
  | nil =>
    have : newline ≠ c := fun h => hc h.symm
    simp [skipRunAux, stripRun, this]
  | cons x r ih =>
    by_cases hx : x = c
    · simp only [List.cons_append, skipRunAux, stripRun, hx, if_true]
      rw [show r.append (newline :: rest) = r ++ newline :: rest from rfl, ih]
    · simp [skipRunAux, stripRun, hx]

theorem skipPrefixAux_text (pre : List Char) (hpre : newline ∉ pre) (l rest : List Char) :
    skipPrefixAux pre (l ++ newline :: rest) false false =
      ⟨stripLeading pre l ++ newline :: rest, false, false⟩ := by
  induction pre generalizing l with
  | nil => cases l <;> simp [skipPrefixAux, stripLeading]
  | cons p ps ih =>
    have hps : newline ∉ ps := fun hps => hpre (List.mem_cons_of_mem _ hps)
    have hp : newline ≠ p := fun hp => hpre (by simp [hp])
    cases l with
    | nil => simp [skipPrefixAux, stripLeading, hp]
    | cons x r =>
      by_cases hx : x = p
      · simp only [List.cons_append, skipPrefixAux, stripLeading, hx, if_true]
        exact ih hps r
      · simp [skipPrefixAux, stripLeading, hx]

/-- The marker loops on a line of text that ends in a newline. -/
theorem countDepth_text (fmt : Format) (l rest : List Char) :
    fmt.countDepth ⟨l ++ newline :: rest, false, false⟩ =
      ((lineMarkers fmt l).1,
        ⟨(lineMarkers fmt l).2 ++ newline :: rest, false, false⟩) := by
  cases fmt with
  | gcc =>
    simp only [Format.countDepth, IStream.skipRun, lineMarkers]
    exact skipRunAux_text '.' (by decide) l rest
  | msvc =>
    simp only [Format.countDepth, IStream.skipRun, IStream.skipPrefix, lineMarkers]
    rw [skipPrefixAux_text msvcPrefix (by decide) l rest]
    exact skipRunAux_text ' ' (by decide) _ rest

theorem lineMarkers_no_newline (fmt : Format) (l : List Char) (h : newline ∉ l) :
    newline ∉ (lineMarkers fmt l).2 := by
  cases fmt with
  | gcc => exact stripRun_no_newline '.' l h
  | msvc => exact stripRun_no_newline ' ' _ (stripLeading_no_newline msvcPrefix l h)

theorem getline_text (l rest file : List Char) (h : newline ∉ l) :
    (IStream.mk (l ++ newline :: rest) false false).getline file = (l, ⟨rest, false, false⟩) := by
  simp [IStream.getline, IStream.sentry, IStream.good, splitLine_line l rest h]

/-- A line of text of depth 0 is read as noise. -/
theorem scan_text_noise (fmt : Format) (file l rest : List Char) (h : newline ∉ l)
    (hd : (lineMarkers fmt l).1 = 0) :
    scan fmt file ⟨l ++ newline :: rest, false, false⟩ =
      Scan.noise (lineMarkers fmt l).2 ⟨rest, false, false⟩ := by
  unfold scan
  simp only [IStream.ok, Bool.not_false, Bool.true_eq_false, if_false, tellg_good,
    countDepth_text, hd, if_true]
  rw [getline_text _ rest file (lineMarkers_no_newline fmt l h)]

/-- A line of text of positive depth is read as an include line. -/
theorem scan_text_line (fmt : Format) (file l rest : List Char) (h : newline ∉ l)
    (hd : (lineMarkers fmt l).1 ≠ 0) (hr : Readable fmt l) :
    scan fmt file ⟨l ++ newline :: rest, false, false⟩ =
      Scan.line (lineMarkers fmt l).1 (normalize (linePayload fmt l)) ⟨rest, false, false⟩
        ⟨l ++ newline :: rest, false, false⟩ := by
  unfold scan
  simp only [IStream.ok, Bool.not_false, Bool.true_eq_false, if_false, tellg_good,
    countDepth_text, hd]
  have hn := lineMarkers_no_newline fmt l h
  rw [seekg_some _ _ rfl]
  cases fmt with
  | msvc =>
    simp only [Format.skipSeparator, linePayload]
    rw [getline_text _ rest file hn]
  | gcc =>
    have hne := hr rfl
    simp only [Format.skipSeparator, linePayload]
    cases hm : (lineMarkers Format.gcc l).2 with
    | nil => exact absurd hm hne
    | cons x t =>
      rw [hm] at hn
      have ht : newline ∉ t := fun ht => hn (List.mem_cons_of_mem _ ht)
      simp only [List.cons_append, IStream.get, IStream.sentry, IStream.good, Bool.not_false,
        Bool.and_self, if_true, List.tail_cons]
      rw [getline_text t rest file ht]

/-- At the end of the text the loop reads one more (empty) line of depth 0 and stops. -/
theorem scan_text_end (fmt : Format) (file : List Char) :
    scan fmt file ⟨[], false, false⟩ = Scan.noise file ⟨[], true, true⟩ := by
  cases fmt <;>
    simp [scan, IStream.ok, tellg_good, Format.countDepth, IStream.skipRun, IStream.skipPrefix,
      skipRunAux, skipPrefixAux, msvcPrefix, IStream.getline, IStream.sentry, IStream.good]

/-! ## One step of the parser on a line of text -/

theorem stripRun_replicate (c : Char) (d : Nat) (t : List Char)
    (ht : ∀ x, t.head? = some x → x ≠ c) :
    stripRun c (List.replicate d c ++ t) = (d, t) := by
  induction d with
  | zero =>
    cases t with
    | nil => simp [stripRun]
    | cons x r =>
      have := ht x rfl
      simp [stripRun, this]
  | succ d ih =>
    simp only [List.replicate_succ, List.cons_append, stripRun, if_true]
    rw [show (List.replicate d c).append t = List.replicate d c ++ t from rfl, ih]

theorem gccLine_markers (e : Nat × Path) :
    lineMarkers Format.gcc (gccLine e) = (e.1, ' ' :: e.2) := by
  simp only [lineMarkers, gccLine]
  apply stripRun_replicate
  intro x hx
  simp at hx
  subst hx
  decide

theorem gccLine_no_newline (e : Nat × Path) (h : newline ∉ e.2) : newline ∉ gccLine e := by
  simp only [gccLine, List.mem_append, List.mem_cons, not_or]
  refine ⟨?_, by decide, h⟩
  intro hm
  have := List.eq_of_mem_replicate hm
  exact absurd this (by decide)

/-- An include line of the dot grammar as the parser reads it. -/
theorem scan_gccLine (file : Path) (e : Nat × Path) (rest : List Char) (h : newline ∉ e.2)
    (hd : e.1 ≠ 0) :
    scan Format.gcc file ⟨gccLine e ++ newline :: rest, false, false⟩ =
      Scan.line e.1 (normalize e.2) ⟨rest, false, false⟩
        ⟨gccLine e ++ newline :: rest, false, false⟩ := by
  have hs := scan_text_line Format.gcc file (gccLine e) rest (gccLine_no_newline e h)
    (by rw [gccLine_markers]; exact hd)
    (by intro _; rw [gccLine_markers]; simp)
  rw [hs]
  simp [linePayload, gccLine_markers]

theorem parseFuel_ge (ins : IStream) : 16 ≤ parseFuel ins := by
  unfold parseFuel
  have : 4 * 4 ≤ (ins.buf.length + 4) * (ins.buf.length + 4) :=
    Nat.mul_le_mul (by omega) (by omega)
  omega

theorem ReadDepsFile_gcc (content : List Char) (h : content.head? = some '.') :
    ReadDepsFile content = ReadGccDepsFile (IStream.open content) := by
  cases content with
  | nil => simp at h
  | cons c r =>
    simp only [List.head?_cons, Option.some.injEq] at h
    subst h
    simp [ReadDepsFile, IStream.open, IStream.peek, IStream.sentry, IStream.good]

/-- The loop in front of a line of text one level below the current depth: the line is taken
as an include line. -/
theorem step_include (fmt : Format) (fuel parent sibling depth : Nat) (file : Path)
    (st : ParseState) (l rest : List Char) (hins : st.ins = ⟨l ++ newline :: rest, false, false⟩)
    (hl : newline ∉ l) (hd : (lineMarkers fmt l).1 = depth + 1) (hr : Readable fmt l) :
    ReadDepsFileRecursive fmt (fuel + 1) parent sibling depth file st =
      ReadDepsFileRecursive fmt fuel parent
        (addInclude parent sibling (depth + 1) (normalize (linePayload fmt l)) st
          ⟨rest, false, false⟩).1 depth (normalize (linePayload fmt l))
        (addInclude parent sibling (depth + 1) (normalize (linePayload fmt l)) st
          ⟨rest, false, false⟩).2 := by
  rw [ReadDepsFileRecursive_scan, hins, scan_text_line fmt file l rest hl (by omega) hr]
  dsimp only
  rw [if_neg (by omega : ¬ (lineMarkers fmt l).1 ≤ depth), if_pos hd, hd]

/-- The loop in front of a line of text that is not deeper than the current depth: the function
returns and leaves the line to its caller. -/
theorem step_return (fmt : Format) (fuel parent sibling depth : Nat) (file : Path)
    (st : ParseState) (l rest : List Char) (hins : st.ins = ⟨l ++ newline :: rest, false, false⟩)
    (hl : newline ∉ l) (hd0 : (lineMarkers fmt l).1 ≠ 0) (hd : (lineMarkers fmt l).1 ≤ depth)
    (hr : Readable fmt l) :
    ReadDepsFileRecursive fmt (fuel + 1) parent sibling depth file st = some st := by
  rw [ReadDepsFileRecursive_scan, hins, scan_text_line fmt file l rest hl hd0 hr]
  dsimp only
  rw [if_pos hd, ← hins]

/-- The loop in front of a line of text more than one level below the current depth: the
function calls itself with the last new sibling as parent, then goes on. -/
theorem step_descend (fmt : Format) (fuel parent sibling depth : Nat) (file : Path)
    (st : ParseState) (l rest : List Char) (hins : st.ins = ⟨l ++ newline :: rest, false, false⟩)
    (hl : newline ∉ l) (hd : depth + 1 < (lineMarkers fmt l).1) (hr : Readable fmt l) :
    ReadDepsFileRecursive fmt (fuel + 1) parent sibling depth file st =
      (ReadDepsFileRecursive fmt fuel sibling sibling (depth + 1) [] st).bind
        (fun st1 => ReadDepsFileRecursive fmt fuel parent sibling depth file st1) := by
  rw [ReadDepsFileRecursive_scan, hins, scan_text_line fmt file l rest hl (by omega) hr]
  dsimp only
  rw [if_neg (by omega : ¬ (lineMarkers fmt l).1 ≤ depth),
    if_neg (by omega : ¬ (lineMarkers fmt l).1 = depth + 1), ← hins]

/-- The loop in front of a line of text of depth 0: the line is skipped. -/
theorem step_noise (fmt : Format) (fuel parent sibling depth : Nat) (file : Path)
    (st : ParseState) (l rest : List Char) (hins : st.ins = ⟨l ++ newline :: rest, false, false⟩)
    (hl : newline ∉ l) (hd : (lineMarkers fmt l).1 = 0) :
    ReadDepsFileRecursive fmt (fuel + 1) parent sibling depth file st =
      ReadDepsFileRecursive fmt fuel parent sibling depth (lineMarkers fmt l).2
        { st with ins := ⟨rest, false, false⟩, line_number := st.line_number + 1 } := by
  rw [ReadDepsFileRecursive_scan, hins, scan_text_noise fmt file l rest hl hd]

/-- The loop at the end of the text: one more iteration, then the stream has failed. -/
theorem step_end (fmt : Format) (fuel parent sibling depth : Nat) (file : Path)
    (st : ParseState) (hins : st.ins = ⟨[], false, false⟩) :
    ReadDepsFileRecursive fmt (fuel + 2) parent sibling depth file st =
      some { st with ins := ⟨[], true, true⟩, line_number := st.line_number + 1 } := by
  rw [ReadDepsFileRecursive_scan, hins, scan_text_end]
  dsimp only
  rw [ReadDepsFileRecursive_fail _ _ _ _ _ _ _ rfl]

/-! ## Two runs that read the same thing build the same graph -/

theorem SameGraph_addInclude (parent sibling d : Nat) (file : Path) (st1 st2 : ParseState)
    (t1 t2 : IStream) (h : SameGraph st1 st2) :
    (addInclude parent sibling d file st1 t1).1 = (addInclude parent sibling d file st2 t2).1 ∧
    SameGraph (addInclude parent sibling d file st1 t1).2
      (addInclude parent sibling d file st2 t2).2 ∧
    (addInclude parent sibling d file st1 t1).2.ins = t1 ∧
    (addInclude parent sibling d file st2 t2).2.ins = t2 := by
  obtain ⟨h1, h2, h3⟩ := h
  unfold addInclude
  rw [← h2]
  cases st1.include_map.lookup file with
  | none => simp [SameGraph, h1, h2, h3]
  | some v => simp [SameGraph, h1, h2, h3]

/-- Two ways of reading that find the same thing step by step build the same graph. -/
theorem ReadDepsFileRecursive_sim (fmt1 fmt2 : Format) (RF : Path → Path → Prop)
    (RS : IStream → IStream → Prop) (hsim : ScanSim fmt1 fmt2 RF RS) (hrefl : ∀ p, RF p p) :
    ∀ (fuel parent sibling depth : Nat) (f1 f2 : Path) (st1 st2 : ParseState),
      RF f1 f2 → RS st1.ins st2.ins → SameGraph st1 st2 →
      SameOutcome RS (ReadDepsFileRecursive fmt1 fuel parent sibling depth f1 st1)
        (ReadDepsFileRecursive fmt2 fuel parent sibling depth f2 st2) := by
  intro fuel
  induction fuel with
  | zero =>
    intro _ _ _ _ _ _ _ _ _ _
    simp [ReadDepsFileRecursive, SameOutcome]
  | succ fuel ih =>
    intro parent sibling depth f1 f2 st1 st2 hf hs hg
    rw [ReadDepsFileRecursive_scan, ReadDepsFileRecursive_scan]
    have hstep := hsim f1 f2 st1.ins st2.ins hf hs
    cases hs1 : scan fmt1 f1 st1.ins with
    | stop =>
      cases hs2 : scan fmt2 f2 st2.ins with
      | stop => exact ⟨hg, hs⟩
      | noise g2 t2 => rw [hs1, hs2] at hstep; exact hstep.elim
      | line d2 p2 t2 b2 => rw [hs1, hs2] at hstep; exact hstep.elim
    | noise g1 t1 =>
      cases hs2 : scan fmt2 f2 st2.ins with
      | stop => rw [hs1, hs2] at hstep; exact hstep.elim
      | noise g2 t2 =>
        rw [hs1, hs2] at hstep
        exact ih _ _ _ _ _ _ _ hstep.1 hstep.2 hg
      | line d2 p2 t2 b2 => rw [hs1, hs2] at hstep; exact hstep.elim
    | line d1 p1 t1 b1 =>
      cases hs2 : scan fmt2 f2 st2.ins with
      | stop => rw [hs1, hs2] at hstep; exact hstep.elim
      | noise g2 t2 => rw [hs1, hs2] at hstep; exact hstep.elim
      | line d2 p2 t2 b2 =>
        rw [hs1, hs2] at hstep
        obtain ⟨hd, hp, ht, hb⟩ := hstep
        subst hd hp
        dsimp only
        by_cases h1 : d1 ≤ depth
        · rw [if_pos h1, if_pos h1]
          exact ⟨hg, hb⟩
        · rw [if_neg h1, if_neg h1]
          by_cases h2 : d1 = depth + 1
          · rw [if_pos h2, if_pos h2]
            obtain ⟨a1, a2, a3, a4⟩ := SameGraph_addInclude parent sibling d1 p1 st1 st2 t1 t2 hg
            rw [a1]
            exact ih _ _ _ _ _ _ _ (hrefl p1) (by rw [a3, a4]; exact ht) a2
          · rw [if_neg h2, if_neg h2]
            have hc := ih sibling sibling (depth + 1) [] [] { st1 with ins := b1 }
              { st2 with ins := b2 } (hrefl []) hb hg
            cases hc1 : ReadDepsFileRecursive fmt1 fuel sibling sibling (depth + 1) []
                { st1 with ins := b1 } with
            | none =>
              cases hc2 : ReadDepsFileRecursive fmt2 fuel sibling sibling (depth + 1) []
                  { st2 with ins := b2 } with
              | none => simp [SameOutcome]
              | some r2 => rw [hc1, hc2] at hc; exact hc.elim
            | some r1 =>
              cases hc2 : ReadDepsFileRecursive fmt2 fuel sibling sibling (depth + 1) []
                  { st2 with ins := b2 } with
              | none => rw [hc1, hc2] at hc; exact hc.elim
              | some r2 =>
                rw [hc1, hc2] at hc
                simp only [Option.some_bind]
                exact ih _ _ _ _ _ _ _ hf hc.2 hc.1

/-! ## The two grammars on the same include lines -/

/-- Two ways of reading that find the same thing step by step return the same graph from the
outermost call. -/
theorem parseFrom_sim (fmt1 fmt2 : Format) (RF : Path → Path → Prop)
    (RS : IStream → IStream → Prop) (hsim : ScanSim fmt1 fmt2 RF RS) (hrefl : ∀ p, RF p p)
    (s1 s2 : IStream) (hs : RS s1 s2) :
    (parseFrom fmt1 s1).map (fun st => st.deps) = (parseFrom fmt2 s2).map (fun st => st.deps) := by
  obtain ⟨r1, h1⟩ := parseFrom_total fmt1 s1
  obtain ⟨r2, h2⟩ := parseFrom_total fmt2 s2
  rw [h1, h2]
  unfold parseFrom at h1 h2
  have e1 := ReadDepsFileRecursive_fuel_le fmt1 _ (max (parseFuel s1) (parseFuel s2)) _ _ _ _ _ _
    (le_max_left _ _) h1
  have e2 := ReadDepsFileRecursive_fuel_le fmt2 _ (max (parseFuel s1) (parseFuel s2)) _ _ _ _ _ _
    (le_max_right _ _) h2
  have h := ReadDepsFileRecursive_sim fmt1 fmt2 RF RS hsim hrefl
    (max (parseFuel s1) (parseFuel s2)) 0 0 0 [] [] (initialState s1) (initialState s2)
    (hrefl []) hs ⟨rfl, rfl, rfl⟩
  rw [e1, e2] at h
  simp only [Option.map_some', Option.some.injEq]
  exact h.1.1

theorem stripLeading_append (pre q t : List Char) :
    stripLeading (pre ++ q) (pre ++ t) = stripLeading q t := by
  induction pre with
  | nil => rfl
  | cons p ps ih =>
    simp only [List.cons_append, stripLeading, if_true]
    exact ih

theorem msvcLine_markers (e : Nat × Path) (hd : e.1 ≠ 0) (hp : e.2.head? ≠ some ' ') :
    lineMarkers Format.msvc (msvcLine e) = (e.1, e.2) := by
  obtain ⟨d, p⟩ := e
  simp only at hd hp
  obtain ⟨k, rfl⟩ : ∃ k, d = k + 1 := ⟨d - 1, by omega⟩
  simp only [lineMarkers, msvcLine, msvcPrefix]
  rw [stripLeading_append]
  have : stripLeading [Char.ofNat 0] (List.replicate (k + 1) ' ' ++ p) =
      List.replicate (k + 1) ' ' ++ p := by
    simp only [List.replicate_succ, List.cons_append, stripLeading]
    rw [if_neg (by decide)]
    rfl
  rw [this]
  apply stripRun_replicate
  intro x hx h
  exact hp (by rw [hx, h])

theorem msvcLine_no_newline (e : Nat × Path) (h : newline ∉ e.2) : newline ∉ msvcLine e := by
  simp only [msvcLine, List.mem_append, not_or]
  refine ⟨by decide, ?_, h⟩
  intro hm
  have := List.eq_of_mem_replicate hm
  exact absurd this (by decide)

/-- An include line of the prefixed-space grammar as the parser reads it. -/
theorem scan_msvcLine (file : Path) (e : Nat × Path) (rest : List Char) (h : newline ∉ e.2)
    (hd : e.1 ≠ 0) (hp : e.2.head? ≠ some ' ') :
    scan Format.msvc file ⟨msvcLine e ++ newline :: rest, false, false⟩ =
      Scan.line e.1 (normalize e.2) ⟨rest, false, false⟩
        ⟨msvcLine e ++ newline :: rest, false, false⟩ := by
  have hs := scan_text_line Format.msvc file (msvcLine e) rest (msvcLine_no_newline e h)
    (by rw [msvcLine_markers e hd hp]; exact hd)
    (by intro hc; cases hc)
  rw [hs]
  simp [linePayload, msvcLine_markers e hd hp]

theorem scan_failed (fmt : Format) (file : Path) (s : IStream) (h : s.failbit = true) :
    scan fmt file s = Scan.stop := by
  unfold scan
  simp [IStream.ok, h]

/-- The two grammars find the same thing, step by step, in two logs with the same include
lines. -/
theorem SameEntries_sim : ScanSim Format.gcc Format.msvc Eq SameEntries := by
  intro f1 f2 s1 s2 hf hs
  subst hf
  rcases hs with ⟨es, hes, rfl, rfl⟩ | ⟨rfl, hfail⟩
  · cases es with
    | nil =>
      simp only [List.map_nil, renderLines]
      rw [scan_text_end, scan_text_end]
      exact ⟨rfl, Or.inr ⟨rfl, rfl⟩⟩
    | cons e rest =>
      obtain ⟨hd, hn, hp⟩ := hes e (List.mem_cons_self _ _)
      simp only [List.map_cons, renderLines]
      rw [scan_gccLine f1 e _ hn hd, scan_msvcLine f1 e _ hn hd hp]
      refine ⟨rfl, rfl, Or.inl ⟨rest, fun x hx => hes x (List.mem_cons_of_mem _ hx), rfl, rfl⟩,
        Or.inl ⟨e :: rest, hes, ?_, ?_⟩⟩
      · simp only [List.map_cons, renderLines]
      · simp only [List.map_cons, renderLines]
  · rw [scan_failed _ _ _ hfail, scan_failed _ _ _ hfail]
    trivial

theorem ReadDepsFile_msvc (content : List Char) (h : content.head? ≠ some '.') :
    ReadDepsFile content = ReadMsvcDepsFile (IStream.open content).peek.2 := by
  unfold ReadDepsFile
  have : (IStream.open content).peek.1 ≠ some '.' := by
    cases content with
    | nil => simp [IStream.open, IStream.peek, IStream.sentry, IStream.good]
    | cons c r =>
      simpa [IStream.open, IStream.peek, IStream.sentry, IStream.good] using h
  simp only [this, if_false]

/-- The two grammars give the same graph for the same include lines. -/
theorem ReadDepsFile_same_entries (es : List (Nat × Path))
    (hes : ∀ e ∈ es, e.1 ≠ 0 ∧ newline ∉ e.2 ∧ e.2.head? ≠ some ' ') :
    ReadDepsFile (renderLines (es.map gccLine)) =
      ReadDepsFile (renderLines (es.map msvcLine)) := by
  cases es with
  | nil => rfl
  | cons e rest =>
    obtain ⟨hd, hn, hp⟩ := hes e (List.mem_cons_self _ _)
    obtain ⟨k, hk⟩ : ∃ k, e.1 = k + 1 := ⟨e.1 - 1, by omega⟩
    rw [ReadDepsFile_gcc _ (by simp [renderLines, gccLine, hk, List.replicate_succ]),
      ReadDepsFile_msvc _ (by simp [renderLines, msvcLine])]
    have hpk : (IStream.open (renderLines (List.map msvcLine (e :: rest)))).peek.2 =
        IStream.open (renderLines (List.map msvcLine (e :: rest))) := by
      simp [renderLines, msvcLine, IStream.open, IStream.peek, IStream.sentry, IStream.good]
    rw [hpk]
    exact parseFrom_sim Format.gcc Format.msvc Eq SameEntries SameEntries_sim (fun _ => rfl) _ _
      (Or.inl ⟨e :: rest, hes, rfl, rfl⟩)

/-! ## Replacing backslashes in the log -/

theorem normalize_idem (l : List Char) : normalize (normalize l) = normalize l := by
  unfold normalize
  rw [List.map_map]
  apply List.map_congr_left
  intro c _
  simp only [Function.comp]
  by_cases h : c = backslash
  · simp only [h, if_true]; decide
  · simp only [h, if_false]

theorem normalize_replace (l : List Char) : normalize (replaceBackslashes l) = normalize l :=
  normalize_idem l

theorem replace_eq_iff (c x : Char) (h1 : c ≠ backslash) (h2 : c ≠ '/') :
    (if x = backslash then '/' else x) = c ↔ x = c := by
  by_cases h : x = backslash
  · simp only [h, if_true]
    constructor
    · intro e; exact absurd e.symm h2
    · intro e; exact absurd e.symm h1
  · simp only [h, if_false]

theorem skipRunAux_replaced (c : Char) (h1 : c ≠ backslash) (h2 : c ≠ '/') (b : List Char)
    (e f : Bool) :
    skipRunAux c (replaceBackslashes b) e f =
      ((skipRunAux c b e f).1, (skipRunAux c b e f).2.replaced) := by
  cases f with
  | true => simp [skipRunAux, IStream.replaced]
  | false =>
    cases e with
    | true => simp [skipRunAux, IStream.replaced]
    | false =>
      induction b with
      | nil => simp [skipRunAux, IStream.replaced, replaceBackslashes]
      | cons x r ih =>
        simp only [replaceBackslashes, List.map_cons, skipRunAux, replace_eq_iff c x h1 h2]
        by_cases hx : x = c
        · simp only [hx, if_true]
          unfold replaceBackslashes at ih
          rw [ih]
        · simp [hx, IStream.replaced, replaceBackslashes]

theorem skipPrefixAux_replaced (pre : List Char) (hpre : ∀ p ∈ pre, p ≠ backslash ∧ p ≠ '/')
    (b : List Char) (e f : Bool) :
    skipPrefixAux pre (replaceBackslashes b) e f = (skipPrefixAux pre b e f).replaced := by
  cases f with
  | true => simp [skipPrefixAux, IStream.replaced]
  | false =>
    cases e with
    | true => simp [skipPrefixAux, IStream.replaced]
    | false =>
      induction pre generalizing b with
      | nil => cases b <;> simp [skipPrefixAux, IStream.replaced, replaceBackslashes]
      | cons p ps ih =>
        cases b with
        | nil => simp [skipPrefixAux, IStream.replaced, replaceBackslashes]
        | cons x r =>
          have hp := hpre p (List.mem_cons_self _ _)
          simp only [replaceBackslashes, List.map_cons, skipPrefixAux,
            replace_eq_iff p x hp.1 hp.2]
          by_cases hx : x = p
          · simp only [hx, if_true]
            exact ih (fun q hq => hpre q (List.mem_cons_of_mem _ hq)) r
          · simp [hx, IStream.replaced, replaceBackslashes]

theorem countDepth_replaced (fmt : Format) (s : IStream) :
    fmt.countDepth s.replaced = ((fmt.countDepth s).1, (fmt.countDepth s).2.replaced) := by
  cases fmt with
  | gcc =>
    simp only [Format.countDepth, IStream.skipRun, IStream.replaced]
    exact skipRunAux_replaced '.' (by decide) (by decide) _ _ _
  | msvc =>
    simp only [Format.countDepth, IStream.skipRun, IStream.skipPrefix]
    have h := skipPrefixAux_replaced msvcPrefix (by decide) s.buf s.eofbit s.failbit
    have h2 := skipRunAux_replaced ' ' (by decide) (by decide)
      (skipPrefixAux msvcPrefix s.buf s.eofbit s.failbit).buf
      (skipPrefixAux msvcPrefix s.buf s.eofbit s.failbit).eofbit
      (skipPrefixAux msvcPrefix s.buf s.eofbit s.failbit).failbit
    simp only [IStream.replaced] at h h2 ⊢
    rw [h]
    exact h2

theorem tellg_replaced (s : IStream) :
    s.replaced.tellg = (s.tellg.1.map replaceBackslashes, s.tellg.2.replaced) := by
  obtain ⟨b, e, f⟩ := s
  cases e <;> cases f <;> simp [IStream.tellg, IStream.sentry, IStream.good, IStream.replaced]

theorem seekg_replaced (s : IStream) (pos : Option (List Char)) :
    s.replaced.seekg (pos.map replaceBackslashes) = (s.seekg pos).replaced := by
  obtain ⟨b, e, f⟩ := s
  cases f <;> cases pos <;>
    simp [IStream.seekg, IStream.sentry, IStream.good, IStream.replaced]

theorem get_replaced (s : IStream) : s.replaced.get.2 = s.get.2.replaced := by
  obtain ⟨b, e, f⟩ := s
  cases e <;> cases f <;> cases b <;>
    simp [IStream.get, IStream.sentry, IStream.good, IStream.replaced, replaceBackslashes]

theorem skipSeparator_replaced (fmt : Format) (s : IStream) :
    fmt.skipSeparator s.replaced = (fmt.skipSeparator s).replaced := by
  cases fmt with
  | gcc => exact get_replaced s
  | msvc => rfl

theorem splitLine_replaced (b : List Char) :
    splitLine (replaceBackslashes b) =
      (replaceBackslashes (splitLine b).1, (splitLine b).2.map replaceBackslashes) := by
  induction b with
  | nil => simp [splitLine, replaceBackslashes]
  | cons x r ih =>
    have hx : (if x = backslash then '/' else x) = newline ↔ x = newline :=
      replace_eq_iff newline x (by decide) (by decide)
    simp only [replaceBackslashes, List.map_cons, splitLine, hx]
    by_cases hn : x = newline
    · simp only [hn, if_true, Option.map_some']
      rfl
    · simp only [hn, if_false]
      unfold replaceBackslashes at ih
      rw [ih]
      rfl

theorem getline_replaced (s : IStream) (f1 f2 : Path) (hf : normalize f1 = normalize f2) :
    (s.replaced.getline f2).2 = (s.getline f1).2.replaced ∧
    normalize (s.getline f1).1 = normalize (s.replaced.getline f2).1 := by
  obtain ⟨b, e, f⟩ := s
  have hgood : ∀ e f : Bool, e = true ∨ f = true →
      ((IStream.mk b e f).replaced.getline f2).2 = ((IStream.mk b e f).getline f1).2.replaced ∧
      normalize ((IStream.mk b e f).getline f1).1 =
        normalize ((IStream.mk b e f).replaced.getline f2).1 := by
    intro e f hef
    rcases hef with h | h <;> subst h <;> cases e <;> cases f <;>
      simp [IStream.getline, IStream.sentry, IStream.good, IStream.replaced, hf]
  cases e with
  | true => exact hgood _ _ (Or.inl rfl)
  | false =>
    cases f with
    | true => exact hgood _ _ (Or.inr rfl)
    | false =>
      simp only [IStream.getline, IStream.sentry, IStream.good, IStream.replaced, Bool.not_false,
        Bool.and_self, if_true, splitLine_replaced]
      cases h2 : (splitLine b).2 with
      | none =>
        have hs : splitLine b = ((splitLine b).1, none) := by rw [← h2]
        rw [hs]
        simp only [Option.map_none']
        refine ⟨?_, (normalize_replace _).symm⟩
        simp only [IStream.replaced, replaceBackslashes, IStream.mk.injEq, true_and]
        cases (splitLine b).1 <;> simp
      | some r =>
        have hs : splitLine b = ((splitLine b).1, some r) := by rw [← h2]
        rw [hs]
        simp only [Option.map_some']
        exact ⟨trivial, (normalize_replace _).symm⟩

/-! ## Paths are normalized -/

/-- The parser reads the same thing from a log and from the log with every backslash
replaced. -/
theorem replaced_sim (fmt : Format) :
    ScanSim fmt fmt (fun f1 f2 => normalize f1 = normalize f2)
      (fun s1 s2 => s2 = s1.replaced) := by
  intro f1 f2 s1 s2 hf hs
  subst hs
  unfold scan
  have hok : s1.replaced.ok = s1.ok := rfl
  rw [hok, tellg_replaced, countDepth_replaced]
  by_cases h1 : s1.ok = false
  · simp only [h1, if_true]
  · simp only [h1, if_false]
    by_cases h0 : (fmt.countDepth s1.tellg.2).1 = 0
    · simp only [h0, if_true]
      have h := getline_replaced (fmt.countDepth s1.tellg.2).2 f1 f2 hf
      exact ⟨h.2, h.1⟩
    · simp only [h0, if_false]
      rw [skipSeparator_replaced, seekg_replaced]
      have h := getline_replaced (fmt.skipSeparator (fmt.countDepth s1.tellg.2).2) f1 f2 hf
      exact ⟨rfl, h.2, h.1, rfl⟩

/-- Replacing every backslash of a log by a forward slash does not change the graph. -/
theorem ReadDepsFile_replaced (log : List Char) :
    ReadDepsFile (replaceBackslashes log) = ReadDepsFile log := by
  have hsim : ∀ fmt s, (parseFrom fmt s).map (fun st => st.deps) =
      (parseFrom fmt s.replaced).map (fun st => st.deps) := fun fmt s =>
    parseFrom_sim fmt fmt _ _ (replaced_sim fmt) (fun _ => rfl) s s.replaced rfl
  cases log with
  | nil => rfl
  | cons c r =>
    have hp : ∀ (x : Char) (l : List Char),
        (IStream.open (x :: l)).peek = (some x, IStream.open (x :: l)) := by
      intro x l
      simp [IStream.open, IStream.peek, IStream.sentry, IStream.good]
    unfold ReadDepsFile
    simp only [replaceBackslashes, List.map_cons, hp, Option.some.injEq]
    simp only [replace_eq_iff '.' c (by decide) (by decide)]
    by_cases hc : c = '.'
    · simp only [hc, if_true]
      exact (hsim Format.gcc (IStream.open ('.' :: r))).symm
    · simp only [hc, if_false]
      exact (hsim Format.msvc (IStream.open (c :: r))).symm

theorem normalize_no_backslash (l : List Char) : backslash ∉ normalize l := by
  unfold normalize
  intro h
  obtain ⟨c, _, hc⟩ := List.mem_map.1 h
  by_cases hb : c = backslash
  · simp only [hb, if_true] at hc
    exact absurd hc (by decide)
  · simp only [hb, if_false] at hc

theorem NoBackslash_addInclude (parent sibling d : Nat) (file : Path) (st : ParseState)
    (ins : IStream) (h : NoBackslash st.deps) :
    NoBackslash (addInclude parent sibling d (normalize file) st ins).2.deps := by
  unfold addInclude
  cases st.include_map.lookup (normalize file) with
  | some v =>
    intro p hp
    exact h p (by simpa [add_edge] using hp)
  | none =>
    intro p hp
    simp only [add_edge, add_vertex, List.mem_append, List.mem_singleton] at hp
    rcases hp with hp | hp
    · exact h p hp
    · rw [hp]; exact normalize_no_backslash file

/-- Every path the parser stores has gone through `std::replace`. -/
theorem ReadDepsFileRecursive_no_backslash (fmt : Format) :
    ∀ (fuel parent sibling depth : Nat) (file : Path) (st st' : ParseState),
      ReadDepsFileRecursive fmt fuel parent sibling depth file st = some st' →
      NoBackslash st.deps → NoBackslash st'.deps := by
  intro fuel
  induction fuel with
  | zero => intro _ _ _ _ _ _ h; simp [ReadDepsFileRecursive] at h
  | succ fuel ih =>
    intro parent sibling depth file st st' h hinv
    rw [ReadDepsFileRecursive_scan] at h
    cases hs : scan fmt file st.ins with
    | stop =>
      rw [hs] at h
      cases h
      exact hinv
    | noise f1 i1 =>
      rw [hs] at h
      exact ih _ _ _ _ _ _ h hinv
    | line d f1 i1 back =>
      rw [hs] at h
      obtain ⟨b, _, _, _, _, hf1, _⟩ := scan_line_inv fmt file st.ins d f1 i1 back hs
      dsimp only at h
      by_cases h1 : d ≤ depth
      · rw [if_pos h1] at h
        cases h
        exact hinv
      · rw [if_neg h1] at h
        by_cases h2 : d = depth + 1
        · rw [if_pos h2] at h
          refine ih _ _ _ _ _ _ h ?_
          rw [hf1]
          exact NoBackslash_addInclude _ _ _ _ _ _ hinv
        · rw [if_neg h2] at h
          cases hc : ReadDepsFileRecursive fmt fuel sibling sibling (depth + 1) []
              { st with ins := back } with
          | none => rw [hc] at h; simp at h
          | some st1 =>
            rw [hc] at h
            simp only [Option.some_bind] at h
            exact ih _ _ _ _ _ _ h (ih _ _ _ _ _ _ hc hinv)

theorem parseFrom_no_backslash (fmt : Format) (ins : IStream) (g : Graph)
    (h : (parseFrom fmt ins).map (fun st => st.deps) = some g) : NoBackslash g := by
  obtain ⟨st, hst⟩ := parseFrom_total fmt ins
  rw [hst] at h
  simp only [Option.map_some', Option.some.injEq] at h
  subst h
  refine ReadDepsFileRecursive_no_backslash fmt _ _ _ _ _ _ _ hst ?_
  intro p hp
  simp [initialState, add_vertex] at hp
  subst hp
  simp

theorem ReadDepsFile_no_backslash (log : List Char) (g : Graph) (h : ReadDepsFile log = some g) :
    NoBackslash g := by
  unfold ReadDepsFile at h
  dsimp only at h
  split at h
  · exact parseFrom_no_backslash _ _ _ h
  · exact parseFrom_no_backslash _ _ _ h

/-! ## A header included directly and below another header -/

theorem gccLine_readable (e : Nat × Path) : Readable Format.gcc (gccLine e) := by
  intro _
  rw [gccLine_markers]
  simp

theorem gccLine_payload (e : Nat × Path) : linePayload Format.gcc (gccLine e) = e.2 := by
  simp [linePayload, gccLine_markers]

theorem gcc_include (fuel parent sibling depth : Nat) (file : Path) (deps : Graph)
    (imap : List (Path × Nat)) (ln : Nat) (seen : List (Nat × Path)) (e : Nat × Path)
    (rest : List Char) (hn : newline ∉ e.2) (hd : e.1 = depth + 1) :
    ReadDepsFileRecursive Format.gcc (fuel + 1) parent sibling depth file
        ⟨deps, imap, ln, ⟨gccLine e ++ newline :: rest, false, false⟩, seen⟩ =
      ReadDepsFileRecursive Format.gcc fuel parent
        (addInclude parent sibling (depth + 1) (normalize e.2)
          ⟨deps, imap, ln, ⟨gccLine e ++ newline :: rest, false, false⟩, seen⟩
          ⟨rest, false, false⟩).1 depth (normalize e.2)
        (addInclude parent sibling (depth + 1) (normalize e.2)
          ⟨deps, imap, ln, ⟨gccLine e ++ newline :: rest, false, false⟩, seen⟩
          ⟨rest, false, false⟩).2 := by
  rw [step_include Format.gcc fuel parent sibling depth file _ (gccLine e) rest rfl
    (gccLine_no_newline e hn) (by rw [gccLine_markers]; exact hd) (gccLine_readable e),
    gccLine_payload]

theorem gcc_return (fuel parent sibling depth : Nat) (file : Path) (deps : Graph)
    (imap : List (Path × Nat)) (ln : Nat) (seen : List (Nat × Path)) (e : Nat × Path)
    (rest : List Char) (hn : newline ∉ e.2) (hd0 : e.1 ≠ 0) (hd : e.1 ≤ depth) :
    ReadDepsFileRecursive Format.gcc (fuel + 1) parent sibling depth file
        ⟨deps, imap, ln, ⟨gccLine e ++ newline :: rest, false, false⟩, seen⟩ =
      some ⟨deps, imap, ln, ⟨gccLine e ++ newline :: rest, false, false⟩, seen⟩ :=
  step_return Format.gcc fuel parent sibling depth file _ (gccLine e) rest rfl
    (gccLine_no_newline e hn) (by rw [gccLine_markers]; exact hd0)
    (by rw [gccLine_markers]; exact hd) (gccLine_readable e)

theorem gcc_descend (fuel parent sibling depth : Nat) (file : Path) (deps : Graph)
    (imap : List (Path × Nat)) (ln : Nat) (seen : List (Nat × Path)) (e : Nat × Path)
    (rest : List Char) (hn : newline ∉ e.2) (hd : depth + 1 < e.1) :
    ReadDepsFileRecursive Format.gcc (fuel + 1) parent sibling depth file
        ⟨deps, imap, ln, ⟨gccLine e ++ newline :: rest, false, false⟩, seen⟩ =
      (ReadDepsFileRecursive Format.gcc fuel sibling sibling (depth + 1) []
        ⟨deps, imap, ln, ⟨gccLine e ++ newline :: rest, false, false⟩, seen⟩).bind
        (fun st1 => ReadDepsFileRecursive Format.gcc fuel parent sibling depth file st1) :=
  step_descend Format.gcc fuel parent sibling depth file _ (gccLine e) rest rfl
    (gccLine_no_newline e hn) (by rw [gccLine_markers]; exact hd) (gccLine_readable e)

theorem gcc_end (fuel parent sibling depth : Nat) (file : Path) (deps : Graph)
    (imap : List (Path × Nat)) (ln : Nat) (seen : List (Nat × Path)) :
    ReadDepsFileRecursive Format.gcc (fuel + 2) parent sibling depth file
        ⟨deps, imap, ln, ⟨[], false, false⟩, seen⟩ =
      some ⟨deps, imap, ln + 1, ⟨[], true, true⟩, seen⟩ :=
  step_end Format.gcc fuel parent sibling depth file _ rfl

theorem ReadDepsFile_of_fuel (fuel : Nat) (hfuel : fuel ≤ 16) (e : Nat × Path)
    (es : List (Nat × Path)) (hd : e.1 ≠ 0) (st : ParseState)
    (h : ReadDepsFileRecursive Format.gcc fuel 0 0 0 []
      (initialState (IStream.open (renderLines ((e :: es).map gccLine)))) = some st) :
    ReadDepsFile (renderLines ((e :: es).map gccLine)) = some st.deps := by
  obtain ⟨k, hk⟩ : ∃ k, e.1 = k + 1 := ⟨e.1 - 1, by omega⟩
  rw [ReadDepsFile_gcc _ (by simp [renderLines, gccLine, hk, List.replicate_succ])]
  unfold ReadGccDepsFile parseFrom
  rw [ReadDepsFileRecursive_fuel_le Format.gcc fuel _ 0 0 0 [] _ st
    (le_trans hfuel (parseFuel_ge _)) h]
  rfl

/-- The log `m`, its child `f`, then `f` again at depth 1. -/
theorem parse_nested_then_direct (pm pf : Path) (hm : newline ∉ pm) (hf : newline ∉ pf)
    (hne : normalize pm ≠ normalize pf) :
    ReadDepsFile (renderLines ([(1, pm), (2, pf), (1, pf)].map gccLine)) =
      some ⟨[[], normalize pm, normalize pf], [(0, 1), (1, 2), (0, 2)]⟩ := by
  have hl1 : ([] : List (Path × Nat)).lookup (normalize pm) = none := rfl
  have hb : (normalize pf == normalize pm) = false := by simpa using Ne.symm hne
  have hl2 : [(normalize pm, 1)].lookup (normalize pf) = none := by
    simp [List.lookup, hb]
  have hl3 : ([(normalize pm, 1)] ++ [(normalize pf, 2)]).lookup (normalize pf) = some 2 := by
    simp [List.lookup, hb]
  refine ReadDepsFile_of_fuel 5 (by omega) (1, pm) [(2, pf), (1, pf)] Nat.one_ne_zero
    ⟨⟨[[], normalize pm, normalize pf], [(0, 1), (1, 2), (0, 2)]⟩,
      [(normalize pm, 1), (normalize pf, 2)], 4, ⟨[], true, true⟩,
      [(1, normalize pm), (2, normalize pf), (1, normalize pf)]⟩ ?_
  simp only [List.map_cons, List.map_nil, renderLines, initialState, IStream.open, add_vertex]
  rw [gcc_include 4 0 0 0 [] _ _ _ _ (1, pm) _ hm rfl, addInclude_new _ _ _ _ _ _ hl1]
  dsimp only [List.length_nil, List.length_cons, List.nil_append, Nat.zero_add]
  rw [gcc_descend 3 0 _ 0 _ _ _ _ _ (2, pf) _ hf (by simp)]
  rw [gcc_include 2 _ _ 1 [] _ _ _ _ (2, pf) _ hf rfl, addInclude_new _ _ _ _ _ _ hl2]
  dsimp only
  rw [gcc_return 1 _ _ 1 _ _ _ _ _ (1, pf) _ hf Nat.one_ne_zero (le_refl 1)]
  simp only [Option.some_bind]
  rw [gcc_include 2 _ _ 0 _ _ _ _ _ (1, pf) _ hf rfl, addInclude_old _ _ _ _ _ _ 2 hl3]
  dsimp only
  rw [gcc_end 0]
  rfl

/-- The log `f` at depth 1, then `m` and its child `f`. -/
theorem parse_direct_then_nested (pm pf : Path) (hm : newline ∉ pm) (hf : newline ∉ pf)
    (hne : normalize pm ≠ normalize pf) :
    ReadDepsFile (renderLines ([(1, pf), (1, pm), (2, pf)].map gccLine)) =
      some ⟨[[], normalize pf, normalize pm], [(0, 1), (0, 2), (2, 1)]⟩ := by
  have hl1 : ([] : List (Path × Nat)).lookup (normalize pf) = none := rfl
  have hb : (normalize pm == normalize pf) = false := by simpa using hne
  have hl2 : [(normalize pf, 1)].lookup (normalize pm) = none := by
    simp [List.lookup, hb]
  have hl3 : ([(normalize pf, 1)] ++ [(normalize pm, 2)]).lookup (normalize pf) = some 1 := by
    simp [List.lookup]
  refine ReadDepsFile_of_fuel 6 (by omega) (1, pf) [(1, pm), (2, pf)] Nat.one_ne_zero
    ⟨⟨[[], normalize pf, normalize pm], [(0, 1), (0, 2), (2, 1)]⟩,
      [(normalize pf, 1), (normalize pm, 2)], 4, ⟨[], true, true⟩,
      [(1, normalize pf), (1, normalize pm), (2, normalize pf)]⟩ ?_
  simp only [List.map_cons, List.map_nil, renderLines, initialState, IStream.open, add_vertex]
  rw [gcc_include 5 0 0 0 [] _ _ _ _ (1, pf) _ hf rfl, addInclude_new _ _ _ _ _ _ hl1]
  dsimp only [List.length_nil, List.length_cons, List.nil_append, Nat.zero_add]
  rw [gcc_include 4 0 _ 0 _ _ _ _ _ (1, pm) _ hm rfl, addInclude_new _ _ _ _ _ _ hl2]
  dsimp only [List.length_nil, List.length_cons, List.nil_append, Nat.zero_add]
  rw [gcc_descend 3 0 _ 0 _ _ _ _ _ (2, pf) _ hf (by simp)]
  rw [gcc_include 2 _ _ 1 [] _ _ _ _ (2, pf) _ hf rfl, addInclude_old _ _ _ _ _ _ 1 hl3]
  dsimp only
  rw [gcc_end 0]
  simp only [Option.some_bind]
  rw [ReadDepsFileRecursive_fail _ _ _ _ _ _ _ rfl]
  rfl

/-- The filter on the graph of `m`, its child `f`, then `f`. -/
theorem filter_nested_then_direct (regex : List Regex) (m f : Path) (hne : m ≠ f)
    (hm : ∃ test ∈ regex, test.regex_match m = true) :
    (ComputeIncludeFiles regex ⟨[[], m, f], [(0, 1), (1, 2), (0, 2)]⟩).count f ≤ 1 := by
  have ham : regex.any (fun test => test.regex_match m) = true := by
    simpa [List.any_eq_true] using hm
  cases haf : regex.any (fun test => test.regex_match f) <;>
    simp [ComputeIncludeFiles, depth_first_search, depth_first_visit, num_vertices, out_edges,
      examine_edge, setFlag, vertexPath, List.range, List.range.loop, ham, haf, hne,
      List.count_cons]

/-- The filter on the graph of `f`, then `m` and its child `f`. -/
theorem filter_direct_then_nested (regex : List Regex) (m f : Path) (hne : m ≠ f)
    (hm : ∃ test ∈ regex, test.regex_match m = true) :
    (ComputeIncludeFiles regex ⟨[[], f, m], [(0, 1), (0, 2), (2, 1)]⟩).count f ≤ 1 := by
  have ham : regex.any (fun test => test.regex_match m) = true := by
    simpa [List.any_eq_true] using hm
  cases haf : regex.any (fun test => test.regex_match f) <;>
    simp [ComputeIncludeFiles, depth_first_search, depth_first_visit, num_vertices, out_edges,
      examine_edge, setFlag, vertexPath, List.range, List.range.loop, ham, haf, hne,
      List.count_cons]

/-! ## Deleting the lines of depth 0 -/

theorem TextLines_tail (fmt : Format) (l : List Char) (ls : List (List Char))
    (h : TextLines fmt (l :: ls)) : TextLines fmt ls :=
  fun x hx => h x (List.mem_cons_of_mem _ hx)

theorem dropNoise_noise (fmt : Format) (l : List Char) (ls : List (List Char))
    (h : (lineMarkers fmt l).1 = 0) : dropNoise fmt (l :: ls) = dropNoise fmt ls := by
  simp [dropNoise, h]

theorem dropNoise_line (fmt : Format) (l : List Char) (ls : List (List Char))
    (h : (lineMarkers fmt l).1 ≠ 0) : dropNoise fmt (l :: ls) = l :: dropNoise fmt ls := by
  simp [dropNoise, h]

/-- A run on a log of lines is matched by a run on the log without its lines of depth 0. -/
theorem ReadDepsFileRecursive_dropNoise (fmt : Format) :
    ∀ (fuel parent sibling depth : Nat) (f1 f2 : Path) (st1 st2 r1 : ParseState),
      NoiseRel fmt st1.ins st2.ins → SameGraph st1 st2 →
      ReadDepsFileRecursive fmt fuel parent sibling depth f1 st1 = some r1 →
      ∃ fuel2 r2, ReadDepsFileRecursive fmt fuel2 parent sibling depth f2 st2 = some r2 ∧
        SameGraph r1 r2 ∧ NoiseRel fmt r1.ins r2.ins := by
  intro fuel
  induction fuel with
  | zero => intro _ _ _ _ _ _ _ _ _ _ h; simp [ReadDepsFileRecursive] at h
  | succ fuel ih =>
    intro parent sibling depth f1 f2 st1 st2 r1 hrel hg hrun
    rcases hrel with ⟨ls, hls, h1, h2⟩ | ⟨hf1, hf2⟩
    · cases ls with
      | nil =>
        simp only [renderLines] at h1
        simp only [dropNoise, List.filter_nil, renderLines] at h2
        cases fuel with
        | zero =>
          rw [ReadDepsFileRecursive_scan, h1, scan_text_end] at hrun
          simp [ReadDepsFileRecursive] at hrun
        | succ fuel =>
          rw [step_end fmt fuel _ _ _ _ _ h1] at hrun
          cases hrun
          exact ⟨2, _, step_end fmt 0 _ _ _ _ _ h2, hg, Or.inr ⟨rfl, rfl⟩⟩
      | cons l rest =>
        obtain ⟨hn, hr⟩ := hls l (List.mem_cons_self _ _)
        have hrest := TextLines_tail fmt l rest hls
        simp only [renderLines] at h1
        by_cases hd0 : (lineMarkers fmt l).1 = 0
        · rw [dropNoise_noise fmt l rest hd0] at h2
          rw [step_noise fmt fuel _ _ _ _ _ l _ h1 hn hd0] at hrun
          have := ih parent sibling depth (lineMarkers fmt l).2 f2
            { st1 with ins := ⟨renderLines rest, false, false⟩,
                       line_number := st1.line_number + 1 } st2 r1
            (Or.inl ⟨rest, hrest, rfl, h2⟩) hg hrun
          exact this
        · rw [dropNoise_line fmt l rest hd0] at h2
          simp only [renderLines] at h2
          by_cases hle : (lineMarkers fmt l).1 ≤ depth
          · rw [step_return fmt fuel _ _ _ _ _ l _ h1 hn hd0 hle (hr hd0)] at hrun
            cases hrun
            refine ⟨1, st2, step_return fmt 0 _ _ _ _ _ l _ h2 hn hd0 hle (hr hd0), hg,
              Or.inl ⟨l :: rest, hls, ?_, ?_⟩⟩
            · rw [h1]; rfl
            · rw [h2, dropNoise_line fmt l rest hd0]; rfl
          · by_cases heq : (lineMarkers fmt l).1 = depth + 1
            · rw [step_include fmt fuel _ _ _ _ _ l _ h1 hn heq (hr hd0)] at hrun
              obtain ⟨a1, a2, a3, a4⟩ := SameGraph_addInclude parent sibling (depth + 1)
                (normalize (linePayload fmt l)) st1 st2 ⟨renderLines rest, false, false⟩
                ⟨renderLines (dropNoise fmt rest), false, false⟩ hg
              obtain ⟨fuel2, r2, hr2, hg2, hrel2⟩ := ih _ _ _ _
                (normalize (linePayload fmt l)) _ _ r1
                (Or.inl ⟨rest, hrest, a3, a4⟩) a2 hrun
              refine ⟨fuel2 + 1, r2, ?_, hg2, hrel2⟩
              rw [step_include fmt fuel2 _ _ _ _ _ l _ h2 hn heq (hr hd0), ← a1]
              exact hr2
            · have hlt : depth + 1 < (lineMarkers fmt l).1 := by omega
              rw [step_descend fmt fuel _ _ _ _ _ l _ h1 hn hlt (hr hd0)] at hrun
              cases hc : ReadDepsFileRecursive fmt fuel sibling sibling (depth + 1) [] st1 with
              | none => rw [hc] at hrun; simp at hrun
              | some r1a =>
                rw [hc] at hrun
                simp only [Option.some_bind] at hrun
                have hrel0 : NoiseRel fmt st1.ins st2.ins := by
                  refine Or.inl ⟨l :: rest, hls, ?_, ?_⟩
                  · rw [h1]; rfl
                  · rw [h2, dropNoise_line fmt l rest hd0]; rfl
                obtain ⟨fa, r2a, hra, hga, hrela⟩ := ih _ _ _ [] [] _ _ r1a hrel0 hg hc
                obtain ⟨fb, r2, hrb, hgb, hrelb⟩ := ih _ _ _ f1 f2 _ _ r1 hrela hga hrun
                refine ⟨max fa fb + 1, r2, ?_, hgb, hrelb⟩
                rw [step_descend fmt _ _ _ _ _ _ l _ h2 hn hlt (hr hd0),
                  ReadDepsFileRecursive_fuel_le fmt fa (max fa fb) _ _ _ _ _ _
                    (le_max_left _ _) hra]
                simp only [Option.some_bind]
                exact ReadDepsFileRecursive_fuel_le fmt fb (max fa fb) _ _ _ _ _ _
                  (le_max_right _ _) hrb
    · have hok : st1.ins.failbit = true := hf1
      rw [ReadDepsFileRecursive_fail _ _ _ _ _ _ _ hf1] at hrun
      cases hrun
      exact ⟨1, st2, ReadDepsFileRecursive_fail _ _ _ _ _ _ _ hf2, hg, Or.inr ⟨hf1, hf2⟩⟩

/-- Deleting the lines of depth 0 from a log of lines does not change the graph. -/
theorem parseFrom_dropNoise (fmt : Format) (ls : List (List Char)) (h : TextLines fmt ls) :
    (parseFrom fmt (IStream.open (renderLines ls))).map (fun st => st.deps) =
      (parseFrom fmt (IStream.open (renderLines (dropNoise fmt ls)))).map
        (fun st => st.deps) := by
  obtain ⟨r1, h1⟩ := parseFrom_total fmt (IStream.open (renderLines ls))
  obtain ⟨r2, h2⟩ := parseFrom_total fmt (IStream.open (renderLines (dropNoise fmt ls)))
  rw [h1, h2]
  unfold parseFrom at h1 h2
  obtain ⟨fuel2, r2', hr2, hg, _⟩ := ReadDepsFileRecursive_dropNoise fmt _ 0 0 0 [] []
    (initialState (IStream.open (renderLines ls)))
    (initialState (IStream.open (renderLines (dropNoise fmt ls)))) r1
    (Or.inl ⟨ls, h, rfl, rfl⟩) ⟨rfl, rfl, rfl⟩ h1
  have e1 := ReadDepsFileRecursive_fuel_le fmt _ (max fuel2 (parseFuel
    (IStream.open (renderLines (dropNoise fmt ls))))) _ _ _ _ _ _ (le_max_left _ _) hr2
  have e2 := ReadDepsFileRecursive_fuel_le fmt _ (max fuel2 (parseFuel
    (IStream.open (renderLines (dropNoise fmt ls))))) _ _ _ _ _ _ (le_max_right _ _) h2
  rw [e1] at e2
  simp only [Option.some.injEq] at e2
  subst e2
  simp only [Option.map_some', Option.some.injEq]
  exact hg.1

/-! ## The root vertex and the edges into the other vertices -/

theorem parseFrom_root (fmt : Format) (ins : IStream) (st : ParseState)
    (h : parseFrom fmt ins = some st) : vertexPath st.deps 0 = [] := by
  have key : st.deps.paths.head? = some [] := by
    refine ReadDepsFileRecursive_preserves fmt (fun s => s.deps.paths.head? = some []) ?_ ?_
      _ _ _ _ _ _ _ h (by simp [initialState, add_vertex])
    · intro s _ _ hs; exact hs
    · intro parent sibling d file s i hs
      unfold addInclude
      cases s.include_map.lookup file with
      | some v => simpa [add_edge] using hs
      | none =>
        simp only [add_edge, add_vertex]
        cases hp : s.deps.paths with
        | nil => rw [hp] at hs; simp at hs
        | cons a r => rw [hp] at hs; simpa using hs
  unfold vertexPath
  cases hp : st.deps.paths with
  | nil => rfl
  | cons a r =>
    rw [hp] at key
    simp only [List.head?_cons, Option.some.injEq] at key
    simp [key]

theorem parseFrom_root_no_in (fmt : Format) (ins : IStream) :
    ∃ g, (parseFrom fmt ins).map (fun st => st.deps) = some g ∧ vertexPath g 0 = [] ∧
      ∀ e ∈ g.edges, e.2 ≠ 0 := by
  obtain ⟨st, h⟩ := parseFrom_total fmt ins
  obtain ⟨g, hg, hok⟩ := parseFrom_ok fmt ins
  rw [h] at hg
  simp only [Option.map_some', Option.some.injEq] at hg
  subst hg
  exact ⟨st.deps, by rw [h]; rfl, parseFrom_root fmt ins st h, fun e he => (hok.2.1 e he).2.2⟩

/-- In a graph that is in order every vertex other than the root has an incoming edge, and every
edge starts at a vertex. -/
theorem GraphOk_parents (g : Graph) (h : GraphOk g) :
    (∀ e ∈ g.edges, e.1 < num_vertices g) ∧
    ∀ v, v < num_vertices g → v ≠ 0 → ∃ e ∈ g.edges, e.2 = v := by
  refine ⟨fun e he => (h.2.1 e he).1, ?_⟩
  intro v hv h0
  have hr := h.2.2 v hv
  cases hr with
  | refl => exact absurd rfl h0
  | tail _ hlast => exact ⟨_, hlast, rfl⟩

/-- A vertex other than the root that has an incoming edge and whose path matches a pattern has
its path in the output, or comes below a vertex whose path is in the output. -/
theorem ComputeIncludeFiles_covers (regex : List Regex) (g : Graph)
    (hsrc : ∀ e ∈ g.edges, e.1 < num_vertices g) (v : Nat)
    (hin : ∃ e ∈ g.edges, e.2 = v) (hm : matchesAny regex g v = true) :
    vertexPath g v ∈ ComputeIncludeFiles regex g ∨
    ∃ w, w < num_vertices g ∧ vertexPath g w ∈ ComputeIncludeFiles regex g ∧
      ProperAncestor g w v := by
  obtain ⟨e, he, hev⟩ := hin
  obtain ⟨hcov, hall⟩ := depth_first_search_covered regex g
  have hinc := hall e he (hsrc e he) (by rw [hev]; exact hm)
  rw [hev] at hinc
  obtain ⟨w, hw, hreach⟩ := hcov v hinc
  have hk : ComputeIncludeFiles regex g =
      (depth_first_search regex g initialFilterState).keepers_ := rfl
  rw [hk]
  rcases Relation.reflTransGen_iff_eq_or_transGen.1 hreach with heq | htr
  · left; rw [heq]; exact hw
  · right
    refine ⟨w, ?_, hw, htr⟩
    obtain ⟨x, hx, _⟩ := Relation.TransGen.head'_iff.1 htr
    exact hsrc (w, x) hx

/-- The chain root, `h1`, `h2` is a graph in order. -/
theorem chainGraph_ok : GraphOk chainGraph :=
  ⟨chainGraph_isTree.hasRoot,
    fun e he => ⟨(chainGraph_isTree.inRange e he).1, (chainGraph_isTree.inRange e he).2,
      fun h0 => chainGraph_isTree.rootNoIn e he h0⟩,
    chainGraph_isTree.reach⟩

/-! ## The include lines of a log of lines -/

theorem textEntries_append (fmt : Format) (a b : List (List Char)) :
    textEntries fmt (a ++ b) = textEntries fmt a ++ textEntries fmt b := by
  simp [textEntries, dropNoise]

theorem textEntries_noise (fmt : Format) (l : List Char) (ls : List (List Char))
    (h : (lineMarkers fmt l).1 = 0) : textEntries fmt (l :: ls) = textEntries fmt ls := by
  simp [textEntries, dropNoise, h]

theorem textEntries_line (fmt : Format) (l : List Char) (ls : List (List Char))
    (h : (lineMarkers fmt l).1 ≠ 0) :
    textEntries fmt (l :: ls) =
      ((lineMarkers fmt l).1, normalize (linePayload fmt l)) :: textEntries fmt ls := by
  simp [textEntries, dropNoise, h]

/-- On a log of lines a frame records the include lines among the lines it consumes, as they
stand in the text; it returns in front of an include line that is not deeper than its `depth`,
or at the end of the log with a failed stream. -/
theorem ReadDepsFileRecursive_text (fmt : Format) :
    ∀ (fuel parent sibling depth : Nat) (file : Path) (st r : ParseState)
      (ls : List (List Char)),
      TextLines fmt ls → st.ins = ⟨renderLines ls, false, false⟩ →
      ReadDepsFileRecursive fmt fuel parent sibling depth file st = some r →
      ∃ done rest, ls = done ++ rest ∧ r.seen = st.seen ++ textEntries fmt done ∧
        ((r.ins = ⟨renderLines rest, false, false⟩ ∧
            ∃ l rest1, rest = l :: rest1 ∧ (lineMarkers fmt l).1 ≠ 0 ∧
              (lineMarkers fmt l).1 ≤ depth) ∨
          (rest = [] ∧ r.ins.failbit = true)) := by
  intro fuel
  induction fuel with
  | zero => intro _ _ _ _ _ _ _ _ _ h; simp [ReadDepsFileRecursive] at h
  | succ fuel ih =>
    intro parent sibling depth file st r ls hls hins hrun
    cases ls with
    | nil =>
      simp only [renderLines] at hins
      cases fuel with
      | zero =>
        rw [ReadDepsFileRecursive_scan, hins, scan_text_end] at hrun
        simp [ReadDepsFileRecursive] at hrun
      | succ fuel =>
        rw [step_end fmt fuel _ _ _ _ _ hins] at hrun
        cases hrun
        exact ⟨[], [], rfl, by simp [textEntries, dropNoise], Or.inr ⟨rfl, rfl⟩⟩
    | cons l rest =>
      obtain ⟨hn, hr⟩ := hls l (List.mem_cons_self _ _)
      have hrest := TextLines_tail fmt l rest hls
      simp only [renderLines] at hins
      by_cases hd0 : (lineMarkers fmt l).1 = 0
      · rw [step_noise fmt fuel _ _ _ _ _ l _ hins hn hd0] at hrun
        obtain ⟨done, rest2, e1, e2, e3⟩ := ih parent sibling depth (lineMarkers fmt l).2
          { st with ins := ⟨renderLines rest, false, false⟩,
                     line_number := st.line_number + 1 } r rest hrest rfl hrun
        refine ⟨l :: done, rest2, by rw [e1]; rfl, ?_, e3⟩
        rw [e2, textEntries_noise fmt l done hd0]
      · by_cases hle : (lineMarkers fmt l).1 ≤ depth
        · rw [step_return fmt fuel _ _ _ _ _ l _ hins hn hd0 hle (hr hd0)] at hrun
          cases hrun
          refine ⟨[], l :: rest, rfl, by simp [textEntries, dropNoise], Or.inl ⟨?_, l, rest, rfl,
            hd0, hle⟩⟩
          rw [hins]; rfl
        · by_cases heq : (lineMarkers fmt l).1 = depth + 1
          · rw [step_include fmt fuel _ _ _ _ _ l _ hins hn heq (hr hd0)] at hrun
            obtain ⟨done, rest2, e1, e2, e3⟩ := ih _ _ _ _ _ r rest hrest
              (addInclude_ins _ _ _ _ _ _) hrun
            refine ⟨l :: done, rest2, by rw [e1]; rfl, ?_, e3⟩
            rw [e2, addInclude_seen, textEntries_line fmt l done hd0, heq]
            simp
          · have hlt : depth + 1 < (lineMarkers fmt l).1 := by omega
            rw [step_descend fmt fuel _ _ _ _ _ l _ hins hn hlt (hr hd0)] at hrun
            cases hc : ReadDepsFileRecursive fmt fuel sibling sibling (depth + 1) [] st with
            | none => rw [hc] at hrun; simp at hrun
            | some r1 =>
              rw [hc] at hrun
              simp only [Option.some_bind] at hrun
              have hins0 : st.ins = ⟨renderLines (l :: rest), false, false⟩ := by
                rw [hins]; rfl
              obtain ⟨d1, rest1, a1, a2, a3⟩ := ih _ _ _ _ _ r1 (l :: rest) hls hins0 hc
              rcases a3 with ⟨b1, _⟩ | ⟨b1, b2⟩
              · have hrest1 : TextLines fmt rest1 := by
                  intro x hx
                  exact hls x (by rw [a1]; exact List.mem_append_right _ hx)
                obtain ⟨d2, rest2, c1, c2, c3⟩ := ih _ _ _ _ _ r rest1 hrest1 b1 hrun
                refine ⟨d1 ++ d2, rest2, by rw [a1, c1, List.append_assoc], ?_, c3⟩
                rw [c2, a2, textEntries_append, List.append_assoc]
              · cases fuel with
                | zero => simp [ReadDepsFileRecursive] at hrun
                | succ fuel =>
                  rw [ReadDepsFileRecursive_fail _ _ _ _ _ _ _ b2] at hrun
                  cases hrun
                  exact ⟨d1, rest1, a1, a2, Or.inr ⟨b1, b2⟩⟩

/-- The include lines the parser takes from a log of lines are the lines of depth at least 1 as
they stand in the text: the number of markers, and what follows them (one character dropped in
the dot grammar) with the backslashes replaced. -/
theorem includeLines_text (fmt : Format) (ls : List (List Char)) (h : TextLines fmt ls) :
    includeLines fmt (IStream.open (renderLines ls)) = textEntries fmt ls := by
  obtain ⟨st, hst⟩ := parseFrom_total fmt (IStream.open (renderLines ls))
  have hl : includeLines fmt (IStream.open (renderLines ls)) = st.seen := by
    simp [includeLines, hst]
  rw [hl]
  obtain ⟨done, rest, e1, e2, e3⟩ := ReadDepsFileRecursive_text fmt _ _ _ _ _ _ st ls h rfl hst
  rcases e3 with ⟨_, l, rest1, _, h0, hle⟩ | ⟨hrest, _⟩
  · omega
  · rw [hrest, List.append_nil] at e1
    rw [e2, e1]
    simp [initialState]

/-! ## The two grammars when the last line has no newline -/

theorem skipRunAux_replicate (c : Char) (d : Nat) (x : Char) (t : List Char) (hx : x ≠ c) :
    skipRunAux c (List.replicate d c ++ x :: t) false false = (d, ⟨x :: t, false, false⟩) := by
  induction d with
  | zero => simp [skipRunAux, hx]
  | succ d ih =>
    simp only [List.replicate_succ, List.cons_append, skipRunAux, if_true]
    rw [show (List.replicate d c).append (x :: t) = List.replicate d c ++ x :: t from rfl, ih]

theorem skipPrefixAux_append (pre q : List Char) (x : Char) (t : List Char) :
    skipPrefixAux (pre ++ q) (pre ++ x :: t) false false = skipPrefixAux q (x :: t) false false := by
  induction pre with
  | nil => rfl
  | cons p ps ih =>
    simp only [List.cons_append, skipPrefixAux, if_true]
    exact ih

theorem splitLine_no_newline (l : List Char) (h : newline ∉ l) : splitLine l = (l, none) := by
  induction l with
  | nil => rfl
  | cons x r ih =>
    have hx : x ≠ newline := fun e => h (by rw [e]; exact List.mem_cons_self _ _)
    have hr : newline ∉ r := fun hr => h (List.mem_cons_of_mem _ hr)
    simp [splitLine, hx, ih hr]

theorem getline_last (p file : List Char) (h : newline ∉ p) (hp : p ≠ []) :
    (IStream.mk p false false).getline file = (p, ⟨[], true, false⟩) := by
  cases p with
  | nil => exact absurd rfl hp
  | cons x t =>
    simp [IStream.getline, IStream.sentry, IStream.good, splitLine_no_newline _ h]

/-- The last include line of a dot-grammar log, without its newline. -/
theorem scan_gccLine_last (file : Path) (e : Nat × Path) (h : newline ∉ e.2) (hd : e.1 ≠ 0)
    (hp : e.2 ≠ []) :
    scan Format.gcc file ⟨gccLine e, false, false⟩ =
      Scan.line e.1 (normalize e.2) ⟨[], true, false⟩ ⟨gccLine e, false, false⟩ := by
  unfold scan
  simp only [IStream.ok, Bool.not_false, Bool.true_eq_false, if_false, tellg_good,
    Format.countDepth, IStream.skipRun, gccLine]
  rw [skipRunAux_replicate '.' e.1 ' ' e.2 (by decide)]
  simp only [hd, if_false, Format.skipSeparator]
  rw [seekg_some _ _ rfl]
  have hg : (IStream.mk (' ' :: e.2) false false).get.2 = ⟨e.2, false, false⟩ := by
    simp [IStream.get, IStream.sentry, IStream.good]
  rw [hg, getline_last e.2 file h hp]

/-- The last include line of a prefixed-space log, without its newline. -/
theorem scan_msvcLine_last (file : Path) (e : Nat × Path) (h : newline ∉ e.2) (hd : e.1 ≠ 0)
    (hs : e.2.head? ≠ some ' ') (hp : e.2 ≠ []) :
    scan Format.msvc file ⟨msvcLine e, false, false⟩ =
      Scan.line e.1 (normalize e.2) ⟨[], true, false⟩ ⟨msvcLine e, false, false⟩ := by
  obtain ⟨d, p⟩ := e
  simp only at h hd hs hp
  obtain ⟨k, rfl⟩ : ∃ k, d = k + 1 := ⟨d - 1, by omega⟩
  obtain ⟨x, t, rfl⟩ : ∃ x t, p = x :: t := by
    cases p with
    | nil => exact absurd rfl hp
    | cons x t => exact ⟨x, t, rfl⟩
  have hx : x ≠ ' ' := fun e => hs (by rw [e]; rfl)
  have hpre : skipPrefixAux msvcPrefix
      ("Note: including file:".toList ++ (List.replicate (k + 1) ' ' ++ x :: t)) false false =
      ⟨List.replicate (k + 1) ' ' ++ x :: t, false, false⟩ := by
    have h1 := skipPrefixAux_append "Note: including file:".toList [Char.ofNat 0] ' '
      (List.replicate k ' ' ++ x :: t)
    have h2 : skipPrefixAux [Char.ofNat 0] (' ' :: (List.replicate k ' ' ++ x :: t)) false false =
        ⟨' ' :: (List.replicate k ' ' ++ x :: t), false, false⟩ := by
      rw [skipPrefixAux, if_neg (by decide)]
    rw [h2] at h1
    exact h1
  unfold scan
  simp only [IStream.ok, Bool.not_false, Bool.true_eq_false, if_false, tellg_good,
    Format.countDepth, IStream.skipRun, IStream.skipPrefix, msvcLine, hpre]
  rw [skipRunAux_replicate ' ' (k + 1) x t hx]
  simp only [Nat.succ_ne_zero, if_false, Format.skipSeparator]
  rw [seekg_some _ _ rfl, getline_last (x :: t) file h (by simp)]

/-- At the end of the buffer both grammars do the same thing. -/
theorem scan_at_end (fmt : Format) (file : Path) (e f : Bool) :
    scan fmt file ⟨[], e, f⟩ =
      if f = true then Scan.stop else Scan.noise file ⟨[], true, true⟩ := by
  cases f with
  | true => simp [scan, IStream.ok]
  | false =>
    cases e with
    | false => simpa using scan_text_end fmt file
    | true =>
      unfold scan
      simp [IStream.ok, tellg_eof, countDepth_fail, IStream.getline, IStream.sentry,
        IStream.good]

theorem SameEntriesOpen_sim : ScanSim Format.gcc Format.msvc Eq SameEntriesOpen := by
  intro f1 f2 s1 s2 hf hs
  subst hf
  rcases hs with ⟨es, last, hes, hlast, rfl, rfl⟩ | ⟨rfl, hbuf⟩
  · cases es with
    | nil =>
      obtain ⟨hd, hn, hp⟩ := hes last (List.mem_cons_self _ _)
      simp only [List.map_nil, renderLines, List.nil_append]
      rw [scan_gccLine_last f1 last hn hd hlast, scan_msvcLine_last f1 last hn hd hp hlast]
      exact ⟨rfl, rfl, Or.inr ⟨rfl, rfl⟩, Or.inl ⟨[], last, hes, hlast, rfl, rfl⟩⟩
    | cons e rest =>
      obtain ⟨hd, hn, hp⟩ := hes e (by simp)
      simp only [List.map_cons, renderLines, List.cons_append, List.append_assoc]
      rw [scan_gccLine f1 e _ hn hd, scan_msvcLine f1 e _ hn hd hp]
      have hes2 : ∀ x ∈ last :: rest, x.1 ≠ 0 ∧ newline ∉ x.2 ∧ x.2.head? ≠ some ' ' := by
        intro x hx
        apply hes x
        simp only [List.mem_cons] at hx ⊢
        rcases hx with hx | hx
        · exact Or.inl hx
        · exact Or.inr (Or.inr hx)
      refine ⟨rfl, rfl, Or.inl ⟨rest, last, hes2, hlast, rfl, rfl⟩,
        Or.inl ⟨e :: rest, last, hes, hlast, ?_, ?_⟩⟩
      · simp only [List.map_cons, renderLines, List.cons_append, List.append_assoc]
      · simp only [List.map_cons, renderLines, List.cons_append, List.append_assoc]
  · obtain ⟨b, e, f⟩ := s1
    simp only at hbuf
    subst hbuf
    rw [scan_at_end, scan_at_end]
    cases f with
    | true => simp
    | false => exact ⟨rfl, Or.inr ⟨rfl, rfl⟩⟩

/-- The two grammars give the same graph for the same include lines also when the last line
comes without its newline, as long as its path is not empty. -/
theorem ReadDepsFile_same_entries_open (es : List (Nat × Path)) (last : Nat × Path)
    (hes : ∀ e ∈ last :: es, e.1 ≠ 0 ∧ newline ∉ e.2 ∧ e.2.head? ≠ some ' ')
    (hlast : last.2 ≠ []) :
    ReadDepsFile (renderLines (es.map gccLine) ++ gccLine last) =
      ReadDepsFile (renderLines (es.map msvcLine) ++ msvcLine last) := by
  have hdot : ∀ e : Nat × Path, e.1 ≠ 0 → ∀ t, (gccLine e ++ t).head? = some '.' := by
    intro e he t
    obtain ⟨k, hk⟩ : ∃ k, e.1 = k + 1 := ⟨e.1 - 1, by omega⟩
    simp [gccLine, hk, List.replicate_succ]
  have hN : ∀ (e : Nat × Path) t, (msvcLine e ++ t).head? ≠ some '.' := by
    intro e t
    simp [msvcLine]
  have hpeek : ∀ (e : Nat × Path) t, (IStream.open (msvcLine e ++ t)).peek.2 =
      IStream.open (msvcLine e ++ t) := by
    intro e t
    simp [msvcLine, IStream.open, IStream.peek, IStream.sentry, IStream.good]
  have h1 : (renderLines (es.map gccLine) ++ gccLine last).head? = some '.' := by
    cases es with
    | nil =>
      have := hdot last (hes last (List.mem_cons_self _ _)).1 []
      simpa [renderLines] using this
    | cons e rest =>
      have := hdot e (hes e (by simp)).1 (newline :: (renderLines (rest.map gccLine) ++ gccLine last))
      simpa [renderLines] using this
  have h2 : ∃ e t, renderLines (es.map msvcLine) ++ msvcLine last = msvcLine e ++ t := by
    cases es with
    | nil => exact ⟨last, [], by simp [renderLines]⟩
    | cons e rest =>
      exact ⟨e, newline :: (renderLines (rest.map msvcLine) ++ msvcLine last),
        by simp [renderLines]⟩
  rw [ReadDepsFile_gcc _ h1]
  obtain ⟨e, t, het⟩ := h2
  rw [ReadDepsFile_msvc _ (by rw [het]; exact hN e t)]
  have hpk : (IStream.open (renderLines (es.map msvcLine) ++ msvcLine last)).peek.2 =
      IStream.open (renderLines (es.map msvcLine) ++ msvcLine last) := by
    rw [het]; exact hpeek e t
  rw [hpk]
  exact parseFrom_sim Format.gcc Format.msvc Eq SameEntriesOpen SameEntriesOpen_sim
    (fun _ => rfl) _ _ (Or.inl ⟨es, last, hes, hlast, rfl, rfl⟩)

/-- A last line without newline and with an empty path is read differently by the two grammars:
in the dot grammar `std::getline` clears `file`, in the other one the blank has already brought
the stream to its end and `file` keeps the path of the line before. -/
theorem open_empty_last_path :
    ReadDepsFile ". a\n. ".toList = some ⟨[[], "a".toList, []], [(0, 1), (0, 2)]⟩ ∧
    ReadDepsFile "Note: including file: a\nNote: including file: ".toList =
      some ⟨[[], "a".toList], [(0, 1), (0, 1)]⟩ := by
  decide

/-! ## The claims -/

/-- C1 (counterexample): the log `. x`, `. x` gives two parallel edges from the root to the vertex
`x`, and with the pattern `x` both examinations append the path: the output is `[x, x]`. -/
theorem C1_duplicate_keeper :
    ReadDepsFile ". x\n. x\n".toList = some ⟨[[], ['x']], [(0, 1), (0, 1)]⟩ ∧
    ComputeIncludeFiles [Regex.literal ['x']] ⟨[[], ['x']], [(0, 1), (0, 1)]⟩
      = [['x'], ['x']] := by
  refine ⟨by decide, ?_⟩
  simp [ComputeIncludeFiles, depth_first_search, depth_first_visit, num_vertices, out_edges,
    examine_edge, setFlag, vertexPath, Regex.literal, List.range, List.range.loop]

/-- C1 (amended): for every dependency graph and every pattern set, a path occurs in the list
returned by `ComputeIncludeFiles` at most as many times as the graph has edges whose target
carries that path. -/
theorem C1_keepers_bounded_by_edges (regex : List Regex) (deps : Graph) (p : Path) :
    (ComputeIncludeFiles regex deps).count p ≤ (edgeTargetPaths deps).count p :=
  ComputeIncludeFiles_count_le regex deps p

/-- C2 (counterexample): the log `. x`, `. m`, `.. x` with the patterns `x` and `m`.  The vertex
`m` (2) ends up covered and `x` (1) is reached from it by the edge (2, 1), yet the path `x` is in
the output: it was kept when the edge from the root to `x` was examined. -/
theorem C2_covered_ancestor_listed_descendant :
    ReadDepsFile ". x\n. m\n.. x\n".toList
      = some ⟨[[], ['x'], ['m']], [(0, 1), (0, 2), (2, 1)]⟩ ∧
    (depth_first_search [Regex.literal ['x'], Regex.literal ['m']]
      ⟨[[], ['x'], ['m']], [(0, 1), (0, 2), (2, 1)]⟩ initialFilterState).included_ 2 = true ∧
    ProperAncestor ⟨[[], ['x'], ['m']], [(0, 1), (0, 2), (2, 1)]⟩ 2 1 ∧
    vertexPath ⟨[[], ['x'], ['m']], [(0, 1), (0, 2), (2, 1)]⟩ 1 ∈
      ComputeIncludeFiles [Regex.literal ['x'], Regex.literal ['m']]
        ⟨[[], ['x'], ['m']], [(0, 1), (0, 2), (2, 1)]⟩ := by
  refine ⟨by decide, ?_, Relation.TransGen.single (by decide), ?_⟩
  · simp [depth_first_search, depth_first_visit, num_vertices, out_edges,
      examine_edge, setFlag, vertexPath, Regex.literal, List.range, List.range.loop,
      initialFilterState]
  · simp [ComputeIncludeFiles, depth_first_search, depth_first_visit, num_vertices, out_edges,
      examine_edge, setFlag, vertexPath, Regex.literal, List.range, List.range.loop]

/-- C2 (amended): on a tree rooted at the root whose vertices other than the root carry pairwise
distinct paths (as the parser builds from a well-nested log with distinct paths), if the vertex
`u` is marked covered by the traversal and one or more edges lead from `u` to `v`, then the path
of `v` is not in the list returned by `ComputeIncludeFiles`, whether or not it matches a
pattern. -/
theorem C2_covered_subtree_not_listed (regex : List Regex) (deps : Graph)
    (ht : IsTree deps) (hd : NonRootPathsDistinct deps) (u v : Nat)
    (hu : (depth_first_search regex deps initialFilterState).included_ u = true)
    (huv : ProperAncestor deps u v) :
    vertexPath deps v ∉ ComputeIncludeFiles regex deps := by
  obtain ⟨hk, hc⟩ := depth_first_search_tree regex deps ht
  obtain ⟨b, hub, _⟩ := Relation.TransGen.head'_iff.mp huv
  obtain ⟨x, _, hxv⟩ := Relation.TransGen.tail'_iff.mp huv
  have hult : u < num_vertices deps := (ht.inRange _ hub).1
  have hvlt : v < num_vertices deps := (ht.inRange _ hxv).2
  have hv0 : v ≠ 0 := ht.rootNoIn _ hxv
  obtain ⟨w, hw, hmw, hr⟩ := (hc u hult).mp hu
  have hwv : ProperAncestor deps w v := Relation.TransGen.trans_right hr huv
  intro hmem
  have hmem2 : vertexPath deps v ∈ (depth_first_search regex deps initialFilterState).keepers_ :=
    hmem
  rw [hk] at hmem2
  obtain ⟨v', hv', hpath⟩ := List.mem_map.mp hmem2
  obtain ⟨hpre, hfm⟩ := List.mem_filter.mp hv'
  have hfm' : FirstMatch regex deps v' := by simpa using hfm
  have hv'lt : v' < num_vertices deps := by
    rcases List.mem_cons.mp hpre with h | h
    · rw [h]; exact ht.hasRoot
    · exact preorderVisit_lt deps _ _ v' h
  have heq : v' = v := by
    rcases Nat.lt_trichotomy v' v with h | h | h
    · exact absurd hpath (hd v' v (Nat.pos_of_ne_zero hfm'.1) h hvlt)
    · exact h
    · exact absurd hpath.symm (hd v v' (Nat.pos_of_ne_zero hv0) h hv'lt)
  rw [heq] at hfm'
  have := hfm'.2.2 w hw hwv
  rw [this] at hmw
  exact Bool.false_ne_true hmw

/-- C2 (witness): the chain root, `h1`, `h2` with the pattern `h1`; `h1` is covered and `h2`
hangs below it. -/
theorem C2_covered_subtree_not_listed_witness :
    IsTree chainGraph ∧ NonRootPathsDistinct chainGraph ∧
    (depth_first_search [Regex.literal "h1".toList] chainGraph initialFilterState).included_ 1
      = true ∧
    ProperAncestor chainGraph 1 2 ∧
    vertexPath chainGraph 2 ∉ ComputeIncludeFiles [Regex.literal "h1".toList] chainGraph :=
  have hu : (depth_first_search [Regex.literal "h1".toList] chainGraph
      initialFilterState).included_ 1 = true := by
    simp [depth_first_search, depth_first_visit, num_vertices, out_edges,
      examine_edge, setFlag, vertexPath, Regex.literal, List.range, List.range.loop,
      initialFilterState, chainGraph]
  have huv : ProperAncestor chainGraph 1 2 :=
    Relation.TransGen.single (by decide : ((1 : Nat), (2 : Nat)) ∈ chainGraph.edges)
  ⟨chainGraph_isTree, chainGraph_distinct, hu, huv,
    C2_covered_subtree_not_listed [Regex.literal "h1".toList] chainGraph chainGraph_isTree
      chainGraph_distinct 1 2 hu huv⟩

/-- C3 (counterexample): the log `. a`, `..`, `. b`. Its lines have the depths 1, 2, 1, but the
line of dots only makes `ins.get()` take the newline, so that `std::getline` reads the whole
line `. b` as the path of the second line: the graph has two vertices besides the root for three
include lines, and the vertex of the text `. b` hangs from the vertex of `a`. -/
theorem C3_dots_only_line_swallows_next :
    [". a".toList, "..".toList, ". b".toList].map (fun l => (lineMarkers Format.gcc l).1)
      = [1, 2, 1] ∧
    ReadGccDepsFile (IStream.open ". a\n..\n. b\n".toList)
      = some ⟨[[], "a".toList, ". b".toList], [(0, 1), (1, 2)]⟩ := by
  decide

/-- C3 (amended): for every dot-format log made of lines that each end in a newline, in which
every include line has something behind its dots, whose include lines are well nested (the first
has depth 1, every later one is at most one level deeper than the one before) and carry pairwise
distinct paths, `ReadGccDepsFile` returns the graph with one vertex besides the root and one edge
per include line of the text, the edge of a line of depth `d` going from the vertex of the
nearest preceding line of depth `d - 1` (the root when `d` is 1) to the vertex of the line; that
graph is a tree, and every edge leads from a line of some depth to a line one level deeper. -/
theorem C3_well_nested_log_gives_tree (ls : List (List Char))
    (hn : ∀ l ∈ ls, newline ∉ l)
    (hr : ∀ l ∈ ls, (lineMarkers Format.gcc l).1 ≠ 0 → (lineMarkers Format.gcc l).2 ≠ [])
    (hwn : WellNested ((textEntries Format.gcc ls).map Prod.fst))
    (hnd : ((textEntries Format.gcc ls).map Prod.snd).Nodup) :
    ∃ g, ReadGccDepsFile (IStream.open (renderLines ls)) = some g ∧
      g.paths = [] :: (textEntries Format.gcc ls).map Prod.snd ∧
      g.edges = expectedEdges (textEntries Format.gcc ls) ∧
      IsTree g ∧
      ∀ e ∈ g.edges, lineDepth (textEntries Format.gcc ls) e.2
        = lineDepth (textEntries Format.gcc ls) e.1 + 1 := by
  have hT : TextLines Format.gcc ls := fun l hl => ⟨hn l hl, fun hd _ => hr l hl hd⟩
  obtain ⟨st, h⟩ := parseFrom_total Format.gcc (IStream.open (renderLines ls))
  have hl : textEntries Format.gcc ls = st.seen := by
    rw [← includeLines_text Format.gcc ls hT]
    simp [includeLines, h]
  rw [hl] at hwn hnd ⊢
  obtain ⟨⟨t1, t2, _⟩, hpos⟩ := parseFrom_tree Format.gcc _ st h hwn hnd
  refine ⟨st.deps, by simp [ReadGccDepsFile, h], t1, t2, ?_, ?_⟩
  · have := expectedEdges_isTree st.seen
    rw [← t1, ← t2] at this
    exact this
  · rw [t2]
    exact expectedEdges_depth st.seen hwn hpos

theorem includeLines_abc :
    includeLines Format.gcc (IStream.open ". a\n.. b\n. c\n".toList)
      = [(1, ['a']), (2, ['b']), (1, ['c'])] := by
  decide

theorem textEntries_abc :
    textEntries Format.gcc [". a".toList, ".. b".toList, ". c".toList]
      = [(1, ['a']), (2, ['b']), (1, ['c'])] := by
  decide

/-- C3 (witness): the log `. a`, `.. b`, `. c`. -/
theorem C3_well_nested_log_gives_tree_witness :
    renderLines [". a".toList, ".. b".toList, ". c".toList] = ". a\n.. b\n. c\n".toList ∧
    textEntries Format.gcc [". a".toList, ".. b".toList, ". c".toList]
      = [(1, ['a']), (2, ['b']), (1, ['c'])] ∧
    ∃ g, ReadGccDepsFile (IStream.open (renderLines [". a".toList, ".. b".toList, ". c".toList]))
        = some g ∧
      g.paths = [] ::
        (textEntries Format.gcc [". a".toList, ".. b".toList, ". c".toList]).map Prod.snd ∧
      g.edges = expectedEdges
        (textEntries Format.gcc [". a".toList, ".. b".toList, ". c".toList]) ∧
      IsTree g ∧
      ∀ e ∈ g.edges,
        lineDepth (textEntries Format.gcc [". a".toList, ".. b".toList, ". c".toList]) e.2
          = lineDepth (textEntries Format.gcc [". a".toList, ".. b".toList, ". c".toList]) e.1
            + 1 :=
  ⟨by decide, textEntries_abc,
    C3_well_nested_log_gives_tree [". a".toList, ".. b".toList, ". c".toList]
      (by decide) (by decide)
      (by rw [textEntries_abc]; simp [WellNested]) (by rw [textEntries_abc]; decide)⟩

/-- C4 (failing input): in the log `. a`, `. b`, `.. x`, `. a`, `.. y` (depths 1, 1, 2, 1, 2) the
line `.. y` follows the depth-1 line `. a`, whose vertex (1) already existed; the edge added for
`.. y` is (2, 4): it leaves vertex 2 (`b`), the last vertex that was newly created at depth 1,
where the nearest preceding line of depth 1 has vertex 1. -/
theorem C4_stale_sibling :
    includeLines Format.gcc (IStream.open ". a\n. b\n.. x\n. a\n.. y\n".toList)
      = [(1, ['a']), (1, ['b']), (2, ['x']), (1, ['a']), (2, ['y'])] ∧
    ReadDepsFile ". a\n. b\n.. x\n. a\n.. y\n".toList
      = some ⟨[[], ['a'], ['b'], ['x'], ['y']], [(0, 1), (0, 2), (2, 3), (0, 1), (2, 4)]⟩ := by
  decide

/-- C5: for every tree rooted at the root vertex and every pattern set, `ComputeIncludeFiles`
returns exactly the paths, in depth-first pre-order (out-edges in insertion order), of the
vertices other than the root whose path matches a pattern and that have no proper ancestor
other than the root with a matching path. -/
theorem C5_tree_output_is_preorder_of_first_matches (regex : List Regex) (deps : Graph)
    (ht : IsTree deps) :
    ComputeIncludeFiles regex deps =
      ((dfsPreorder deps).filter
        (fun v => @decide (FirstMatch regex deps v) (Classical.propDecidable _))).map
        (vertexPath deps) :=
  (depth_first_search_tree regex deps ht).1

theorem chainGraph_preorder : dfsPreorder chainGraph = [0, 1, 2] := by
  simp [dfsPreorder, preorderVisit, chainGraph, out_edges, num_vertices, setFlag]

theorem chainGraph_keepers :
    ComputeIncludeFiles [Regex.literal "h1".toList] chainGraph = ["h1".toList] := by
  simp [ComputeIncludeFiles, depth_first_search, depth_first_visit, num_vertices, out_edges,
    examine_edge, setFlag, vertexPath, Regex.literal, List.range, List.range.loop, chainGraph]

/-- C5 (witness): the chain root, `h1`, `h2` with the pattern `h1`; its pre-order is 0, 1, 2
and the output is `[h1]`. -/
theorem C5_tree_output_is_preorder_of_first_matches_witness :
    IsTree chainGraph ∧
    dfsPreorder chainGraph = [0, 1, 2] ∧
    ComputeIncludeFiles [Regex.literal "h1".toList] chainGraph = ["h1".toList] ∧
    ComputeIncludeFiles [Regex.literal "h1".toList] chainGraph =
      ((dfsPreorder chainGraph).filter
        (fun v => @decide (FirstMatch [Regex.literal "h1".toList] chainGraph v)
          (Classical.propDecidable _))).map (vertexPath chainGraph) :=
  ⟨chainGraph_isTree, chainGraph_preorder, chainGraph_keepers,
    C5_tree_output_is_preorder_of_first_matches [Regex.literal "h1".toList] chainGraph
      chainGraph_isTree⟩

/-- C6 (counterexample): on the log `.h1`, `..h2` the character after the dots is dropped by
`ins.get()`, the vertices carry the paths `1` and `2`, and the pattern `h1` keeps nothing. -/
theorem C6_example_as_written :
    ReadDepsFile ".h1\n..h2\n".toList = some ⟨[[], ['1'], ['2']], [(0, 1), (1, 2)]⟩ ∧
    ComputeIncludeFiles [Regex.literal "h1".toList] ⟨[[], ['1'], ['2']], [(0, 1), (1, 2)]⟩
      = [] := by
  refine ⟨by decide, ?_⟩
  simp [ComputeIncludeFiles, depth_first_search, depth_first_visit, num_vertices, out_edges,
    examine_edge, setFlag, vertexPath, Regex.literal, List.range, List.range.loop]

/-- C6 (amended): on the log `. h1`, `.. h2` (dots, one separator character, path) the parser
builds the chain root, `h1`, `h2`, and the single pattern `h1` returns exactly `[h1]`. -/
theorem C6_example_with_separator :
    ReadDepsFile ". h1\n.. h2\n".toList
      = some ⟨[[], "h1".toList, "h2".toList], [(0, 1), (1, 2)]⟩ ∧
    ComputeIncludeFiles [Regex.literal "h1".toList]
      ⟨[[], "h1".toList, "h2".toList], [(0, 1), (1, 2)]⟩ = ["h1".toList] := by
  refine ⟨by decide, ?_⟩
  simp [ComputeIncludeFiles, depth_first_search, depth_first_visit, num_vertices, out_edges,
    examine_edge, setFlag, vertexPath, Regex.literal, List.range, List.range.loop]

/-- C8 (failing input): whenever there is at least one keeper and the existing file holds exactly
the lines that would be written, `main` compares those lines with the bare keeper paths, finds
them different and writes the file again. -/
theorem C8_rewrites_unchanged_file (p : Path) (ps : List Path) :
    mainRewrite ((p :: ps).map includeLine) (p :: ps) = some ((p :: ps).map includeLine) := by
  unfold mainRewrite
  have h : (p :: ps).map includeLine ≠ p :: ps := by
    intro h
    have h1 : includeLine p = p := by
      simpa using (List.cons.inj h).1
    have h2 := congrArg List.length h1
    simp [includeLine] at h2
    omega
  rw [if_pos h]

/-- C9 (counterexample): the log `. ` (a dot, a blank, nothing else on the line) makes the
parser create a vertex with the empty path next to the root, which is not in `include_map`. -/
theorem C9_second_empty_path :
    ReadDepsFile ". \n".toList = some ⟨[[], []], [(0, 1)]⟩ ∧
    vertexPath ⟨[[], []], [(0, 1)]⟩ 0 = vertexPath ⟨[[], []], [(0, 1)]⟩ 1 := by
  decide

/-- C9 (amended): for every log in either format the parser returns a graph in which no two
distinct vertices other than the root carry the same path. -/
theorem C9_nonroot_paths_distinct (ins : IStream) (content : List Char) :
    (∃ g, ReadGccDepsFile ins = some g ∧ NonRootPathsDistinct g) ∧
    (∃ g, ReadMsvcDepsFile ins = some g ∧ NonRootPathsDistinct g) ∧
    (∃ g, ReadDepsFile content = some g ∧ NonRootPathsDistinct g) := by
  refine ⟨parseFrom_distinct Format.gcc ins, parseFrom_distinct Format.msvc ins, ?_⟩
  unfold ReadDepsFile
  simp only
  split
  · exact parseFrom_distinct Format.gcc _
  · exact parseFrom_distinct Format.msvc _

/-- C11: in a dot-format log of three include lines where a header `f` stands once at depth 1
and once at depth 2 right below another depth-1 header `m` (in either order), with a pattern
that matches the path of `m`, parsing and filtering list the path of `f` at most once, whether
or not a pattern matches it. -/
theorem C11_header_included_twice_listed_once (regex : List Regex) (pm pf : Path)
    (hm : newline ∉ pm) (hf : newline ∉ pf) (hne : normalize pm ≠ normalize pf)
    (hmatch : ∃ test ∈ regex, test.regex_match (normalize pm) = true) :
    (∃ g, ReadDepsFile (renderLines ([(1, pm), (2, pf), (1, pf)].map gccLine)) = some g ∧
      (ComputeIncludeFiles regex g).count (normalize pf) ≤ 1) ∧
    (∃ g, ReadDepsFile (renderLines ([(1, pf), (1, pm), (2, pf)].map gccLine)) = some g ∧
      (ComputeIncludeFiles regex g).count (normalize pf) ≤ 1) :=
  ⟨⟨_, parse_nested_then_direct pm pf hm hf hne,
      filter_nested_then_direct regex _ _ hne hmatch⟩,
    ⟨_, parse_direct_then_nested pm pf hm hf hne,
      filter_direct_then_nested regex _ _ hne hmatch⟩⟩

/-- C11 (witness): the headers `m.h` and `sys/foo.h` with the pattern `m.h`. -/
theorem C11_header_included_twice_listed_once_witness :
    (∃ g, ReadDepsFile (renderLines
        ([(1, "m.h".toList), (2, "sys/foo.h".toList), (1, "sys/foo.h".toList)].map gccLine))
          = some g ∧
      (ComputeIncludeFiles [Regex.literal "m.h".toList] g).count
        (normalize "sys/foo.h".toList) ≤ 1) ∧
    (∃ g, ReadDepsFile (renderLines
        ([(1, "sys/foo.h".toList), (1, "m.h".toList), (2, "sys/foo.h".toList)].map gccLine))
          = some g ∧
      (ComputeIncludeFiles [Regex.literal "m.h".toList] g).count
        (normalize "sys/foo.h".toList) ≤ 1) :=
  C11_header_included_twice_listed_once [Regex.literal "m.h".toList] "m.h".toList
    "sys/foo.h".toList (by decide) (by decide) (by decide)
    ⟨Regex.literal "m.h".toList, List.mem_singleton.2 rfl, by decide⟩

/-- C12 (counterexample): a log whose last line holds markers only and has no newline.  The
failed `std::getline` leaves the text of the line of depth 0 in `file`, and that text becomes the
path of a vertex; without the line of depth 0 the vertex has the empty path.  So deleting the
line `x` changes the graph, for either parser. -/
theorem C12_noise_line_changes_graph :
    ReadGccDepsFile (IStream.open "x\n.".toList) = some ⟨[[], "x".toList], [(0, 1)]⟩ ∧
    ReadGccDepsFile (IStream.open ".".toList) = some ⟨[[], []], [(0, 1)]⟩ ∧
    ReadMsvcDepsFile (IStream.open "x\nNote: including file: ".toList)
      = some ⟨[[], "x".toList], [(0, 1)]⟩ ∧
    ReadMsvcDepsFile (IStream.open "Note: including file: ".toList)
      = some ⟨[[], []], [(0, 1)]⟩ := by
  decide

/-- C12 (amended): for a log made of lines that each end in a newline, deleting the lines whose
nesting depth is 0 leaves the graph unchanged: for `ReadMsvcDepsFile` always, for
`ReadGccDepsFile` when every include line has something behind its dots. -/
theorem C12_deleting_noise_lines_keeps_graph (ls : List (List Char))
    (hn : ∀ l ∈ ls, newline ∉ l) :
    ((∀ l ∈ ls, (lineMarkers Format.gcc l).1 ≠ 0 → (lineMarkers Format.gcc l).2 ≠ []) →
      ReadGccDepsFile (IStream.open (renderLines ls)) =
        ReadGccDepsFile (IStream.open (renderLines (dropNoise Format.gcc ls)))) ∧
    ReadMsvcDepsFile (IStream.open (renderLines ls)) =
      ReadMsvcDepsFile (IStream.open (renderLines (dropNoise Format.msvc ls))) := by
  constructor
  · intro hr
    exact parseFrom_dropNoise Format.gcc ls (fun l hl => ⟨hn l hl, fun hd _ => hr l hl hd⟩)
  · exact parseFrom_dropNoise Format.msvc ls
      (fun l hl => ⟨hn l hl, fun _ hc => Format.noConfusion hc⟩)

/-- C12 (witness): the log `x`, `. a`, `y`, `.. b` and the same log in the other grammar. -/
theorem C12_deleting_noise_lines_keeps_graph_witness :
    (∀ l ∈ ["x".toList, ". a".toList, "y".toList, ".. b".toList], newline ∉ l) ∧
    (∀ l ∈ ["x".toList, ". a".toList, "y".toList, ".. b".toList],
      (lineMarkers Format.gcc l).1 ≠ 0 → (lineMarkers Format.gcc l).2 ≠ []) ∧
    dropNoise Format.gcc ["x".toList, ". a".toList, "y".toList, ".. b".toList] =
      [". a".toList, ".. b".toList] ∧
    ReadGccDepsFile (IStream.open
        (renderLines ["x".toList, ". a".toList, "y".toList, ".. b".toList])) =
      ReadGccDepsFile (IStream.open (renderLines
        (dropNoise Format.gcc ["x".toList, ". a".toList, "y".toList, ".. b".toList]))) ∧
    ReadMsvcDepsFile (IStream.open
        (renderLines ["x".toList, ". a".toList, "y".toList, ".. b".toList])) =
      ReadMsvcDepsFile (IStream.open (renderLines
        (dropNoise Format.msvc ["x".toList, ". a".toList, "y".toList, ".. b".toList]))) :=
  ⟨by decide, by decide, by decide,
    (C12_deleting_noise_lines_keeps_graph
      ["x".toList, ". a".toList, "y".toList, ".. b".toList] (by decide)).1 (by decide),
    (C12_deleting_noise_lines_keeps_graph
      ["x".toList, ". a".toList, "y".toList, ".. b".toList] (by decide)).2⟩

/-- C13: for every log, in either format, the graph the parser returns has the empty path at
the root vertex and no edge that leads to the root vertex. -/
theorem C13_no_edge_into_root (ins : IStream) (content : List Char) :
    (∃ g, ReadGccDepsFile ins = some g ∧ vertexPath g 0 = [] ∧ ∀ e ∈ g.edges, e.2 ≠ 0) ∧
    (∃ g, ReadMsvcDepsFile ins = some g ∧ vertexPath g 0 = [] ∧ ∀ e ∈ g.edges, e.2 ≠ 0) ∧
    (∃ g, ReadDepsFile content = some g ∧ vertexPath g 0 = [] ∧ ∀ e ∈ g.edges, e.2 ≠ 0) := by
  refine ⟨parseFrom_root_no_in Format.gcc ins, parseFrom_root_no_in Format.msvc ins, ?_⟩
  unfold ReadDepsFile
  simp only
  split
  · exact parseFrom_root_no_in Format.gcc _
  · exact parseFrom_root_no_in Format.msvc _

/-- C14: for every log, `ReadDepsFile` returns the same graph for the log and for the log with
every backslash replaced by a forward slash, and no path of a vertex of that graph contains a
backslash. -/
theorem C14_backslashes_normalized (log : List Char) :
    ReadDepsFile (replaceBackslashes log) = ReadDepsFile log ∧
    ∃ g, ReadDepsFile log = some g ∧ NoBackslash g := by
  refine ⟨ReadDepsFile_replaced log, ?_⟩
  obtain ⟨g, hg, _⟩ := ReadDepsFile_ok log
  exact ⟨g, hg, ReadDepsFile_no_backslash log g hg⟩

/-- C15: in a graph whose edges start at vertices and in which every vertex other than the root
has an incoming edge, every vertex other than the root whose path matches a pattern has its path
in the output of `ComputeIncludeFiles`, or one or more edges lead to it from a vertex whose path
is in the output. -/
theorem C15_matching_vertex_kept_or_below_kept (regex : List Regex) (g : Graph)
    (hsrc : ∀ e ∈ g.edges, e.1 < num_vertices g)
    (hin : ∀ v, v < num_vertices g → v ≠ 0 → ∃ e ∈ g.edges, e.2 = v)
    (v : Nat) (hv : v < num_vertices g) (h0 : v ≠ 0) (hm : matchesAny regex g v = true) :
    vertexPath g v ∈ ComputeIncludeFiles regex g ∨
    ∃ w, w < num_vertices g ∧ vertexPath g w ∈ ComputeIncludeFiles regex g ∧
      ProperAncestor g w v :=
  ComputeIncludeFiles_covers regex g hsrc v (hin v hv h0) hm

/-- C15 (witness): the chain root, `h1`, `h2` with the pattern `h1`, at the vertex of `h1`. -/
theorem C15_matching_vertex_kept_or_below_kept_witness :
    (∀ e ∈ chainGraph.edges, e.1 < num_vertices chainGraph) ∧
    (∀ v, v < num_vertices chainGraph → v ≠ 0 → ∃ e ∈ chainGraph.edges, e.2 = v) ∧
    matchesAny [Regex.literal "h1".toList] chainGraph 1 = true ∧
    (vertexPath chainGraph 1 ∈ ComputeIncludeFiles [Regex.literal "h1".toList] chainGraph ∨
      ∃ w, w < num_vertices chainGraph ∧
        vertexPath chainGraph w ∈ ComputeIncludeFiles [Regex.literal "h1".toList] chainGraph ∧
        ProperAncestor chainGraph w 1) :=
  ⟨(GraphOk_parents chainGraph chainGraph_ok).1, (GraphOk_parents chainGraph chainGraph_ok).2,
    by decide,
    C15_matching_vertex_kept_or_below_kept [Regex.literal "h1".toList] chainGraph
      (GraphOk_parents chainGraph chainGraph_ok).1 (GraphOk_parents chainGraph chainGraph_ok).2
      1 (by decide) (by decide) (by decide)⟩

/-- C16: every element of the list `ComputeIncludeFiles` returns is the path of the target of
an edge of the graph, and a pattern of the set matches it as a whole. -/
theorem C16_output_is_matched_edge_target (regex : List Regex) (deps : Graph) (p : Path)
    (hp : p ∈ ComputeIncludeFiles regex deps) :
    (∃ e ∈ deps.edges, vertexPath deps e.2 = p) ∧
    ∃ test ∈ regex, test.regex_match p = true :=
  ComputeIncludeFiles_matched regex deps p hp

/-- C16 (witness): the chain root, `h1`, `h2` with the pattern `h1`; the output holds `h1`. -/
theorem C16_output_is_matched_edge_target_witness :
    "h1".toList ∈ ComputeIncludeFiles [Regex.literal "h1".toList] chainGraph ∧
    (∃ e ∈ chainGraph.edges, vertexPath chainGraph e.2 = "h1".toList) ∧
    ∃ test ∈ [Regex.literal "h1".toList], test.regex_match "h1".toList = true :=
  ⟨by rw [chainGraph_keepers]; exact List.mem_singleton.2 rfl,
    C16_output_is_matched_edge_target [Regex.literal "h1".toList] chainGraph "h1".toList
      (by rw [chainGraph_keepers]; exact List.mem_singleton.2 rfl)⟩

/-- C17: started at depth 0 on any stream, `ReadGccDepsFileRecursive` and
`ReadMsvcDepsFileRecursive` return (the fuel `parseFuel` is enough), and every call they make of
themselves has a `depth` argument below the depth of the line in front of which it is made,
which is the depth of an include line of the log. -/
theorem C17_descent_terminates_and_is_bounded (ins : IStream) :
    (∃ st calls,
      ReadDepsFileRecursiveCalls Format.gcc (parseFuel ins) 0 0 0 [] (initialState ins)
        = some (st, calls) ∧
      ReadGccDepsFileRecursive (parseFuel ins) 0 0 0 [] (initialState ins) = some st ∧
      ∀ c ∈ calls, c.1 < c.2 ∧ ∃ p, (c.2, p) ∈ st.seen) ∧
    (∃ st calls,
      ReadDepsFileRecursiveCalls Format.msvc (parseFuel ins) 0 0 0 [] (initialState ins)
        = some (st, calls) ∧
      ReadMsvcDepsFileRecursive (parseFuel ins) 0 0 0 [] (initialState ins) = some st ∧
      ∀ c ∈ calls, c.1 < c.2 ∧ ∃ p, (c.2, p) ∈ st.seen) :=
  ⟨parseFrom_calls Format.gcc ins, parseFrom_calls Format.msvc ins⟩

/-- C18: for every list of pairs of a depth of at least 1 and a path that neither starts with a
space nor holds a newline, `ReadDepsFile` returns the same graph for the dot-format log (lines:
the dots, one space, the path) and for the prefixed-space log (lines: `Note: including file:`,
the spaces, the path), each line followed by a newline. -/
theorem C18_grammars_agree (es : List (Nat × Path))
    (hes : ∀ e ∈ es, 1 ≤ e.1 ∧ newline ∉ e.2 ∧ e.2.head? ≠ some ' ') :
    ReadDepsFile (renderLines (es.map gccLine)) = ReadDepsFile (renderLines (es.map msvcLine)) ∧
    ∃ g, ReadDepsFile (renderLines (es.map gccLine)) = some g := by
  refine ⟨ReadDepsFile_same_entries es (fun e he => ⟨?_, (hes e he).2⟩), ?_⟩
  · have := (hes e he).1
    omega
  · obtain ⟨g, hg, _⟩ := ReadDepsFile_ok (renderLines (es.map gccLine))
    exact ⟨g, hg⟩

/-- C18 (witness): the headers `a.h` at depth 1, `b.h` at depth 2 and `c.h` at depth 1. -/
theorem C18_grammars_agree_witness :
    (∀ e ∈ [(1, "a.h".toList), (2, "b.h".toList), (1, "c.h".toList)],
      1 ≤ e.1 ∧ newline ∉ e.2 ∧ e.2.head? ≠ some ' ') ∧
    renderLines ([(1, "a.h".toList), (2, "b.h".toList), (1, "c.h".toList)].map gccLine) =
      ". a.h\n.. b.h\n. c.h\n".toList ∧
    renderLines ([(1, "a.h".toList), (2, "b.h".toList), (1, "c.h".toList)].map msvcLine) =
      ("Note: including file: a.h\nNote: including file:  b.h\n" ++
        "Note: including file: c.h\n").toList ∧
    ReadDepsFile (renderLines
        ([(1, "a.h".toList), (2, "b.h".toList), (1, "c.h".toList)].map gccLine)) =
      ReadDepsFile (renderLines
        ([(1, "a.h".toList), (2, "b.h".toList), (1, "c.h".toList)].map msvcLine)) ∧
    ∃ g, ReadDepsFile (renderLines
        ([(1, "a.h".toList), (2, "b.h".toList), (1, "c.h".toList)].map gccLine)) = some g :=
  ⟨by decide, by decide, by decide,
    C18_grammars_agree [(1, "a.h".toList), (2, "b.h".toList), (1, "c.h".toList)] (by decide)⟩

/-- C19 (counterexample): the log `.`, `. a` has two lines of depth 1, but the line of dots
only makes `ins.get()` take the newline and `std::getline` read `. a` as its path: the graph has
one edge, to a vertex with the path `. a`. -/
theorem C19_two_include_lines_one_edge :
    [".".toList, ". a".toList].map (fun l => (lineMarkers Format.gcc l).1) = [1, 1] ∧
    ReadGccDepsFile (IStream.open ".\n. a\n".toList)
      = some ⟨[[], ". a".toList], [(0, 1)]⟩ := by
  decide

/-- C19 (amended): for a log made of lines that each end in a newline, the graph has exactly
one edge per line of the text with depth at least 1, and the targets of the edges, in insertion
order, carry the paths that stand on these lines behind the markers (backslashes replaced), in
log order: for `ReadMsvcDepsFile` always, for `ReadGccDepsFile` when every include line has
something behind its dots. -/
theorem C19_one_edge_per_include_line (ls : List (List Char))
    (hn : ∀ l ∈ ls, newline ∉ l) :
    ((∀ l ∈ ls, (lineMarkers Format.gcc l).1 ≠ 0 → (lineMarkers Format.gcc l).2 ≠ []) →
      ∃ g, ReadGccDepsFile (IStream.open (renderLines ls)) = some g ∧
        g.edges.length = (dropNoise Format.gcc ls).length ∧
        g.edges.map (fun e => vertexPath g e.2) =
          (dropNoise Format.gcc ls).map (fun l => normalize (linePayload Format.gcc l))) ∧
    ∃ g, ReadMsvcDepsFile (IStream.open (renderLines ls)) = some g ∧
      g.edges.length = (dropNoise Format.msvc ls).length ∧
      g.edges.map (fun e => vertexPath g e.2) =
        (dropNoise Format.msvc ls).map (fun l => normalize (linePayload Format.msvc l)) := by
  have key : ∀ fmt, TextLines fmt ls →
      ∃ g, (parseFrom fmt (IStream.open (renderLines ls))).map (fun st => st.deps) = some g ∧
        g.edges.length = (dropNoise fmt ls).length ∧
        g.edges.map (fun e => vertexPath g e.2) =
          (dropNoise fmt ls).map (fun l => normalize (linePayload fmt l)) := by
    intro fmt hT
    obtain ⟨g, hg, h1, h2, _⟩ := parseFrom_edgePerLine fmt (IStream.open (renderLines ls))
    rw [includeLines_text fmt ls hT] at h1 h2
    refine ⟨g, hg, ?_, ?_⟩
    · rw [h1]; simp [textEntries]
    · rw [h2]; simp [textEntries]
  constructor
  · intro hr
    exact key Format.gcc (fun l hl => ⟨hn l hl, fun hd _ => hr l hl hd⟩)
  · exact key Format.msvc (fun l hl => ⟨hn l hl, fun _ hc => Format.noConfusion hc⟩)

/-- C19 (witness): the log `x`, `. a`, `y`, `.. b\c`, with two include lines. -/
theorem C19_one_edge_per_include_line_witness :
    (∀ l ∈ ["x".toList, ". a".toList, "y".toList, ['.', '.', ' ', 'b', backslash, 'c']],
      newline ∉ l) ∧
    (∀ l ∈ ["x".toList, ". a".toList, "y".toList, ['.', '.', ' ', 'b', backslash, 'c']],
      (lineMarkers Format.gcc l).1 ≠ 0 → (lineMarkers Format.gcc l).2 ≠ []) ∧
    (dropNoise Format.gcc
        ["x".toList, ". a".toList, "y".toList, ['.', '.', ' ', 'b', backslash, 'c']]).map
      (fun l => normalize (linePayload Format.gcc l)) = ["a".toList, "b/c".toList] ∧
    ∃ g, ReadGccDepsFile (IStream.open (renderLines
        ["x".toList, ". a".toList, "y".toList, ['.', '.', ' ', 'b', backslash, 'c']])) = some g ∧
      g.edges.length = (dropNoise Format.gcc
        ["x".toList, ". a".toList, "y".toList, ['.', '.', ' ', 'b', backslash, 'c']]).length ∧
      g.edges.map (fun e => vertexPath g e.2) =
        (dropNoise Format.gcc
          ["x".toList, ". a".toList, "y".toList, ['.', '.', ' ', 'b', backslash, 'c']]).map
        (fun l => normalize (linePayload Format.gcc l)) :=
  ⟨by decide, by decide, by decide,
    (C19_one_edge_per_include_line
      ["x".toList, ". a".toList, "y".toList, ['.', '.', ' ', 'b', backslash, 'c']]
      (by decide)).1 (by decide)⟩

/-- C20: for every log, in either format, every vertex of the graph the parser returns is
reachable from the root vertex along edges. -/
theorem C20_every_vertex_reachable_from_root (ins : IStream) (content : List Char) :
    (∃ g, ReadGccDepsFile ins = some g ∧ ∀ v, v < num_vertices g → Reach g 0 v) ∧
    (∃ g, ReadMsvcDepsFile ins = some g ∧ ∀ v, v < num_vertices g → Reach g 0 v) ∧
    (∃ g, ReadDepsFile content = some g ∧ ∀ v, v < num_vertices g → Reach g 0 v) := by
  obtain ⟨g1, h1, ok1⟩ := parseFrom_ok Format.gcc ins
  obtain ⟨g2, h2, ok2⟩ := parseFrom_ok Format.msvc ins
  obtain ⟨g3, h3, ok3⟩ := ReadDepsFile_ok content
  exact ⟨⟨g1, h1, ok1.2.2⟩, ⟨g2, h2, ok2.2.2⟩, ⟨g3, h3, ok3.2.2⟩⟩

end AutoPch
